import Mathlib

/-!
# maketopologicf90: a shallow embedding of `maketopologicf90.c`

The program scans Fortran sources for `module` / `use` lines, builds the
dependency graph of the files and prints a topological build order (Kahn's
algorithm).

Conventions of the embedding:

* a C string is the list of its bytes before the terminating NUL (`CStr`);
  bytes are natural numbers, `isspace` / `tolower` are those of the "C" locale;
* a (pointer, count) array is a list, its count is the length of the list;
* a file on disk is the list of the strings that successive `fgets` calls
  return for it;
* `fopen`, `malloc`, `calloc` and `realloc` succeed;
* a failed `assert` is the result `none` of an `Option`-valued function;
* the `while` loop of `topologic_sort` is run with fuel, `none` meaning that the
  fuel ran out before the loop ended; on the graphs that `build_graph` builds the
  fuel `file_count` is enough (`topologic_sort_result`).

* the directory walk is the list of the paths of the source files that it finds,
  in the order in which it finds them.

The first part of the file is the embedding, function by function, by and large
in the order of the source. The second part holds the predicates and reference functions in
which the properties are stated, the third part the properties.
-/

namespace MakeTopologic

/-! ## Constants (lines 10-16) -/

def INITIAL_FILE_CAPACITY : Nat := 1024
def MAX_FILE_CAPACITY : Nat := 100000
def INITIAL_USES_CAPACITY : Nat := 16
def MAX_USES_CAPACITY : Nat := 10000
def MAX_LINE : Nat := 1024
def MAX_MODULE_LEN : Nat := 100
def HASH_SIZE : Nat := 16384

/-- A C string: its bytes before the terminating NUL. -/
abbrev CStr := List Nat

/-- The bytes of a string literal. -/
def cstr (s : String) : CStr := s.toList.map Char.toNat

/-! ## Data (lines 18-36, 285-292) -/

/-- The struct `FortranFile`; `uses_count` is `uses.length`. -/
structure FortranFile where
  filename : CStr
  module_name : CStr
  uses : List Int
  uses_capacity : Nat
deriving DecidableEq, Repr

/-- The struct `HashEntry` without its `next` pointer: a chain is a list of entries. -/
structure HashEntry where
  key : CStr
  value : Int
deriving DecidableEq, Repr

/-- The array `hash_table`: bucket number to chain. -/
abbrev HashTable := Nat → List HashEntry

/-- The table with every bucket `NULL` (line 36). -/
def empty_table : HashTable := fun _ => []

/-- The struct `AdjList`; `count` is `edges.length`. -/
structure AdjList where
  edges : List Nat
  capacity : Nat
deriving DecidableEq, Repr

/-! ## libc character functions in the "C" locale -/

/-- The function `isspace`: space, `\t`, `\n`, `\v`, `\f`, `\r`. -/
def isspace (c : Nat) : Bool := c == 32 || (9 ≤ c && c ≤ 13)

/-- The function `tolower`: `A`..`Z` to `a`..`z`, every other byte unchanged. -/
def tolower (c : Nat) : Nat := if 65 ≤ c ∧ c ≤ 90 then c + 32 else c

/-- The function `isupper`: `A`..`Z`. -/
def isupper (c : Nat) : Bool := 65 ≤ c && c ≤ 90

/-! ## Hash table (lines 38-71) -/

/-- Lines 38-46: 32-bit FNV-1a, reduced modulo `HASH_SIZE`. -/
def fnv1a_hash (str : CStr) : Nat :=
  (str.foldl (fun hash c => ((hash ^^^ (c % 256)) * 16777619) % 2 ^ 32) 2166136261) % HASH_SIZE

/-- Lines 48-50. -/
def hash_func (str : CStr) : Nat := fnv1a_hash str

/-- Lines 52-63: the new entry becomes the head of the chain of its bucket. -/
def hash_insert (table : HashTable) (key : CStr) (value : Int) : HashTable :=
  fun h => if h = hash_func key then { key := key, value := value } :: table h else table h

/-- The loop of lines 67-69 over one chain, then line 70. -/
def chain_lookup (key : CStr) : List HashEntry → Int
  | [] => -1
  | e :: next => if e.key = key then e.value else chain_lookup key next

/-- Lines 65-71. -/
def hash_lookup (table : HashTable) (key : CStr) : Int :=
  chain_lookup key (table (hash_func key))

/-! ## String helpers (lines 85-117, 223-236) -/

/-- Lines 85-90. -/
def str_tolower (s : CStr) : CStr := s.map tolower

/-- Line 96 on a non-empty string: trailing white space is cut, the first byte stays
(`end > str`). -/
def trim_end : CStr → CStr
  | [] => []
  | c :: rest => c :: (rest.reverse.dropWhile isspace).reverse

/-- Lines 92-98. -/
def trim (str : CStr) : CStr := trim_end (str.dropWhile isspace)

/-- Lines 100-102. -/
def iscomma (item : Nat) : Bool := item == 44

/-- Line 109: skip the first word. -/
def skip_word : CStr → CStr
  | [] => []
  | c :: rest => if !isspace c then skip_word rest else c :: rest

/-- Line 110: skip the white space after it. -/
def skip_space : CStr → CStr
  | [] => []
  | c :: rest => if isspace c then skip_space rest else c :: rest

/-- Lines 112-114: copy lowercased bytes up to white space, a comma or `max_len - 1`
bytes; `j` is the number of bytes already written. -/
def copy_word (max_len : Nat) : CStr → Nat → CStr
  | [], _ => []
  | c :: rest, j =>
    if !isspace c && !iscomma c && decide (j < max_len - 1) then
      tolower c :: copy_word max_len rest (j + 1)
    else []

/-- Lines 107-117: the return value `j > 0` and the string left in `dst`. -/
def extract_second_word (line : CStr) (max_len : Nat) : Bool × CStr :=
  let dst := copy_word max_len (skip_space (skip_word line)) 0
  (decide (0 < dst.length), dst)

/-- The libc function `strncasecmp`: the difference at the first of the first `n`
positions where the lowercased strings differ (a string's end counts as byte 0),
0 when there is none. -/
def strncasecmp : CStr → CStr → Nat → Int
  | _, _, 0 => 0
  | [], [], _ + 1 => 0
  | [], y :: _, _ + 1 => 0 - (tolower y : Int)
  | x :: _, [], _ + 1 => (tolower x : Int)
  | x :: xs, y :: ys, n + 1 =>
    if tolower x = tolower y then strncasecmp xs ys n else (tolower x : Int) - (tolower y : Int)

/-- Lines 227-232: does `needle` match at the start of `h`, ignoring case. -/
def match_here : CStr → CStr → Bool
  | _, [] => true
  | [], _ :: _ => false
  | h :: hs, n :: ns => if tolower h = tolower n then match_here hs ns else false

/-- The loop of lines 226-235 (`needle` not empty): the suffix at the first match. -/
def strcasestr_loop (needle : CStr) : CStr → Option CStr
  | [] => none
  | h :: hs => if match_here (h :: hs) needle then some (h :: hs) else strcasestr_loop needle hs

/-- Lines 223-236: `none` is `NULL`. -/
def strcasestr_custom (haystack needle : CStr) : Option CStr :=
  if needle = [] then some haystack else strcasestr_loop needle haystack

/-! ## Reference lists (lines 141-163) -/

/-- Lines 210-216: the entry made for a path that was found. -/
def new_file (path : CStr) : FortranFile :=
  { filename := path, module_name := [], uses := [], uses_capacity := 0 }

/-- Lines 141-154: `files[idx]` gets room for one more reference; `none` is the
failed `assert` of line 145. -/
def ensure_uses_capacity (files : List FortranFile) (idx : Nat) : Option (List FortranFile) :=
  let f := files.getD idx (new_file [])
  if f.uses.length ≥ f.uses_capacity then
    let new_capacity := if f.uses_capacity = 0 then INITIAL_USES_CAPACITY else f.uses_capacity * 2
    if new_capacity ≤ MAX_USES_CAPACITY then
      some (files.modify (fun f => { f with uses_capacity := new_capacity }) idx)
    else none
  else some files

/-- Lines 156-163: `files[file_idx]` gets the reference `used_idx` unless it has it. -/
def add_used_module (files : List FortranFile) (file_idx : Nat) (used_idx : Int) :
    Option (List FortranFile) :=
  if used_idx ∈ (files.getD file_idx (new_file [])).uses then some files
  else
    match ensure_uses_capacity files file_idx with
    | none => none
    | some files2 =>
      some (files2.modify (fun f => { f with uses := f.uses ++ [used_idx] }) file_idx)

/-! ## The file list (lines 119-139 and 174-221) -/

/-- The globals `files` (its first `file_count` entries, so `file_count` is the length
of the list) and `file_capacity`. -/
structure FileList where
  files : List FortranFile
  file_capacity : Nat
deriving DecidableEq, Repr

/-- Lines 119-139: the array gets room for one more file; `none` is the failed
`assert` of line 122. -/
def ensure_file_capacity (fl : FileList) : Option FileList :=
  if fl.files.length ≥ fl.file_capacity then
    let new_capacity :=
      if fl.file_capacity = 0 then INITIAL_FILE_CAPACITY else fl.file_capacity * 2
    if new_capacity ≤ MAX_FILE_CAPACITY then some { fl with file_capacity := new_capacity }
    else none
  else some fl

/-- Lines 209-216: a source file was found at `path`; `strncpy` copies at most 1023
bytes of it. -/
def add_file (fl : FileList) (path : CStr) : Option FileList :=
  match ensure_file_capacity fl with
  | none => none
  | some fl2 => some { fl2 with files := fl2.files ++ [new_file (path.take 1023)] }

/-- Lines 174-221 for the source files that the directory walk finds, in the order in
which it finds them. -/
def read_files (paths : List CStr) : Option FileList :=
  paths.foldlM add_file { files := [], file_capacity := 0 }

/-! ## The two scanning passes (lines 238-283) -/

/-- The global state of the scanner: the array `files` (its first `file_count`
entries) and the hash table. -/
structure Prog where
  files : List FortranFile
  hash_table : HashTable

/-- The state after the directories were read: one entry per path, in the order
in which the paths were found. -/
def init_prog (paths : List CStr) : Prog :=
  { files := paths.map new_file, hash_table := empty_table }

/-- Lines 247-256: one line of file `i` in the first pass. -/
def define_line (i : Nat) (st : Prog) (line : CStr) : Prog :=
  let ptr := trim line
  if strncasecmp ptr (cstr "module ") 7 = 0 then
    if strcasestr_custom ptr (cstr "procedure") = none then
      let r := extract_second_word ptr MAX_MODULE_LEN
      if r.1 then
        { files := st.files.modify (fun f => { f with module_name := r.2 }) i,
          hash_table := hash_insert st.hash_table r.2 (i : Int) }
      else st
    else st
  else st

/-- Lines 238-260: `contents[i]` holds the lines of `files[i]`. -/
def find_defined_modules (contents : List (List CStr)) (st : Prog) : Prog :=
  (List.range st.files.length).foldl
    (fun st i => (contents.getD i []).foldl (define_line i) st) st

/-- Lines 271-279: one line of file `i` in the second pass. -/
def use_line (table : HashTable) (i : Nat) (files : List FortranFile) (line : CStr) :
    Option (List FortranFile) :=
  let ptr := trim line
  if strncasecmp ptr (cstr "use ") 4 = 0 then
    let r := extract_second_word ptr MAX_MODULE_LEN
    if r.1 then
      let idx := hash_lookup table r.2
      if idx ≠ -1 then add_used_module files i idx else some files
    else some files
  else some files

/-- Lines 262-283. -/
def find_used_modules (contents : List (List CStr)) (st : Prog) : Option Prog :=
  ((List.range st.files.length).foldlM
    (fun files i => (contents.getD i []).foldlM (use_line st.hash_table i) files) st.files).map
    (fun files => { st with files := files })

/-! ## The graph (lines 285-329) -/

/-- The globals `adj` and `in_degree`. -/
structure Graph where
  adj : List AdjList
  in_degree : List Int
deriving DecidableEq, Repr

/-- Lines 294-305: the capacity of `adj[u]` is doubled when it is full. -/
def ensure_adj_capacity (adj : List AdjList) (u : Nat) : List AdjList :=
  adj.modify (fun a =>
    if a.edges.length ≥ a.capacity then
      { a with capacity := if a.capacity = 0 then 4 else a.capacity * 2 }
    else a) u

/-- Lines 323-326: the edge `dep -> i`. -/
def add_edge (i : Nat) (g : Graph) (dep : Int) : Graph :=
  let adj := ensure_adj_capacity g.adj dep.toNat
  { adj := adj.modify (fun a => { a with edges := a.edges ++ [i] }) dep.toNat,
    in_degree := g.in_degree.modify (fun d => d + 1) i }

/-- Lines 308-319: `file_count` empty lists and zero counts. -/
def empty_graph (file_count : Nat) : Graph :=
  { adj := List.replicate file_count { edges := [], capacity := 0 },
    in_degree := List.replicate file_count 0 }

/-- Lines 307-329. -/
def build_graph (files : List FortranFile) : Graph :=
  (List.range files.length).foldl
    (fun g i => ((files.getD i (new_file [])).uses).foldl (add_edge i) g)
    (empty_graph files.length)

/-! ## Topological sort (lines 334-360) -/

/-- The locals and globals that the loops of `topologic_sort` change: `back` is
`queue.length`, `count` is `sorted.length`. -/
structure TopoState where
  in_degree : List Int
  queue : List Nat
  front : Nat
  sorted : List Nat
deriving DecidableEq, Repr

/-- Lines 340-343: the nodes of in-degree 0, by ascending index. -/
def initial_queue (file_count : Nat) (in_degree : List Int) : List Nat :=
  (List.range file_count).filter (fun i => in_degree.getD i 0 = 0)

/-- Lines 340-344: the state when the `while` loop is entered. -/
def initial_state (file_count : Nat) (in_degree : List Int) : TopoState :=
  { in_degree := in_degree, queue := initial_queue file_count in_degree, front := 0,
    sorted := [] }

/-- Lines 349-351: one out-edge `u -> v`. -/
def relax (st : TopoState) (v : Nat) : TopoState :=
  let in_degree := st.in_degree.modify (fun d => d - 1) v
  if in_degree.getD v 0 = 0 then
    { st with in_degree := in_degree, queue := st.queue ++ [v] }
  else { st with in_degree := in_degree }

/-- Lines 346-352: one turn of the `while` loop (`front < back`). -/
def topo_step (adj : List AdjList) (st : TopoState) : TopoState :=
  let u := st.queue.getD st.front 0
  (adj.getD u { edges := [], capacity := 0 }).edges.foldl relax
    { st with front := st.front + 1, sorted := st.sorted ++ [u] }

/-- Lines 345-353: the `while` loop, at most `fuel` turns. -/
def topo_loop (adj : List AdjList) : Nat → TopoState → Option TopoState
  | 0, st => if st.front < st.queue.length then none else some st
  | fuel + 1, st =>
    if st.front < st.queue.length then topo_loop adj fuel (topo_step adj st) else some st

/-- What `topologic_sort` leaves behind: its return value, the written part of
`sorted`, the value of `*sorted_len` and the global `in_degree`. -/
structure SortResult where
  ret : Int
  sorted : List Nat
  sorted_len : Nat
  in_degree : List Int
deriving DecidableEq, Repr

/-- Lines 334-360; `sorted_len` is the value of `*sorted_len` at the call. The loop
gets `file_count` turns of fuel. -/
def topologic_sort (file_count : Nat) (g : Graph) (sorted_len : Nat) : Option SortResult :=
  match topo_loop g.adj file_count (initial_state file_count g.in_degree) with
  | none => none
  | some st =>
    if st.sorted.length ≠ file_count then
      some { ret := 0, sorted := st.sorted, sorted_len := sorted_len, in_degree := st.in_degree }
    else
      some { ret := 1, sorted := st.sorted, sorted_len := st.sorted.length,
             in_degree := st.in_degree }

/-! ## The run (lines 545-598) -/

/-- One source file as the directory scan and `fgets` deliver it. -/
structure Source where
  path : CStr
  lines : List CStr
deriving DecidableEq, Repr

/-- How a run ends. -/
inductive RunResult where
  /-- Lines 545-548: no file was found, exit status 1. -/
  | no_files
  /-- A failed `assert`: the process aborts. -/
  | aborted
  /-- Lines 561-570: cyclic dependency, exit status 1, nothing printed. -/
  | cycle
  /-- Exit status 0: the array `sorted` and the lines printed. -/
  | ok (sorted : List Nat) (out : List CStr)
deriving DecidableEq, Repr

/-- Lines 586-588: one path per line. -/
def print_order (files : List FortranFile) (sorted : List Nat) : List CStr :=
  sorted.map (fun idx => (files.getD idx (new_file [])).filename)

/-- Lines 574-583: `path:` followed by ` path` for every reference of the file. -/
def print_make (files : List FortranFile) (sorted : List Nat) : List CStr :=
  sorted.map (fun idx =>
    let f := files.getD idx (new_file [])
    f.filename ++ cstr ":" ++
      (f.uses.map (fun dep => cstr " " ++ (files.getD dep.toNat (new_file [])).filename)).flatten)

/-- Lines 545-598 of `main`, after the directories were read. `none`: the loop of
`topologic_sort` ran out of fuel. -/
def run (srcs : List Source) (print_make_deps : Bool) : Option RunResult :=
  if srcs.length = 0 then some RunResult.no_files
  else
    let contents := srcs.map Source.lines
    let st := find_defined_modules contents (init_prog (srcs.map Source.path))
    match find_used_modules contents st with
    | none => some RunResult.aborted
    | some st2 =>
      match topologic_sort st2.files.length (build_graph st2.files) st2.files.length with
      | none => none
      | some r =>
        if r.ret = 0 then some RunResult.cycle
        else if print_make_deps then some (RunResult.ok r.sorted (print_make st2.files r.sorted))
        else some (RunResult.ok r.sorted (print_order st2.files r.sorted))

/-! # Specification-side definitions

Predicates, reference functions and the scenarios of the specification. -/

/-! ## The second word of a line -/

/-- The white-space-delimited tokens of `rest`, `cur` being the bytes of the token
that is being read. -/
def tokens_from : CStr → CStr → List CStr
  | cur, [] => if cur = [] then [] else [cur]
  | cur, c :: cs =>
    if isspace c then (if cur = [] then tokens_from [] cs else cur :: tokens_from [] cs)
    else tokens_from (cur ++ [c]) cs

/-- The white-space-delimited tokens of a line: its maximal runs of bytes that are
not white space. -/
def tokens (line : CStr) : List CStr := tokens_from [] line

/-- The second word as the specification words it: of the second token, the bytes
before its first comma, lowercased, at most `max_len - 1` of them. -/
def second_word_spec (line : CStr) (max_len : Nat) : CStr :=
  ((((tokens line).getD 1 []).takeWhile (fun c => !iscomma c)).map tolower).take (max_len - 1)

/-! ## Trimmed lines, keywords and names -/

/-- A module name as a line can carry it: not empty, no white space, no comma. -/
def is_name (n : CStr) : Prop := n ≠ [] ∧ ∀ c ∈ n, isspace c = false ∧ iscomma c = false

/-- The registry key of a name: lowercased, cut to 99 bytes. -/
def key_of (n : CStr) : CStr := (n.map tolower).take (MAX_MODULE_LEN - 1)

/-! ## The hash table -/

/-- The table after the calls `hash_insert(key, value)` of `ops`, in that order. -/
def insert_all (ops : List (CStr × Int)) : HashTable :=
  ops.foldl (fun t op => hash_insert t op.1 op.2) empty_table

/-! ## Graphs and the invariant of Kahn's algorithm -/

/-- The out-edges of node `u`: the part `edges[0..count)` of `adj[u]`. -/
def out_edges (adj : List AdjList) (u : Nat) : List Nat :=
  (adj.getD u { edges := [], capacity := 0 }).edges

/-- The graph has the edge `u -> v`. -/
def Edge (adj : List AdjList) (u v : Nat) : Prop := v ∈ out_edges adj u

/-- A graph of `n` nodes: `n` adjacency lists whose entries are nodes. -/
def WellFormed (n : Nat) (adj : List AdjList) : Prop :=
  adj.length = n ∧ ∀ a ∈ adj, ∀ v ∈ a.edges, v < n

/-- The number of occurrences of `v` in the adjacency lists. -/
def occurrences (adj : List AdjList) (v : Nat) : Nat :=
  ((adj.map AdjList.edges).flatten).count v

/-- The in-degree counts match the adjacency lists. -/
def InDegreeMatches (n : Nat) (g : Graph) : Prop :=
  g.in_degree.length = n ∧ ∀ v, v < n → g.in_degree.getD v 0 = (occurrences g.adj v : Int)

/-- The graph contains a directed cycle: some node reaches itself along one or more
edges (a self-loop `u -> u` is a cycle of length 1). -/
def HasCycle (adj : List AdjList) : Prop := ∃ u, Relation.TransGen (Edge adj) u u

/-- The in-degree that `v` has left when the out-edges of the nodes in `done` are
taken away. -/
def residual (adj : List AdjList) (n : Nat) (done : List Nat) (v : Nat) : Nat :=
  Finset.sum ((Finset.range n).filter (fun u => u ∉ done)) (fun u => (out_edges adj u).count v)

/-- The invariant of Kahn's algorithm between two edge relaxations: `done` holds the
nodes taken from the queue, `pending` the out-edges of the last of them that are still
to be relaxed. -/
structure KahnInv (n : Nat) (adj : List AdjList) (done pending : List Nat)
    (st : TopoState) : Prop where
  nodup : st.queue.Nodup
  lt : ∀ x ∈ st.queue, x < n
  len : st.in_degree.length = n
  done_sub : ∀ x ∈ done, x ∈ st.queue
  deg : ∀ v, v < n →
    st.in_degree.getD v 0 = ((residual adj n done v + pending.count v : Nat) : Int)
  zero : ∀ v, v < n → (v ∈ st.queue ↔ st.in_degree.getD v 0 = 0)
  order : ∀ (j v : Nat), st.queue[j]? = some v → ∀ u : Nat, Edge adj u v →
    ∃ i : Nat, i < j ∧ st.queue[i]? = some u

/-- The invariant of the `while` loop of `topologic_sort`. -/
structure LoopInv (n : Nat) (adj : List AdjList) (st : TopoState) : Prop where
  front_le : st.front ≤ st.queue.length
  sorted_eq : st.sorted = st.queue.take st.front
  inv : KahnInv n adj st.sorted [] st

/-- The graph `0 -> 1, 0 -> 2, 1 -> 2`, node 2 listed first in `adj[0]`. -/
def diamond_graph : Graph :=
  { adj := [{ edges := [2, 1], capacity := 4 }, { edges := [2], capacity := 4 },
            { edges := [], capacity := 0 }],
    in_degree := [0, 1, 2] }

/-- The graph `0 -> 1 -> 1`: node 1 has a self-loop. -/
def self_loop_graph : Graph :=
  { adj := [{ edges := [1], capacity := 4 }, { edges := [1], capacity := 4 }],
    in_degree := [0, 2] }

/-! ## The first scanning pass and the registry -/

/-- The name that the first pass registers for a line (the tests of lines 248-250),
if it registers one. -/
def def_key (line : CStr) : Option CStr :=
  if strncasecmp (trim line) (cstr "module ") 7 = 0 ∧
      strcasestr_custom (trim line) (cstr "procedure") = none ∧
      (extract_second_word (trim line) MAX_MODULE_LEN).1 = true then
    some (extract_second_word (trim line) MAX_MODULE_LEN).2
  else none

/-- The name that the second pass looks up for a line (the tests of lines 272-273),
if it looks one up. -/
def use_key (line : CStr) : Option CStr :=
  if strncasecmp (trim line) (cstr "use ") 4 = 0 ∧
      (extract_second_word (trim line) MAX_MODULE_LEN).1 = true then
    some (extract_second_word (trim line) MAX_MODULE_LEN).2
  else none

/-- The names that the lines of one file define. -/
def defined_keys (lines : List CStr) : List CStr := lines.filterMap def_key

/-- The registry after the first `n` files: a name goes to the last of these files
that defines it, to -1 when none does. -/
def registry (contents : List (List CStr)) : Nat → CStr → Int
  | 0, _ => -1
  | i + 1, k => if k ∈ defined_keys (contents.getD i []) then (i : Int) else registry contents i k

/-- The uses list of `files[j]`. -/
def uses_of (files : List FortranFile) (j : Nat) : List Int := (files.getD j (new_file [])).uses

/-- The path of `files[j]`. -/
def filename_of (files : List FortranFile) (j : Nat) : CStr :=
  (files.getD j (new_file [])).filename

/-! ## The second scanning pass and the uses lists -/

/-- The file index that the second pass adds for a line (lines 272-276), if it adds
one: the line is a reference and its name is in the table. -/
def resolved_line (table : HashTable) (line : CStr) : Option Int :=
  match use_key line with
  | none => none
  | some k => if hash_lookup table k ≠ -1 then some (hash_lookup table k) else none

/-- The file indices that the second pass adds for the lines of one file, in order,
repetitions included. -/
def resolved (table : HashTable) (lines : List CStr) : List Int :=
  lines.filterMap (resolved_line table)

/-- Every entry once, in the order of the first occurrences. -/
def first_occurrences : List Int → List Int
  | [] => []
  | x :: xs => x :: (first_occurrences xs).filter (fun y => decide (y ≠ x))

/-- Lines 158-162 on the uses list alone. -/
def add_once (acc : List Int) (x : Int) : List Int := if x ∈ acc then acc else acc ++ [x]

/-! ## The run -/

/-- The two scanning passes of a run (lines 550-551); `none` is a failed `assert`. -/
def scan (srcs : List Source) : Option Prog :=
  find_used_modules (srcs.map Source.lines)
    (find_defined_modules (srcs.map Source.lines) (init_prog (srcs.map Source.path)))

/-- File `f` has a line that refers to a name which the registry of the `n` files
resolves to file `d`. -/
def References (contents : List (List CStr)) (n : Nat) (d f : Nat) : Prop :=
  f < n ∧ ∃ line ∈ contents.getD f [], ∃ k, use_key line = some k ∧
    registry contents n k = (d : Int)

/-- What a run prints on its standard output. -/
def emitted : RunResult → List CStr
  | RunResult.ok _ out => out
  | _ => []

/-! ## Build order, forward references and cycles -/

/-- File 0 refers to module `m`, which file 1, found later, defines. -/
def forward_srcs : List Source :=
  [{ path := cstr "f.f90", lines := [cstr "use m\n"] },
   { path := cstr "d.f90", lines := [cstr "module m\n"] }]

/-- Files 0 and 2 both define module `n`; file 1 defines `m` and refers to `n`,
file 0 refers to `m`. -/
def duplicate_srcs : List Source :=
  [{ path := cstr "d1.f90", lines := [cstr "module n\n", cstr "use m\n"] },
   { path := cstr "f.f90", lines := [cstr "module m\n", cstr "use n\n"] },
   { path := cstr "d2.f90", lines := [cstr "module n\n"] }]

/-- The two-file scenario: `x.src` defines `x` and imports `y`, `y.src` defines `y`
and imports `x`. -/
def cycle_srcs : List Source :=
  [{ path := cstr "x.src", lines := [cstr "module x\n", cstr "use y\n"] },
   { path := cstr "y.src", lines := [cstr "module y\n", cstr "use x\n"] }]

/-- One file that imports the module it defines. -/
def self_srcs : List Source :=
  [{ path := cstr "s.src", lines := [cstr "module s\n", cstr "use s\n"] }]

/-! ## Unresolved references -/

/-- File 0 defines `u` and imports `external`, which no file defines; file 1 defines
`v` and imports `u`. -/
def external_srcs : List Source :=
  [{ path := cstr "u.f90", lines := [cstr "module u\n", cstr "use external\n"] },
   { path := cstr "v.f90", lines := [cstr "module v\n", cstr "use u\n"] }]

/-! ## The three-file scenario -/

/-- The file `a.src` of the three-file scenario: it defines module `a`. -/
def src_a : Source := { path := cstr "a.src", lines := [cstr "module a\n"] }

/-- The file `b.src`: it defines module `b` and imports `a`. -/
def src_b : Source := { path := cstr "b.src", lines := [cstr "module b\n", cstr "use a\n"] }

/-- The file `c.src`: it defines module `c` and imports `a` and `b`. -/
def src_c : Source :=
  { path := cstr "c.src", lines := [cstr "module c\n", cstr "use a\n", cstr "use b\n"] }

/-! ## Letter case -/

/-- File 0 defines the module `procedures`, file 1 imports it. -/
def procedure_srcs : List Source :=
  [{ path := cstr "d.f90", lines := [cstr "module procedures\n"] },
   { path := cstr "f.f90", lines := [cstr "use procedures\n"] }]

/-- File 0 says `Module Foo`, file 1 says `use FOO`. -/
def recased_srcs : List Source :=
  [{ path := cstr "d.f90", lines := [cstr "Module Foo\n"] },
   { path := cstr "f.f90", lines := [cstr "use FOO\n"] }]

/-! ## De-duplication of the uses lists -/

/-- The line is a reference to the name `n` in some letter case: white space, the
keyword `use` in any letter case, a space, more white space, the name in any letter
case, white space. -/
def is_reference_to (line n : CStr) : Prop :=
  ∃ lead kw ws m trail : CStr, line = lead ++ (kw ++ (32 :: ws) ++ m) ++ trail ∧
    (∀ c ∈ lead, isspace c = true) ∧ (∀ c ∈ trail, isspace c = true) ∧
    (∀ c ∈ ws, isspace c = true) ∧ kw.map tolower = cstr "use" ∧
    m.map tolower = n.map tolower

/-- File 0 defines module `m`; file 1 refers to it on four lines that differ in
letter case and white space. -/
def repeated_srcs : List Source :=
  [{ path := cstr "d.f90", lines := [cstr "module m\n"] },
   { path := cstr "f.f90",
     lines := [cstr "use m\n", cstr "  USE   M  \n", cstr "Use \t m\n", cstr "use M\n"] }]

/-- File 0 defines module `m`; file 1 refers to it on two lines that have a tab
after the keyword. -/
def tab_srcs : List Source :=
  [{ path := cstr "d.f90", lines := [cstr "module m\n"] },
   { path := cstr "f.f90", lines := [cstr "use\tm\n", cstr "USE\tM\n"] }]

/-! ## The dependency manifest -/

/-- The files that the reference lines of file `f` resolve to through the registry of
the `n` files, every file once, in the order of the first reference to it. -/
def dependencies (contents : List (List CStr)) (n f : Nat) : List Int :=
  first_occurrences ((contents.getD f []).filterMap (fun line =>
    match use_key line with
    | none => none
    | some k => if registry contents n k ≠ -1 then some (registry contents n k) else none))

/-- The manifest line of the file `idx` with the dependencies `deps`: the path, a
colon, and a space and the path for every dependency. -/
def manifest_line (paths : List CStr) (idx : Nat) (deps : List Int) : CStr :=
  paths.getD idx [] ++ cstr ":" ++ (deps.map (fun d => cstr " " ++ paths.getD d.toNat [])).flatten

/-! ## Definition lines and the word `procedure` -/

/-- The text `hay` contains `needle` somewhere, letter case ignored. -/
def contains_ignoring_case (hay needle : CStr) : Prop :=
  ∃ pre mid post : CStr, hay = pre ++ mid ++ post ∧ mid.map tolower = needle.map tolower

/-! ## The order of the queue -/

/-- The targets of the relaxed edges `rest`, in order, whose in-degree reaches zero on
that relaxation: the target `v` is listed when, with the edges `seen` relaxed before,
this is the relaxation number `in_degree[v]` of an edge into `v`. -/
def zero_hits (in_degree : List Int) : List Nat → List Nat → List Nat
  | _, [] => []
  | seen, v :: rest =>
    if in_degree.getD v 0 = ((seen.count v + 1 : Nat) : Int) then
      v :: zero_hits in_degree (seen ++ [v]) rest
    else zero_hits in_degree (seen ++ [v]) rest

/-- The edges relaxed when the nodes of `done` are processed in order: the adjacency
lists of these nodes, one after the other. -/
def relaxed_edges (adj : List AdjList) (done : List Nat) : List Nat :=
  (done.map (out_edges adj)).flatten

/-- The in-degree counts after the relaxation of the edges `es`. -/
def decremented (in_degree : List Int) (es : List Nat) : List Int :=
  es.foldl (fun d v => d.modify (fun x => x - 1) v) in_degree

/-- The invariant of the `while` loop for the order of the queue. -/
def QueueInv (n : Nat) (g : Graph) (st : TopoState) : Prop :=
  st.queue = initial_queue n g.in_degree ++
    zero_hits g.in_degree [] (relaxed_edges g.adj st.sorted) ∧
  st.in_degree = decremented g.in_degree (relaxed_edges g.adj st.sorted)

/-! ## Edges and uses lists -/

/-- Three entries of the array `files` as the scan of the three-file scenario leaves
their uses lists: file 1 uses file 0, file 2 uses files 0 and 1. -/
def three_files : List FortranFile :=
  [{ filename := cstr "a.src", module_name := cstr "a", uses := [], uses_capacity := 0 },
   { filename := cstr "b.src", module_name := cstr "b", uses := [0], uses_capacity := 16 },
   { filename := cstr "c.src", module_name := cstr "c", uses := [0, 1], uses_capacity := 16 }]

/-! ## The nodes left over on a cycle -/

/-- The edge `u -> v` of the subgraph induced by the nodes outside `emitted`. -/
def UnemittedEdge (adj : List AdjList) (emitted : List Nat) (u v : Nat) : Prop :=
  Edge adj u v ∧ u ∉ emitted ∧ v ∉ emitted

/-! ## Capacities and their ceilings -/

/-- The capacity of the reference list of a file is 0 or 16 times a power of two, and
`uses_count <= uses_capacity <= MAX_USES_CAPACITY`. -/
def UsesCapOK (f : FortranFile) : Prop :=
  (f.uses_capacity = 0 ∨ ∃ k : Nat, f.uses_capacity = INITIAL_USES_CAPACITY * 2 ^ k) ∧
  f.uses.length ≤ f.uses_capacity ∧ f.uses_capacity ≤ MAX_USES_CAPACITY

/-- The capacity of the file list is 0 or 1024 times a power of two, and
`file_count <= file_capacity <= MAX_FILE_CAPACITY`. -/
def FileCapOK (fl : FileList) : Prop :=
  (fl.file_capacity = 0 ∨ ∃ k : Nat, fl.file_capacity = INITIAL_FILE_CAPACITY * 2 ^ k) ∧
  fl.files.length ≤ fl.file_capacity ∧ fl.file_capacity ≤ MAX_FILE_CAPACITY

/-- The capacity that a full list of capacity `cap` grows to. -/
def grown (initial cap : Nat) : Nat := if cap = 0 then initial else cap * 2

/-- A file list of 65536 entries, which fill its capacity. -/
def full_file_list : FileList :=
  { files := List.replicate 65536 (new_file []), file_capacity := 65536 }

/-- The lists of the array `files` have `n` entries whose capacities are in order. -/
def UsesCapAll (n : Nat) (files : List FortranFile) : Prop :=
  files.length = n ∧ ∀ j, UsesCapOK (files.getD j (new_file []))

/-- The file list when the directory scan begins. -/
def initial_file_list : FileList := { files := [], file_capacity := 0 }

/-- One file whose reference list holds the 8192 entries `0 .. 8191`, which fill its
capacity. -/
def full_uses_files : List FortranFile :=
  [{ filename := cstr "f.f90", module_name := [],
     uses := (List.range 8192).map Int.ofNat, uses_capacity := 8192 }]

/-! ## The bound of the edge lists -/

/-- The states after each of the relaxations of the edges `es`, from `st` on. -/
def relax_trace (st : TopoState) : List Nat → List TopoState
  | [] => []
  | v :: es => relax st v :: relax_trace (relax st v) es

/-- Lines 346-347: the node at the front of the queue is written to `sorted`. -/
def dequeue (st : TopoState) : TopoState :=
  { st with front := st.front + 1, sorted := st.sorted ++ [st.queue.getD st.front 0] }

/-- The states of one turn of the `while` loop: after lines 346-347 (the node `u` is
taken from the queue and written to `sorted`) and after every turn of the `for` loop
of lines 348-352. -/
def step_trace (adj : List AdjList) (st : TopoState) : List TopoState :=
  dequeue st :: relax_trace (dequeue st) (out_edges adj (st.queue.getD st.front 0))

/-- The states that the `while` loop goes through in at most `fuel` turns: the state
at every loop test and the states of `step_trace` for every turn. -/
def loop_trace (adj : List AdjList) : Nat → TopoState → List TopoState
  | 0, st => [st]
  | fuel + 1, st =>
    if st.front < st.queue.length then
      st :: (step_trace adj st ++ loop_trace adj fuel (topo_step adj st))
    else [st]

/-- The indices and counts of a state are within the bounds of the arrays of `n`
elements: `0 <= front <= back <= n`, `count = front`, no node is in the queue twice,
the queue holds nodes, and no in-degree count is negative. -/
def Safe (n : Nat) (st : TopoState) : Prop :=
  st.front ≤ st.queue.length ∧ st.queue.length ≤ n ∧ st.sorted.length = st.front ∧
  st.sorted.length ≤ n ∧ st.queue.Nodup ∧ (∀ x ∈ st.queue, x < n) ∧
  st.in_degree.length = n ∧ ∀ d ∈ st.in_degree, 0 ≤ d

/-! ## Several modules in one file -/

/-- The field `module_name` of `files[j]`. -/
def module_name_of (files : List FortranFile) (j : Nat) : CStr :=
  (files.getD j (new_file [])).module_name

/-- File 0 defines the modules `m1` and `m2`, file 1 imports `m1`, the first of them. -/
def two_modules_srcs : List Source :=
  [{ path := cstr "d.f90", lines := [cstr "module m1\n", cstr "end module m1\n",
      cstr "module m2\n", cstr "end module m2\n"] },
   { path := cstr "f.f90", lines := [cstr "use m1\n"] }]

/-! # Properties -/

/-! ## The second word of a line -/

theorem skip_word_eq (l : CStr) : skip_word l = l.dropWhile (fun c => !isspace c) := by
  induction l with
  | nil => rfl
  | cons c l ih => by_cases h : isspace c <;> simp [skip_word, List.dropWhile, h, ih]

theorem skip_space_eq (l : CStr) : skip_space l = l.dropWhile isspace := by
  induction l with
  | nil => rfl
  | cons c l ih => by_cases h : isspace c <;> simp [skip_space, List.dropWhile, h, ih]

theorem copy_word_eq (max_len : Nat) (l : CStr) (j : Nat) :
    copy_word max_len l j =
      ((l.takeWhile (fun c => !isspace c && !iscomma c)).map tolower).take (max_len - 1 - j) := by
  induction l generalizing j with
  | nil => simp [copy_word]
  | cons c l ih =>
    by_cases h1 : (!isspace c && !iscomma c) = true
    · by_cases h2 : j < max_len - 1
      · have : max_len - 1 - j = (max_len - 1 - (j + 1)) + 1 := by omega
        simp only [copy_word, h1, h2, decide_True, Bool.and_self, if_true, ih, List.takeWhile_cons,
          List.map_cons, this, List.take_succ_cons]
      · have : max_len - 1 - j = 0 := by omega
        simp [copy_word, h1, h2, this]
    · simp [copy_word, h1, List.takeWhile_cons]

theorem tokens_from_cur (l : CStr) : ∀ cur : CStr, cur ≠ [] →
    tokens_from cur l = (cur ++ l.takeWhile (fun c => !isspace c)) ::
      tokens_from [] (l.dropWhile (fun c => !isspace c)) := by
  induction l with
  | nil => intro cur h; simp [tokens_from, h]
  | cons c cs ih =>
    intro cur h
    by_cases hc : isspace c = true
    · simp [tokens_from, hc, h, List.takeWhile_cons, List.dropWhile_cons]
    · have hc2 : isspace c = false := by simpa using hc
      simp [tokens_from, hc2, List.takeWhile_cons, List.dropWhile_cons, ih (cur ++ [c]) (by simp)]

theorem tokens_from_dropWhile (l : CStr) :
    tokens_from [] l = tokens_from [] (l.dropWhile isspace) := by
  induction l with
  | nil => rfl
  | cons c cs ih =>
    by_cases hc : isspace c = true
    · simp [tokens_from, hc, List.dropWhile_cons, ih]
    · have hc2 : isspace c = false := by simpa using hc
      simp [hc2, List.dropWhile_cons]

theorem tokens_cons (c : Nat) (cs : CStr) (hc : isspace c = false) :
    tokens (c :: cs) = (c :: cs).takeWhile (fun c => !isspace c) ::
      tokens ((c :: cs).dropWhile (fun c => !isspace c)) := by
  simp [tokens, tokens_from, hc, List.takeWhile_cons, List.dropWhile_cons,
    tokens_from_cur cs [c] (by simp)]

theorem tokens_head (l : CStr) :
    (tokens l).headD [] = (l.dropWhile isspace).takeWhile (fun c => !isspace c) := by
  unfold tokens
  rw [tokens_from_dropWhile]
  cases h : l.dropWhile isspace with
  | nil => simp [tokens_from]
  | cons c cs =>
    have hc : isspace c = false := by
      have := List.head_dropWhile_not isspace l (by simp [h])
      simpa [h] using this
    have := tokens_cons c cs hc
    unfold tokens at this
    rw [this]; simp

theorem takeWhile_takeWhile_comma (l : CStr) :
    (l.takeWhile (fun c => !isspace c)).takeWhile (fun c => !iscomma c) =
      l.takeWhile (fun c => !isspace c && !iscomma c) := by
  induction l with
  | nil => rfl
  | cons c cs ih =>
    by_cases h1 : isspace c = true <;> by_cases h2 : iscomma c = true <;>
      simp [List.takeWhile_cons, h1, h2, ih]

/-- On a line that does not begin with white space the copy loops deliver what the
words of the specification say. -/
theorem extract_second_word_eq_spec (line : CStr) (max_len : Nat)
    (h : ∀ c, line.head? = some c → isspace c = false) :
    (extract_second_word line max_len).2 = second_word_spec line max_len := by
  unfold extract_second_word second_word_spec
  simp only [copy_word_eq, skip_word_eq, skip_space_eq, Nat.sub_zero]
  congr 2
  rw [← takeWhile_takeWhile_comma]
  congr 1
  cases line with
  | nil => simp [tokens, tokens_from]
  | cons c cs =>
    have hc : isspace c = false := h c rfl
    rw [tokens_cons c cs hc]
    have := tokens_head ((c :: cs).dropWhile (fun c => !isspace c))
    rw [← this]
    cases tokens ((c :: cs).dropWhile (fun c => !isspace c)) <;> simp

theorem copy_word_clean (max_len : Nat) (l : CStr) (j : Nat) :
    ∀ c ∈ copy_word max_len l j, iscomma c = false ∧ isspace c = false ∧ isupper c = false := by
  induction l generalizing j with
  | nil => simp [copy_word]
  | cons x l ih =>
    intro c hc
    unfold copy_word at hc
    split at hc
    · rename_i hx
      simp only [Bool.and_eq_true, Bool.not_eq_true', decide_eq_true_eq] at hx
      rcases List.mem_cons.1 hc with rfl | hc
      · obtain ⟨⟨h1, h2⟩, _⟩ := hx
        simp only [isspace, iscomma, tolower, isupper] at *
        split <;> simp_all; omega
      · exact ih _ c hc
    · simp at hc

/-- C8 (amended): on every line that does not begin with white space (every line
the scanner passes, which it has trimmed), `extract_second_word` skips the first
token and the white space after it and delivers the bytes of the second token before
its first comma, lowercased and cut to `max_len - 1` bytes. On every line it returns
true exactly when that result is not empty, the result holds no comma, no white space
and no uppercase letter, and `use mymodule, only: x, y` gives `mymodule`. -/
theorem extract_second_word_correct :
    (∀ (line : CStr) (max_len : Nat), isspace (line.headD 0) = false →
      extract_second_word line max_len =
        (decide (second_word_spec line max_len ≠ []), second_word_spec line max_len)) ∧
    (∀ (line : CStr) (max_len : Nat),
      (extract_second_word line max_len).1 = true ↔ (extract_second_word line max_len).2 ≠ []) ∧
    extract_second_word (cstr "use mymodule, only: x, y") MAX_MODULE_LEN =
      (true, cstr "mymodule") ∧
    (∀ (line : CStr) (max_len c : Nat), c ∈ (extract_second_word line max_len).2 →
      iscomma c = false ∧ isspace c = false ∧ isupper c = false) := by
  have hiff : ∀ (line : CStr) (max_len : Nat),
      (extract_second_word line max_len).1 = true ↔ (extract_second_word line max_len).2 ≠ [] := by
    intro line max_len
    simp [extract_second_word, List.length_pos]
  refine ⟨?_, hiff, by decide, ?_⟩
  · intro line max_len h
    have h2 : ∀ c, line.head? = some c → isspace c = false := by
      intro c hc
      cases line with
      | nil => simp at hc
      | cons x xs => simp at hc; subst hc; simpa using h
    have heq := extract_second_word_eq_spec line max_len h2
    apply Prod.ext
    · have := hiff line max_len
      rw [heq] at this
      simp only
      by_cases hs : second_word_spec line max_len = []
      · simp only [hs, ne_eq, not_true_eq_false, decide_False]
        simpa [hs] using this
      · simp only [hs, ne_eq, not_false_eq_true, decide_True]
        exact this.2 hs
    · exact heq
  · intro line max_len c hc
    exact copy_word_clean max_len _ 0 c hc

theorem extract_second_word_correct_witness :
    isspace ((cstr "USE  Foo_Bar,only:x").headD 0) = false ∧
    extract_second_word (cstr "USE  Foo_Bar,only:x") MAX_MODULE_LEN =
      (decide (second_word_spec (cstr "USE  Foo_Bar,only:x") MAX_MODULE_LEN ≠ []),
        second_word_spec (cstr "USE  Foo_Bar,only:x") MAX_MODULE_LEN) :=
  ⟨by decide, extract_second_word_correct.1 (cstr "USE  Foo_Bar,only:x") MAX_MODULE_LEN
    (by decide)⟩

/-- On the line ` foo bar` the second white-space-delimited token is `bar`, but
`extract_second_word` delivers the first one, `foo`: the first loop skips nothing
when the line begins with white space. -/
theorem extract_second_word_leading_space :
    extract_second_word (cstr " foo bar") MAX_MODULE_LEN = (true, cstr "foo") ∧
    tokens (cstr " foo bar") = [cstr "foo", cstr "bar"] ∧
    second_word_spec (cstr " foo bar") MAX_MODULE_LEN = cstr "bar" ∧
    (extract_second_word (cstr " foo bar") MAX_MODULE_LEN).2 ≠
      second_word_spec (cstr " foo bar") MAX_MODULE_LEN := by
  decide

/-! ## Trimmed lines, keywords and names -/

theorem dropWhile_append_all {p : Nat → Bool} (l1 l2 : List Nat) (h : ∀ c ∈ l1, p c = true) :
    (l1 ++ l2).dropWhile p = l2.dropWhile p := by
  induction l1 with
  | nil => rfl
  | cons c l1 ih =>
    simp only [List.cons_append, List.dropWhile_cons, h c (by simp), if_true]
    exact ih (fun x hx => h x (by simp [hx]))

theorem dropWhile_head_false {p : Nat → Bool} (c : Nat) (l : List Nat) (h : p c = false) :
    (c :: l).dropWhile p = c :: l := by
  simp [List.dropWhile_cons, h]

/-- Trimming takes away the white space around a text that begins and ends with
bytes that are not white space. -/
theorem trim_spec (lead body trail : CStr) (hlead : ∀ c ∈ lead, isspace c = true)
    (htrail : ∀ c ∈ trail, isspace c = true) (hne : body ≠ [])
    (hfirst : isspace (body.headD 0) = false)
    (hlast : ∀ c, body.getLast? = some c → isspace c = false) :
    trim (lead ++ body ++ trail) = body := by
  unfold trim
  rw [List.append_assoc, dropWhile_append_all lead _ hlead]
  cases body with
  | nil => exact absurd rfl hne
  | cons c rest =>
    simp only [List.headD_cons] at hfirst
    rw [List.cons_append, dropWhile_head_false c _ hfirst]
    show c :: ((rest ++ trail).reverse.dropWhile isspace).reverse = c :: rest
    congr 1
    rw [List.reverse_append, dropWhile_append_all trail.reverse _
      (fun x hx => htrail x (List.mem_reverse.1 hx))]
    cases hr : rest.reverse with
    | nil => simp [List.reverse_eq_nil_iff.1 hr]
    | cons x xs =>
      have hx : rest.getLast? = some x := by
        rw [List.getLast?_eq_head?_reverse, hr]; rfl
      have hxs : isspace x = false := by
        apply hlast x
        rw [List.getLast?_cons]
        simp [hx]
      rw [dropWhile_head_false x xs hxs, ← hr, List.reverse_reverse]

theorem strncasecmp_recasing (a b rest : CStr) (h : a.map tolower = b.map tolower) :
    strncasecmp (a ++ rest) b b.length = 0 := by
  induction a generalizing b with
  | nil =>
    cases b with
    | nil => simp [strncasecmp]
    | cons y ys => simp at h
  | cons x xs ih =>
    cases b with
    | nil => simp at h
    | cons y ys =>
      simp only [List.map_cons, List.cons.injEq] at h
      simp only [List.cons_append, List.length_cons, strncasecmp, h.1, if_true]
      exact ih ys h.2

theorem match_here_head_ne (c : Nat) (cs : CStr) (p : Nat) (ns : CStr)
    (h : tolower c ≠ tolower p) : match_here (c :: cs) (p :: ns) = false := by
  simp [match_here, h]

theorem strcasestr_loop_skip (p : Nat) (ns pre rest : CStr)
    (h : ∀ c ∈ pre, tolower c ≠ tolower p) :
    strcasestr_loop (p :: ns) (pre ++ rest) = strcasestr_loop (p :: ns) rest := by
  induction pre with
  | nil => rfl
  | cons c pre ih =>
    simp only [List.cons_append, strcasestr_loop,
      match_here_head_ne c _ p ns (h c (by simp)), Bool.false_eq_true, if_false]
    exact ih (fun x hx => h x (by simp [hx]))

theorem tolower_space (c : Nat) (h : isspace c = true) : tolower c = c := by
  have h2 : c = 32 ∨ (9 ≤ c ∧ c ≤ 13) := by simpa [isspace] using h
  unfold tolower
  rw [if_neg (by omega)]

theorem isspace_iff (c : Nat) : isspace c = true ↔ c = 32 ∨ (9 ≤ c ∧ c ≤ 13) := by
  simp [isspace]

theorem iscomma_iff (c : Nat) : iscomma c = true ↔ c = 44 := by
  simp [iscomma]

theorem isspace_of_tolower_eq {a b : Nat} (h : tolower a = tolower b) :
    isspace a = isspace b ∧ iscomma a = iscomma b := by
  unfold tolower at h
  constructor
  · rw [Bool.eq_iff_iff, isspace_iff, isspace_iff]
    split at h <;> split at h <;> omega
  · rw [Bool.eq_iff_iff, iscomma_iff, iscomma_iff]
    split at h <;> split at h <;> omega

theorem takeWhile_append_stop {p : Nat → Bool} (l rest : List Nat)
    (h : ∀ c ∈ l, p c = true) (hr : p (rest.headD 0) = false ∨ rest = []) :
    (l ++ rest).takeWhile p = l := by
  induction l with
  | nil =>
    cases rest with
    | nil => rfl
    | cons r rs =>
      rcases hr with hr | hr
      · simp only [List.headD_cons] at hr
        simp [List.takeWhile_cons, hr]
      · simp at hr
  | cons c l ih =>
    simp only [List.cons_append, List.takeWhile_cons, h c (by simp), if_true]
    rw [ih (fun x hx => h x (by simp [hx]))]

/-- The second word of `kw ws name rest`: the keyword has no white space, `ws` is
white space and not empty, the name has no white space and no comma, and what
follows it begins with white space or a comma or is empty. -/
theorem extract_second_word_shape (kw ws n rest : CStr) (max_len : Nat)
    (hkw : ∀ c ∈ kw, isspace c = false) (hws : ∀ c ∈ ws, isspace c = true) (hwsne : ws ≠ [])
    (hn : is_name n)
    (hrest : (isspace (rest.headD 0) = true ∨ iscomma (rest.headD 0) = true) ∨ rest = [])
    (hmax : 2 ≤ max_len) :
    extract_second_word (kw ++ ws ++ n ++ rest) max_len =
      (true, (n.map tolower).take (max_len - 1)) := by
  obtain ⟨w, ws2, rfl⟩ := List.exists_cons_of_ne_nil hwsne
  obtain ⟨c, cs, hc⟩ := List.exists_cons_of_ne_nil hn.1
  have hw : isspace w = true := hws w (by simp)
  have hcn := hn.2 c (by simp [hc])
  have h1 : skip_word (kw ++ (w :: ws2) ++ n ++ rest) = (w :: ws2) ++ n ++ rest := by
    rw [skip_word_eq, List.append_assoc, List.append_assoc,
      dropWhile_append_all kw _ (fun x hx => by simp [hkw x hx])]
    simp [List.dropWhile_cons, hw]
  have h2 : skip_space ((w :: ws2) ++ n ++ rest) = n ++ rest := by
    rw [skip_space_eq, List.append_assoc, dropWhile_append_all (w :: ws2) _ hws, hc]
    simp [List.dropWhile_cons, hcn.1]
  have h3 : (n ++ rest).takeWhile (fun c => !isspace c && !iscomma c) = n := by
    apply takeWhile_append_stop
    · intro x hx
      simp [(hn.2 x hx).1, (hn.2 x hx).2]
    · rcases hrest with (h | h) | h
      · left; rw [h]; rfl
      · left; rw [h, Bool.not_true, Bool.and_false]
      · right; exact h
  have hlen : 0 < ((n.map tolower).take (max_len - 1)).length := by
    rw [List.length_take, List.length_map, hc]
    simp only [List.length_cons]
    omega
  unfold extract_second_word
  dsimp only
  rw [h1, h2, copy_word_eq, h3, Nat.sub_zero, decide_eq_true hlen]

theorem keyword_bytes (kw lit : CStr) (h : kw.map tolower = lit)
    (hlit : ∀ x ∈ lit, 97 ≤ x ∧ x ≤ 122 ∧ x ≠ 112) :
    ∀ c ∈ kw, isspace c = false ∧ tolower c ≠ tolower 112 := by
  intro c hc
  have hm : tolower c ∈ lit := by
    rw [← h]; exact List.mem_map_of_mem tolower hc
  obtain ⟨h1, h2, h3⟩ := hlit _ hm
  constructor
  · cases hs : isspace c with
    | false => rfl
    | true =>
      have := tolower_space c hs
      have h4 := (isspace_iff c).1 hs
      omega
  · have : tolower 112 = 112 := by decide
    rw [this]; exact h3

theorem space_bytes (ws : CStr) (h : ∀ c ∈ ws, isspace c = true) :
    ∀ c ∈ ws, tolower c ≠ tolower 112 := by
  intro c hc
  have h1 := tolower_space c (h c hc)
  have h2 := (isspace_iff c).1 (h c hc)
  have : tolower 112 = 112 := by decide
  rw [this, h1]; omega

theorem body_last (kw ws n : CStr) (hn : is_name n) :
    ∀ c, (kw ++ (32 :: ws) ++ n).getLast? = some c → isspace c = false := by
  intro c hc
  obtain ⟨x, xs, hx⟩ := List.exists_cons_of_ne_nil hn.1
  have : (kw ++ (32 :: ws) ++ n).getLast? = n.getLast? := by
    rw [hx, List.getLast?_append, List.getLast?_cons]
    simp
  rw [this] at hc
  exact (hn.2 c (List.mem_of_getLast?_eq_some hc)).1

theorem body_first (kw ws n : CStr) (hne : kw ≠ []) (hkw : ∀ c ∈ kw, isspace c = false) :
    isspace ((kw ++ (32 :: ws) ++ n).headD 0) = false := by
  obtain ⟨x, xs, hx⟩ := List.exists_cons_of_ne_nil hne
  subst hx
  simpa using hkw x (by simp)

/-- The second pass reads a line `use name` as a reference to `name`, whatever the
letter case of keyword and name, the white space around the line and the white space
that follows the space after the keyword. -/
theorem use_key_shape (lead kw ws n trail : CStr) (hlead : ∀ c ∈ lead, isspace c = true)
    (htrail : ∀ c ∈ trail, isspace c = true) (hkw : kw.map tolower = cstr "use")
    (hws : ∀ c ∈ ws, isspace c = true) (hn : is_name n) :
    use_key (lead ++ (kw ++ (32 :: ws) ++ n) ++ trail) = some (key_of n) := by
  have hbytes := keyword_bytes kw (cstr "use") hkw (by decide)
  have hne : kw ≠ [] := by
    intro h; rw [h] at hkw; exact absurd hkw (by decide)
  have htrim : trim (lead ++ (kw ++ (32 :: ws) ++ n) ++ trail) = kw ++ (32 :: ws) ++ n :=
    trim_spec lead _ trail hlead htrail (by simp [hne])
      (body_first kw ws n hne (fun c hc => (hbytes c hc).1)) (body_last kw ws n hn)
  have hcmp : strncasecmp (kw ++ (32 :: ws) ++ n) (cstr "use ") 4 = 0 := by
    have h1 : (kw ++ [32]).map tolower = (cstr "use ").map tolower := by
      rw [List.map_append, hkw]; decide
    have := strncasecmp_recasing (kw ++ [32]) (cstr "use ") (ws ++ n) h1
    have h4 : (cstr "use ").length = 4 := by decide
    rw [h4] at this
    simpa using this
  have hext := extract_second_word_shape kw (32 :: ws) n [] MAX_MODULE_LEN
    (fun c hc => (hbytes c hc).1)
    (fun c hc => by
      rcases List.mem_cons.1 hc with h | h
      · rw [h]; decide
      · exact hws c h)
    (by simp) hn (Or.inr rfl) (by decide)
  rw [List.append_nil] at hext
  unfold use_key
  rw [htrim, if_pos ⟨hcmp, by rw [hext]⟩, hext]
  rfl

/-- The first pass reads a line `module name` as the definition of `name`, whatever
the letter case of keyword and name and the white space, provided the name does not
contain `procedure`. -/
theorem def_key_shape (lead kw ws n trail : CStr) (hlead : ∀ c ∈ lead, isspace c = true)
    (htrail : ∀ c ∈ trail, isspace c = true) (hkw : kw.map tolower = cstr "module")
    (hws : ∀ c ∈ ws, isspace c = true) (hn : is_name n)
    (hproc : strcasestr_custom n (cstr "procedure") = none) :
    def_key (lead ++ (kw ++ (32 :: ws) ++ n) ++ trail) = some (key_of n) := by
  have hbytes := keyword_bytes kw (cstr "module") hkw (by decide)
  have hne : kw ≠ [] := by
    intro h; rw [h] at hkw; exact absurd hkw (by decide)
  have htrim : trim (lead ++ (kw ++ (32 :: ws) ++ n) ++ trail) = kw ++ (32 :: ws) ++ n :=
    trim_spec lead _ trail hlead htrail (by simp [hne])
      (body_first kw ws n hne (fun c hc => (hbytes c hc).1)) (body_last kw ws n hn)
  have hcmp : strncasecmp (kw ++ (32 :: ws) ++ n) (cstr "module ") 7 = 0 := by
    have h1 : (kw ++ [32]).map tolower = (cstr "module ").map tolower := by
      rw [List.map_append, hkw]; decide
    have := strncasecmp_recasing (kw ++ [32]) (cstr "module ") (ws ++ n) h1
    have h4 : (cstr "module ").length = 7 := by decide
    rw [h4] at this
    simpa using this
  have hws2 : ∀ c ∈ 32 :: ws, isspace c = true := by
    intro c hc
    rcases List.mem_cons.1 hc with h | h
    · rw [h]; decide
    · exact hws c h
  have hext := extract_second_word_shape kw (32 :: ws) n [] MAX_MODULE_LEN
    (fun c hc => (hbytes c hc).1) hws2 (by simp) hn (Or.inr rfl) (by decide)
  rw [List.append_nil] at hext
  have hp : cstr "procedure" = 112 :: cstr "rocedure" := by decide
  have hstr : strcasestr_custom (kw ++ (32 :: ws) ++ n) (cstr "procedure") = none := by
    unfold strcasestr_custom at hproc ⊢
    rw [if_neg (by decide)] at hproc ⊢
    rw [hp] at hproc ⊢
    rw [strcasestr_loop_skip 112 _ (kw ++ (32 :: ws)) n]
    · exact hproc
    · intro c hc
      rcases List.mem_append.1 hc with h | h
      · exact (hbytes c h).2
      · exact space_bytes _ hws2 c h
  unfold def_key
  rw [htrim, if_pos ⟨hcmp, hstr, by rw [hext]⟩, hext]
  rfl

/-! ## The hash table -/

theorem hash_insert_apply (t : HashTable) (k : CStr) (v : Int) (h : Nat) :
    hash_insert t k v h = if h = hash_func k then { key := k, value := v } :: t h else t h := rfl

theorem insert_all_bucket (ops : List (CStr × Int)) (h : Nat) :
    insert_all ops h =
      ((ops.reverse.filter (fun op => decide (hash_func op.1 = h))).map
        (fun op => ({ key := op.1, value := op.2 } : HashEntry))) := by
  unfold insert_all
  induction ops using List.reverseRecOn with
  | nil => simp [empty_table]
  | append_singleton ops op ih =>
    rw [List.foldl_append, List.reverse_append]
    simp only [List.foldl_cons, List.foldl_nil, List.reverse_cons, List.reverse_nil,
      List.nil_append, List.singleton_append]
    rw [hash_insert_apply, ih]
    by_cases hh : h = hash_func op.1
    · subst hh
      simp [List.filter_cons]
    · have : ¬ hash_func op.1 = h := fun e => hh e.symm
      simp [List.filter_cons, hh, this]

theorem chain_lookup_map_filter (k : CStr) (l : List (CStr × Int)) :
    chain_lookup k ((l.filter (fun op => decide (hash_func op.1 = hash_func k))).map
        (fun op => ({ key := op.1, value := op.2 } : HashEntry))) =
      chain_lookup k (l.map (fun op => ({ key := op.1, value := op.2 } : HashEntry))) := by
  induction l with
  | nil => rfl
  | cons op l ih =>
    by_cases hk : op.1 = k
    · simp [List.filter_cons, hk, chain_lookup]
    · by_cases hh : hash_func op.1 = hash_func k
      · simp [List.filter_cons, hh, chain_lookup, hk, ih]
      · simp [List.filter_cons, hh, chain_lookup, hk, ih]

/-- The lookup walks the calls from the latest to the earliest. -/
theorem hash_lookup_insert_all (ops : List (CStr × Int)) (k : CStr) :
    hash_lookup (insert_all ops) k =
      chain_lookup k (ops.reverse.map (fun op => ({ key := op.1, value := op.2 } : HashEntry))) := by
  unfold hash_lookup
  rw [insert_all_bucket, chain_lookup_map_filter]

theorem chain_lookup_absent (k : CStr) (l : List (CStr × Int))
    (h : ∀ op ∈ l, op.1 ≠ k) :
    chain_lookup k (l.map (fun op => ({ key := op.1, value := op.2 } : HashEntry))) = -1 := by
  induction l with
  | nil => rfl
  | cons op l ih =>
    have h1 : op.1 ≠ k := h op (by simp)
    simp [chain_lookup, h1, ih (fun o ho => h o (by simp [ho]))]

theorem chain_lookup_last (k : CStr) (v : Int) (pre post : List (CStr × Int))
    (h : ∀ op ∈ post, op.1 ≠ k) :
    chain_lookup k (((pre ++ (k, v) :: post).reverse).map
      (fun op => ({ key := op.1, value := op.2 } : HashEntry))) = v := by
  rw [List.reverse_append, List.reverse_cons, List.map_append, List.map_append]
  induction post using List.reverseRecOn with
  | nil => simp [chain_lookup]
  | append_singleton post op ih =>
    have h1 : op.1 ≠ k := h op (by simp)
    have := ih (fun o ho => h o (by simp [ho]))
    simp only [List.reverse_append, List.reverse_cons, List.reverse_nil, List.nil_append,
      List.singleton_append, List.map_cons, List.cons_append, chain_lookup, h1, if_false]
    simpa using this

theorem chain_lookup_nonneg (k : CStr) (l : List (CStr × Int)) (hv : ∀ op ∈ l, 0 ≤ op.2)
    (hk : ∃ op ∈ l, op.1 = k) :
    0 ≤ chain_lookup k (l.map (fun op => ({ key := op.1, value := op.2 } : HashEntry))) := by
  induction l with
  | nil => simp at hk
  | cons op l ih =>
    by_cases h1 : op.1 = k
    · simp [chain_lookup, h1, hv op (by simp)]
    · obtain ⟨o, ho, hok⟩ := hk
      have ho2 : o ∈ l := by
        rcases List.mem_cons.1 ho with rfl | h
        · exact absurd hok h1
        · exact h
      simp [chain_lookup, h1, ih (fun o ho => hv o (by simp [ho])) ⟨o, ho2, hok⟩]

/-! ## Graphs and the invariant of Kahn's algorithm -/

theorem getD_modify_eq {α : Type} (f : α → α) (l : List α) (v : Nat) (d : α)
    (h : v < l.length) : (l.modify f v).getD v d = f (l.getD v d) := by
  simp [List.getD_eq_getElem?_getD, List.getElem?_modify_eq, List.getElem?_eq_getElem h]

theorem getD_modify_ne {α : Type} (f : α → α) (l : List α) (v w : Nat) (d : α)
    (h : v ≠ w) : (l.modify f v).getD w d = l.getD w d := by
  simp [List.getD_eq_getElem?_getD, List.getElem?_modify_ne _ _ h]

theorem edge_lt {n : Nat} {adj : List AdjList} (hwf : WellFormed n adj) {u v : Nat}
    (h : Edge adj u v) : u < n ∧ v < n := by
  unfold Edge out_edges at h
  by_cases hu : u < adj.length
  · rw [List.getD_eq_getElem _ _ hu] at h
    exact ⟨hwf.1 ▸ hu, hwf.2 _ (List.getElem_mem hu) v h⟩
  · rw [List.getD_eq_default _ _ (by omega)] at h
    simp at h

theorem out_edges_lt {n : Nat} {adj : List AdjList} (hwf : WellFormed n adj) (u : Nat) :
    ∀ v ∈ out_edges adj u, v < n := fun _ hv => (edge_lt hwf hv).2

theorem sum_map_eq_sum_range {α : Type} (f : α → Nat) (d : α) (l : List α) :
    (l.map f).sum = Finset.sum (Finset.range l.length) (fun i => f (l.getD i d)) := by
  induction l using List.reverseRecOn with
  | nil => simp
  | append_singleton l a ih =>
    rw [List.map_append, List.sum_append, List.length_append, List.length_singleton,
      Finset.sum_range_succ, ih]
    congr 1
    · apply Finset.sum_congr rfl
      intro i hi
      rw [List.getD_append _ _ _ _ (Finset.mem_range.1 hi)]
    · simp [List.getD_eq_getElem?_getD]

theorem occurrences_eq_sum (adj : List AdjList) (v : Nat) :
    occurrences adj v =
      Finset.sum (Finset.range adj.length) (fun u => (out_edges adj u).count v) := by
  unfold occurrences
  rw [List.count_flatten, List.map_map]
  exact sum_map_eq_sum_range (fun a => a.edges.count v) { edges := [], capacity := 0 } adj

theorem residual_nil (adj : List AdjList) (v : Nat) :
    residual adj adj.length [] v = occurrences adj v := by
  unfold residual
  rw [occurrences_eq_sum]
  apply Finset.sum_congr _ (fun _ _ => rfl)
  simp

theorem residual_snoc (adj : List AdjList) (n : Nat) (done : List Nat) (u v : Nat)
    (hu : u < n) (hnot : u ∉ done) :
    residual adj n done v = residual adj n (done ++ [u]) v + (out_edges adj u).count v := by
  unfold residual
  have hset : (Finset.range n).filter (fun x => x ∉ done) =
      insert u ((Finset.range n).filter (fun x => x ∉ done ++ [u])) := by
    ext x
    simp only [Finset.mem_filter, Finset.mem_range, Finset.mem_insert, List.mem_append,
      List.mem_singleton, not_or]
    constructor
    · rintro ⟨h1, h2⟩
      by_cases hx : x = u
      · exact Or.inl hx
      · exact Or.inr ⟨h1, h2, hx⟩
    · rintro (rfl | ⟨h1, h2, _⟩)
      · exact ⟨hu, hnot⟩
      · exact ⟨h1, h2⟩
  rw [hset, Finset.sum_insert (by simp), Nat.add_comm]

theorem residual_eq_zero {n : Nat} {adj : List AdjList} (hwf : WellFormed n adj)
    {done : List Nat} {v : Nat} (h : residual adj n done v = 0) {u : Nat}
    (he : Edge adj u v) : u ∈ done := by
  by_contra hnot
  unfold residual at h
  rw [Finset.sum_eq_zero_iff] at h
  have := h u (by simp [(edge_lt hwf he).1, hnot])
  rw [List.count_eq_zero] at this
  exact this he

theorem residual_pos {n : Nat} {adj : List AdjList} {done : List Nat} {v : Nat}
    (h : residual adj n done v ≠ 0) : ∃ u, u < n ∧ u ∉ done ∧ Edge adj u v := by
  unfold residual at h
  rw [Ne, Finset.sum_eq_zero_iff] at h
  push_neg at h
  obtain ⟨u, hu, hc⟩ := h
  simp only [Finset.mem_filter, Finset.mem_range] at hu
  exact ⟨u, hu.1, hu.2, by simpa [Edge, List.count_eq_zero] using hc⟩

theorem relax_front (st : TopoState) (v : Nat) : (relax st v).front = st.front := by
  unfold relax; dsimp only; split <;> rfl

theorem relax_sorted (st : TopoState) (v : Nat) : (relax st v).sorted = st.sorted := by
  unfold relax; dsimp only; split <;> rfl

theorem relax_queue (st : TopoState) (v : Nat) :
    ∃ ext, (relax st v).queue = st.queue ++ ext := by
  unfold relax; dsimp only; split
  · exact ⟨[v], rfl⟩
  · exact ⟨[], by simp⟩

/-- One relaxation keeps the invariant. -/
theorem relax_inv {n : Nat} {adj : List AdjList} (hwf : WellFormed n adj)
    {done es : List Nat} {v : Nat} {st : TopoState}
    (inv : KahnInv n adj done (v :: es) st) (hv : v < n) :
    KahnInv n adj done es (relax st v) := by
  have hlen : v < st.in_degree.length := by rw [inv.len]; exact hv
  have hdv := inv.deg v hv
  have hvq : v ∉ st.queue := by
    intro hmem
    have := (inv.zero v hv).1 hmem
    rw [this, List.count_cons_self] at hdv
    omega
  have hnew : (st.in_degree.modify (fun d => d - 1) v).getD v 0 =
      ((residual adj n done v + es.count v : Nat) : Int) := by
    rw [getD_modify_eq _ _ _ _ hlen, hdv]
    simp only [List.count_cons_self]
    push_cast
    ring
  have hother : ∀ w, w ≠ v → (st.in_degree.modify (fun d => d - 1) v).getD w 0 =
      st.in_degree.getD w 0 := fun w hw => getD_modify_ne _ _ _ _ _ (Ne.symm hw)
  have hdeg : ∀ w, w < n → (st.in_degree.modify (fun d => d - 1) v).getD w 0 =
      ((residual adj n done w + es.count w : Nat) : Int) := by
    intro w hw
    by_cases hwv : w = v
    · subst hwv; exact hnew
    · rw [hother w hwv, inv.deg w hw, List.count_cons_of_ne hwv]
  unfold relax
  simp only
  split
  · rename_i hz
    have hres : residual adj n done v = 0 := by
      rw [hnew] at hz
      have : residual adj n done v + es.count v = 0 := by exact_mod_cast hz
      omega
    refine ⟨?_, ?_, ?_, ?_, hdeg, ?_, ?_⟩
    · exact List.Nodup.append inv.nodup (List.nodup_singleton v) (by simpa using hvq)
    · intro x hx
      rcases List.mem_append.1 hx with h | h
      · exact inv.lt x h
      · simpa [List.mem_singleton.1 h] using hv
    · simpa using inv.len
    · intro x hx
      exact List.mem_append_left _ (inv.done_sub x hx)
    · intro w hw
      by_cases hwv : w = v
      · subst hwv; exact ⟨fun _ => hz, fun _ => by simp⟩
      · simp only [List.mem_append, List.mem_singleton, hwv, or_false]
        rw [hother w hwv]
        exact inv.zero w hw
    · intro j w hj u hu
      by_cases hjl : j < st.queue.length
      · rw [List.getElem?_append_left hjl] at hj
        obtain ⟨i, hi, hiu⟩ := inv.order j w hj u hu
        exact ⟨i, hi, by rw [List.getElem?_append_left (by omega)]; exact hiu⟩
      · have hjl2 : st.queue.length ≤ j := by omega
        rw [List.getElem?_append_right hjl2] at hj
        have hj0 : j - st.queue.length = 0 := by
          by_contra hne
          rw [List.getElem?_eq_none (by simp; omega)] at hj
          simp at hj
        rw [hj0] at hj
        simp at hj
        subst hj
        have hud : u ∈ done := residual_eq_zero hwf hres hu
        have huq : u ∈ st.queue := inv.done_sub u hud
        obtain ⟨i, hi, hiu⟩ := List.getElem_of_mem huq
        refine ⟨i, by omega, ?_⟩
        rw [List.getElem?_append_left hi, List.getElem?_eq_getElem hi, hiu]
  · rename_i hz
    refine ⟨inv.nodup, inv.lt, by simpa using inv.len, inv.done_sub, hdeg, ?_, inv.order⟩
    intro w hw
    by_cases hwv : w = v
    · subst hwv
      exact ⟨fun h => absurd h hvq, fun h => absurd h hz⟩
    · rw [hother w hwv]
      exact inv.zero w hw

/-- Relaxing all pending edges keeps the invariant; the queue only grows at its end. -/
theorem foldl_relax_inv {n : Nat} {adj : List AdjList} (hwf : WellFormed n adj)
    {done : List Nat} (es : List Nat) : ∀ (st : TopoState), (∀ v ∈ es, v < n) →
    KahnInv n adj done es st →
    KahnInv n adj done [] (es.foldl relax st) ∧ (es.foldl relax st).front = st.front ∧
      (es.foldl relax st).sorted = st.sorted ∧
      ∃ ext, (es.foldl relax st).queue = st.queue ++ ext := by
  induction es with
  | nil => intro st _ inv; exact ⟨inv, rfl, rfl, [], by simp⟩
  | cons v es ih =>
    intro st hes inv
    have h1 := relax_inv hwf inv (hes v (by simp))
    obtain ⟨h2, h3, h4, ext2, h5⟩ := ih (relax st v) (fun w hw => hes w (by simp [hw])) h1
    obtain ⟨ext1, h6⟩ := relax_queue st v
    refine ⟨h2, ?_, ?_, ext1 ++ ext2, ?_⟩
    · simpa [relax_front] using h3
    · simpa [relax_sorted] using h4
    · simp only [List.foldl_cons]
      rw [h5, h6, List.append_assoc]

theorem queue_length_le {n : Nat} {q : List Nat} (hnd : q.Nodup) (hlt : ∀ x ∈ q, x < n) :
    q.length ≤ n := by
  have hsub : q ⊆ List.range n := fun x hx => List.mem_range.2 (hlt x hx)
  have := (List.subperm_of_subset hnd hsub).length_le
  simpa using this

/-- One turn of the `while` loop keeps its invariant. -/
theorem topo_step_inv {n : Nat} {adj : List AdjList} (hwf : WellFormed n adj)
    {st : TopoState} (inv : LoopInv n adj st) (hlt : st.front < st.queue.length) :
    LoopInv n adj (topo_step adj st) ∧ (topo_step adj st).front = st.front + 1 := by
  obtain ⟨u, hu⟩ : ∃ u, st.queue.getD st.front 0 = u := ⟨_, rfl⟩
  have hget : st.queue[st.front]? = some u := by
    rw [← hu, List.getD_eq_getElem _ _ hlt, List.getElem?_eq_getElem hlt]
  have humem : u ∈ st.queue := List.getElem?_mem hget
  have hun : u < n := inv.inv.lt _ humem
  have htake : st.queue.take (st.front + 1) = st.queue.take st.front ++ [u] := by
    rw [List.take_succ, hget]; rfl
  have hnot : u ∉ st.sorted := by
    rw [inv.sorted_eq]
    intro hmem
    have hnd := inv.inv.nodup
    rw [← List.take_append_drop (st.front + 1) st.queue, htake] at hnd
    have := (List.nodup_append.1 (List.nodup_append.1 hnd).1).2.2
    exact this hmem (by simp)
  have h0 : KahnInv n adj (st.sorted ++ [u]) (out_edges adj u)
      { st with front := st.front + 1, sorted := st.sorted ++ [u] } := by
    refine ⟨inv.inv.nodup, inv.inv.lt, inv.inv.len, ?_, ?_, inv.inv.zero, inv.inv.order⟩
    · intro x hx
      rcases List.mem_append.1 hx with h | h
      · exact inv.inv.done_sub x h
      · rw [List.mem_singleton.1 h]; exact humem
    · intro v hv
      have := inv.inv.deg v hv
      simp only [List.count_nil, Nat.add_zero] at this
      show st.in_degree.getD v 0 = _
      rw [this, residual_snoc adj n st.sorted _ v hun hnot]
  obtain ⟨h1, h2, h3, ext, h4⟩ := foldl_relax_inv hwf (out_edges adj u) _
    (out_edges_lt hwf _) h0
  unfold topo_step
  simp only [hu]
  unfold out_edges at h1 h2 h3 h4
  refine ⟨⟨?_, ?_, ?_⟩, h2⟩
  · rw [h2, h4]; simp; omega
  · rw [h3, h2, h4, List.take_append_of_le_length (by simpa using hlt), htake, inv.sorted_eq]
  · rw [h3]; exact h1

/-- With enough fuel the loop ends, with the queue used up. -/
theorem topo_loop_inv {n : Nat} {adj : List AdjList} (hwf : WellFormed n adj) (fuel : Nat) :
    ∀ st : TopoState, LoopInv n adj st → n - st.front ≤ fuel →
    ∃ st2, topo_loop adj fuel st = some st2 ∧ LoopInv n adj st2 ∧
      st2.front = st2.queue.length := by
  induction fuel with
  | zero =>
    intro st inv hf
    have := queue_length_le inv.inv.nodup inv.inv.lt
    have h1 := inv.front_le
    have : ¬ st.front < st.queue.length := by omega
    exact ⟨st, by simp [topo_loop, this], inv, by omega⟩
  | succ fuel ih =>
    intro st inv hf
    by_cases hlt : st.front < st.queue.length
    · obtain ⟨h1, h2⟩ := topo_step_inv hwf inv hlt
      obtain ⟨st2, h3, h4, h5⟩ := ih (topo_step adj st) h1 (by omega)
      exact ⟨st2, by simp [topo_loop, hlt, h3], h4, h5⟩
    · have h1 := inv.front_le
      exact ⟨st, by simp [topo_loop, hlt], inv, by omega⟩

/-- The state built by lines 340-344 satisfies the loop invariant. -/
theorem initial_inv {n : Nat} {g : Graph} (hwf : WellFormed n g.adj)
    (hm : InDegreeMatches n g) :
    LoopInv n g.adj (initial_state n g.in_degree) := by
  have hres : ∀ v, residual g.adj n [] v = occurrences g.adj v := by
    intro v; rw [← hwf.1]; exact residual_nil g.adj v
  refine ⟨Nat.zero_le _, by simp [initial_state], ?_⟩
  show KahnInv n g.adj [] [] (initial_state n g.in_degree)
  refine ⟨?_, ?_, hm.1, ?_, ?_, ?_, ?_⟩
  · exact List.Nodup.filter _ (List.nodup_range n)
  · intro x hx
    exact List.mem_range.1 (List.mem_filter.1 hx).1
  · intro x hx; simp at hx
  · intro v hv
    show g.in_degree.getD v 0 = _
    rw [hm.2 v hv, hres]; simp
  · intro v hv
    show v ∈ initial_queue n g.in_degree ↔ g.in_degree.getD v 0 = 0
    simp [initial_queue, hv]
  · intro j v hj u hu
    have hvq : v ∈ initial_queue n g.in_degree := List.getElem?_mem hj
    have hv : v < n := List.mem_range.1 (List.mem_filter.1 hvq).1
    have hz : g.in_degree.getD v 0 = 0 := by simpa [initial_queue, hv] using hvq
    rw [hm.2 v hv, ← hres] at hz
    have := residual_eq_zero hwf (by exact_mod_cast hz) hu
    simp at this

theorem nodup_index_unique {l : List Nat} (h : l.Nodup) {i j a : Nat}
    (hi : l[i]? = some a) (hj : l[j]? = some a) : i = j := by
  rw [List.nodup_iff_getElem?_ne_getElem?] at h
  have hil : i < l.length := by
    by_contra hc; rw [List.getElem?_eq_none (by omega)] at hi; simp at hi
  have hjl : j < l.length := by
    by_contra hc; rw [List.getElem?_eq_none (by omega)] at hj; simp at hj
  rcases Nat.lt_trichotomy i j with hlt | heq | hgt
  · exact absurd (hi.trans hj.symm) (h i j hlt hjl)
  · exact heq
  · exact absurd (hj.trans hi.symm) (h j i hgt hil)

/-- A non-empty finite set of nodes each of which has a predecessor in the set
contains a cycle. -/
theorem cycle_of_pred (adj : List AdjList) (U : Finset Nat) (hne : U.Nonempty)
    (h : ∀ v ∈ U, ∃ u ∈ U, Edge adj u v) : HasCycle adj := by
  by_contra hac
  let r : {x // x ∈ U} → {x // x ∈ U} → Prop := fun a b => Relation.TransGen (Edge adj) a.1 b.1
  have htr : IsTrans {x // x ∈ U} r := ⟨fun _ _ _ hab hbc => Relation.TransGen.trans hab hbc⟩
  have hir : IsIrrefl {x // x ∈ U} r := ⟨fun a haa => hac ⟨a.1, haa⟩⟩
  have wf : WellFounded r := Finite.wellFounded_of_trans_of_irrefl r
  obtain ⟨x, hx⟩ := hne
  obtain ⟨m, _, hm⟩ := wf.has_min Set.univ ⟨⟨x, hx⟩, trivial⟩
  obtain ⟨u, hu, hum⟩ := h m.1 m.2
  exact hm ⟨u, hu⟩ trivial (Relation.TransGen.single hum)

/-- Every edge into a queued node comes from a node queued earlier. -/
theorem kahn_order {n : Nat} {adj : List AdjList} {done : List Nat} {st : TopoState}
    (inv : KahnInv n adj done [] st) {a b i j : Nat} (he : Edge adj a b)
    (hi : st.queue[i]? = some a) (hj : st.queue[j]? = some b) : i < j := by
  obtain ⟨k, hk, hka⟩ := inv.order j b hj a he
  rw [nodup_index_unique inv.nodup hi hka]
  exact hk

theorem kahn_perm {n : Nat} {q : List Nat} (hnd : q.Nodup) (hlt : ∀ x ∈ q, x < n)
    (hlen : q.length = n) : q.Perm (List.range n) :=
  (List.subperm_of_subset hnd (fun x hx => List.mem_range.2 (hlt x hx))).perm_of_length_le
    (by simp [hlen])

/-- When the loop has ended with nodes left over, the graph has a cycle. -/
theorem kahn_complete {n : Nat} {adj : List AdjList} {st : TopoState}
    (inv : KahnInv n adj st.queue [] st) (hac : ¬ HasCycle adj) : st.queue.length = n := by
  by_contra hne
  apply hac
  apply cycle_of_pred adj ((Finset.range n).filter (fun u => u ∉ st.queue))
  · by_contra hempty
    rw [Finset.not_nonempty_iff_eq_empty, Finset.filter_eq_empty_iff] at hempty
    have hsub : List.range n ⊆ st.queue := by
      intro x hx
      have := hempty (Finset.mem_range.2 (List.mem_range.1 hx))
      simpa using this
    have h1 := (List.subperm_of_subset (List.nodup_range n) hsub).length_le
    have h2 := queue_length_le inv.nodup inv.lt
    simp at h1
    omega
  · intro v hv
    simp only [Finset.mem_filter, Finset.mem_range] at hv
    have hz : st.in_degree.getD v 0 ≠ 0 := fun hz => hv.2 ((inv.zero v hv.1).2 hz)
    rw [inv.deg v hv.1] at hz
    have hres : residual adj n st.queue v ≠ 0 := by
      intro h0; apply hz; simp [h0]
    obtain ⟨u, hu, hud, hue⟩ := residual_pos hres
    exact ⟨u, by simp [hu, hud], hue⟩

/-- When every node was emitted, the graph has no cycle. -/
theorem kahn_acyclic {n : Nat} {adj : List AdjList} (hwf : WellFormed n adj) {done : List Nat}
    {st : TopoState} (inv : KahnInv n adj done [] st) (hlen : st.queue.length = n) :
    ¬ HasCycle adj := by
  rintro ⟨x, hx⟩
  have key : ∀ a b, Relation.TransGen (Edge adj) a b → ∀ j : Nat, st.queue[j]? = some b →
      ∃ i : Nat, i < j ∧ st.queue[i]? = some a := by
    intro a b hab
    induction hab with
    | single he => intro j hj; exact inv.order j _ hj a he
    | tail _ he ih =>
      intro j hj
      obtain ⟨i, hi, hib⟩ := inv.order j _ hj _ he
      obtain ⟨k, hk, hka⟩ := ih i hib
      exact ⟨k, by omega, hka⟩
  have hxn : x < n := by
    cases hx with
    | single he => exact (edge_lt hwf he).2
    | tail _ he => exact (edge_lt hwf he).2
  have hxq : x ∈ st.queue :=
    (kahn_perm inv.nodup inv.lt hlen).mem_iff.2 (List.mem_range.2 hxn)
  obtain ⟨j, hj⟩ := List.mem_iff_getElem?.1 hxq
  obtain ⟨i, hi, hix⟩ := key x x hx j hj
  have := nodup_index_unique inv.nodup hix hj
  omega

/-- On a well-formed graph with matching in-degree counts the loop of
`topologic_sort` ends within `n` turns, with `sorted` holding the whole queue. -/
theorem topo_loop_result {n : Nat} {g : Graph} (hwf : WellFormed n g.adj)
    (hm : InDegreeMatches n g) :
    ∃ st, topo_loop g.adj n (initial_state n g.in_degree) = some st ∧
      st.sorted = st.queue ∧ KahnInv n g.adj st.queue [] st := by
  obtain ⟨st, h1, h2, h3⟩ := topo_loop_inv hwf n _ (initial_inv hwf hm) (by simp)
  have hs : st.sorted = st.queue := by
    rw [h2.sorted_eq, h3, List.take_length]
  exact ⟨st, h1, hs, hs ▸ h2.inv⟩

/-- What `topologic_sort` returns on a well-formed graph with matching counts. -/
theorem topologic_sort_result {n : Nat} {g : Graph} (len0 : Nat) (hwf : WellFormed n g.adj)
    (hm : InDegreeMatches n g) :
    ∃ st, st.sorted = st.queue ∧ KahnInv n g.adj st.queue [] st ∧
      topologic_sort n g len0 =
        some (if st.sorted.length ≠ n then
          { ret := 0, sorted := st.sorted, sorted_len := len0, in_degree := st.in_degree }
        else { ret := 1, sorted := st.sorted, sorted_len := st.sorted.length,
               in_degree := st.in_degree }) := by
  obtain ⟨st, h1, h2, h3⟩ := topo_loop_result hwf hm
  refine ⟨st, h2, h3, ?_⟩
  unfold topologic_sort
  rw [h1]
  dsimp only
  by_cases h : st.sorted.length = n
  · simp [h]
  · simp [h]

/-- C1: on a graph of `n` nodes (adjacency lists, in-degree counts that match them)
without a directed cycle, `topologic_sort` returns 1, sets the output length to `n`,
its output is a permutation of `0..n-1`, and for every edge `a -> b` the position of
`a` in the output is smaller than the position of `b`. -/
theorem topologic_sort_acyclic (n : Nat) (g : Graph) (len0 : Nat)
    (hwf : WellFormed n g.adj) (hm : InDegreeMatches n g) (hac : ¬ HasCycle g.adj) :
    ∃ r, topologic_sort n g len0 = some r ∧ r.ret = 1 ∧ r.sorted_len = n ∧
      r.sorted.length = n ∧ r.sorted.Perm (List.range n) ∧
      ∀ a b i j : Nat, Edge g.adj a b → r.sorted[i]? = some a → r.sorted[j]? = some b →
        i < j := by
  obtain ⟨st, hs, inv, hr⟩ := topologic_sort_result len0 hwf hm
  have hlen : st.sorted.length = n := by rw [hs]; exact kahn_complete inv hac
  rw [if_neg (by simp [hlen])] at hr
  refine ⟨_, hr, rfl, hlen, hlen, ?_, ?_⟩
  · show st.sorted.Perm (List.range n)
    rw [hs]; exact kahn_perm inv.nodup inv.lt (hs ▸ hlen)
  · intro a b i j he hi hj
    simp only [hs] at hi hj
    exact kahn_order inv he hi hj

/-- C2: on a graph (adjacency lists, in-degree counts that match them) with a directed
cycle, a self-loop included, `topologic_sort` returns 0 and leaves the output length
as it was; and it returns 1 exactly when the graph has no cycle. -/
theorem topologic_sort_cyclic (n : Nat) (g : Graph) (len0 : Nat)
    (hwf : WellFormed n g.adj) (hm : InDegreeMatches n g) :
    ∃ r, topologic_sort n g len0 = some r ∧
      (HasCycle g.adj → r.ret = 0 ∧ r.sorted_len = len0) ∧
      (r.ret = 1 ↔ ¬ HasCycle g.adj) := by
  obtain ⟨st, hs, inv, hr⟩ := topologic_sort_result len0 hwf hm
  refine ⟨_, hr, ?_, ?_⟩
  · intro hc
    have hlen : st.sorted.length ≠ n := fun h => kahn_acyclic hwf inv (hs ▸ h) hc
    rw [if_pos hlen]
    exact ⟨rfl, rfl⟩
  · by_cases hlen : st.sorted.length = n
    · rw [if_neg (by simp [hlen])]
      exact ⟨fun _ => kahn_acyclic hwf inv (hs ▸ hlen), fun _ => rfl⟩
    · rw [if_pos hlen]
      constructor
      · intro h; simp at h
      · intro hac; exact absurd (hs ▸ kahn_complete inv hac) hlen

theorem acyclic_of_increasing (adj : List AdjList)
    (h : ∀ u v, Edge adj u v → u < v) : ¬ HasCycle adj := by
  rintro ⟨x, hx⟩
  have key : ∀ a b, Relation.TransGen (Edge adj) a b → a < b := by
    intro a b hab
    induction hab with
    | single he => exact h _ _ he
    | tail _ he ih => exact Nat.lt_trans ih (h _ _ he)
  exact Nat.lt_irrefl x (key x x hx)

theorem diamond_graph_acyclic : ¬ HasCycle diamond_graph.adj := by
  apply acyclic_of_increasing
  intro u v he
  unfold Edge out_edges diamond_graph at he
  match u, he with
  | 0, he => simp at he; omega
  | 1, he => simp at he; omega
  | 2, he => simp at he
  | _ + 3, he => simp at he

theorem topologic_sort_acyclic_witness :
    WellFormed 3 diamond_graph.adj ∧ InDegreeMatches 3 diamond_graph ∧
    ¬ HasCycle diamond_graph.adj ∧
    ∃ r, topologic_sort 3 diamond_graph 3 = some r ∧ r.ret = 1 ∧ r.sorted_len = 3 ∧
      r.sorted.length = 3 ∧ r.sorted.Perm (List.range 3) ∧
      ∀ a b i j : Nat, Edge diamond_graph.adj a b → r.sorted[i]? = some a →
        r.sorted[j]? = some b → i < j :=
  ⟨by unfold WellFormed; decide, by unfold InDegreeMatches; decide, diamond_graph_acyclic,
    topologic_sort_acyclic 3 diamond_graph 3 (by unfold WellFormed; decide)
      (by unfold InDegreeMatches; decide) diamond_graph_acyclic⟩

theorem topologic_sort_cyclic_witness :
    WellFormed 2 self_loop_graph.adj ∧ InDegreeMatches 2 self_loop_graph ∧
    HasCycle self_loop_graph.adj ∧
    ∃ r, topologic_sort 2 self_loop_graph 2 = some r ∧
      (HasCycle self_loop_graph.adj → r.ret = 0 ∧ r.sorted_len = 2) ∧
      (r.ret = 1 ↔ ¬ HasCycle self_loop_graph.adj) :=
  ⟨by unfold WellFormed; decide, by unfold InDegreeMatches; decide,
    ⟨1, Relation.TransGen.single (by unfold Edge; decide)⟩,
    topologic_sort_cyclic 2 self_loop_graph 2 (by unfold WellFormed; decide)
      (by unfold InDegreeMatches; decide)⟩

/-! ## The first scanning pass and the registry -/

theorem define_line_eq (i : Nat) (st : Prog) (line : CStr) :
    define_line i st line =
      match def_key line with
      | none => st
      | some k => { files := st.files.modify (fun f => { f with module_name := k }) i,
                    hash_table := hash_insert st.hash_table k (i : Int) } := by
  unfold define_line def_key
  by_cases h1 : strncasecmp (trim line) (cstr "module ") 7 = 0
  · by_cases h2 : strcasestr_custom (trim line) (cstr "procedure") = none
    · by_cases h3 : (extract_second_word (trim line) MAX_MODULE_LEN).1 = true
      · simp [h1, h2, h3]
      · simp [h1, h2, h3]
    · simp [h1, h2]
  · simp [h1]

theorem hash_lookup_insert (t : HashTable) (k2 k : CStr) (v : Int) :
    hash_lookup (hash_insert t k2 v) k = if k2 = k then v else hash_lookup t k := by
  unfold hash_lookup
  rw [hash_insert_apply]
  by_cases hk : k2 = k
  · subst hk; simp [chain_lookup]
  · by_cases hh : hash_func k = hash_func k2
    · simp [hh, chain_lookup, hk]
    · simp [hh, hk]

/-- The first pass over the lines of file `i`. -/
theorem define_lines_spec (i : Nat) (lines : List CStr) : ∀ st : Prog,
    (∀ k, hash_lookup (lines.foldl (define_line i) st).hash_table k =
      if k ∈ defined_keys lines then (i : Int) else hash_lookup st.hash_table k) ∧
    (lines.foldl (define_line i) st).files.length = st.files.length ∧
    (∀ j, ((lines.foldl (define_line i) st).files.getD j (new_file [])).uses =
        (st.files.getD j (new_file [])).uses ∧
      ((lines.foldl (define_line i) st).files.getD j (new_file [])).uses_capacity =
        (st.files.getD j (new_file [])).uses_capacity ∧
      ((lines.foldl (define_line i) st).files.getD j (new_file [])).filename =
        (st.files.getD j (new_file [])).filename) := by
  induction lines with
  | nil => intro st; simp [defined_keys]
  | cons l ls ih =>
    intro st
    obtain ⟨h1, h2, h3⟩ := ih (define_line i st l)
    simp only [List.foldl_cons]
    rw [define_line_eq] at h1 h2 h3 ⊢
    cases hk : def_key l with
    | none =>
      simp only [hk] at h1 h2 h3 ⊢
      simp only [defined_keys, List.filterMap_cons, hk] at h1 ⊢
      exact ⟨h1, h2, h3⟩
    | some k2 =>
      simp only [hk] at h1 h2 h3 ⊢
      refine ⟨?_, ?_, ?_⟩
      · intro k
        rw [h1 k, hash_lookup_insert]
        simp only [defined_keys, List.filterMap_cons, hk, List.mem_cons]
        by_cases hkk : k2 = k
        · subst hkk; simp
        · have : ¬ k = k2 := fun e => hkk e.symm
          simp [hkk, this]
      · simpa using h2
      · intro j
        obtain ⟨a, b, c⟩ := h3 j
        rw [a, b, c]
        by_cases hij : i = j
        · subst hij
          by_cases hlt : i < st.files.length
          · simp [List.getD_eq_getElem?_getD, List.getElem?_eq_getElem hlt]
          · simp [List.modify_eq_self (Nat.le_of_not_lt hlt)]
        · simp [List.getD_eq_getElem?_getD, List.getElem?_modify_ne _ _ hij]

theorem registry_succ (contents : List (List CStr)) (i : Nat) (k : CStr) :
    registry contents (i + 1) k =
      if k ∈ defined_keys (contents.getD i []) then (i : Int) else registry contents i k := rfl

/-- The first pass over the files `0..m-1`. -/
theorem find_defined_upto (contents : List (List CStr)) (st : Prog) (m : Nat) :
    (∀ k, hash_lookup ((List.range m).foldl
        (fun st i => (contents.getD i []).foldl (define_line i) st) st).hash_table k =
      if registry contents m k = -1 then hash_lookup st.hash_table k
      else registry contents m k) ∧
    ((List.range m).foldl
        (fun st i => (contents.getD i []).foldl (define_line i) st) st).files.length =
      st.files.length ∧
    (∀ j, uses_of ((List.range m).foldl
        (fun st i => (contents.getD i []).foldl (define_line i) st) st).files j =
        uses_of st.files j ∧
      filename_of ((List.range m).foldl
        (fun st i => (contents.getD i []).foldl (define_line i) st) st).files j =
        filename_of st.files j) := by
  induction m with
  | zero => simp [registry]
  | succ m ih =>
    obtain ⟨h1, h2, h3⟩ := ih
    rw [List.range_succ, List.foldl_append]
    simp only [List.foldl_cons, List.foldl_nil]
    obtain ⟨g1, g2, g3⟩ := define_lines_spec m (contents.getD m [])
      ((List.range m).foldl (fun st i => (contents.getD i []).foldl (define_line i) st) st)
    refine ⟨?_, by rw [g2, h2], ?_⟩
    · intro k
      rw [g1 k, h1 k, registry_succ]
      by_cases hk : k ∈ defined_keys (contents.getD m [])
      · have : ¬ ((m : Int) = -1) := by omega
        simp only [hk, if_true, this, if_false]
      · simp only [hk, if_false]
    · intro j
      unfold uses_of filename_of at *
      rw [(g3 j).1, (g3 j).2.2]
      exact h3 j

theorem registry_range (contents : List (List CStr)) (n : Nat) (k : CStr) :
    registry contents n k = -1 ∨ (0 ≤ registry contents n k ∧ registry contents n k < n) := by
  induction n with
  | zero => left; rfl
  | succ n ih =>
    rw [registry_succ]
    split
    · right; omega
    · rcases ih with h | h
      · left; exact h
      · right; omega

theorem registry_eq_neg_one_iff (contents : List (List CStr)) (n : Nat) (k : CStr) :
    registry contents n k = -1 ↔ ∀ d, d < n → k ∉ defined_keys (contents.getD d []) := by
  induction n with
  | zero => simp [registry]
  | succ n ih =>
    rw [registry_succ]
    split
    · rename_i hk
      constructor
      · intro h; omega
      · intro h; exact absurd hk (h n (by omega))
    · rename_i hk
      rw [ih]
      constructor
      · intro h d hd
        by_cases hdn : d = n
        · subst hdn; exact hk
        · exact h d (by omega)
      · intro h d hd; exact h d (by omega)

theorem registry_eq_iff (contents : List (List CStr)) (n : Nat) (k : CStr) (d : Nat) :
    registry contents n k = (d : Int) ↔
      d < n ∧ k ∈ defined_keys (contents.getD d []) ∧
        ∀ e, d < e → e < n → k ∉ defined_keys (contents.getD e []) := by
  induction n with
  | zero =>
    simp only [registry]
    constructor
    · intro h; omega
    · intro h; omega
  | succ n ih =>
    rw [registry_succ]
    split
    · rename_i hk
      constructor
      · intro h
        have : d = n := by omega
        subst this
        exact ⟨by omega, hk, fun e h1 h2 => by omega⟩
      · rintro ⟨h1, h2, h3⟩
        by_cases hdn : d = n
        · subst hdn; rfl
        · exact absurd hk (h3 n (by omega) (by omega))
    · rename_i hk
      rw [ih]
      constructor
      · rintro ⟨h1, h2, h3⟩
        refine ⟨by omega, h2, fun e h4 h5 => ?_⟩
        by_cases hen : e = n
        · subst hen; exact hk
        · exact h3 e h4 (by omega)
      · rintro ⟨h1, h2, h3⟩
        have hdn : d ≠ n := by
          intro e; subst e; exact hk h2
        exact ⟨by omega, h2, fun e h4 h5 => h3 e h4 (by omega)⟩

/-- After the first pass the hash table holds the registry. -/
theorem find_defined_modules_spec (contents : List (List CStr)) (paths : List CStr) :
    (∀ k, hash_lookup (find_defined_modules contents (init_prog paths)).hash_table k =
      registry contents paths.length k) ∧
    (find_defined_modules contents (init_prog paths)).files.length = paths.length ∧
    (∀ j, uses_of (find_defined_modules contents (init_prog paths)).files j = []) ∧
    (∀ j, filename_of (find_defined_modules contents (init_prog paths)).files j =
      paths.getD j []) := by
  obtain ⟨h1, h2, h3⟩ := find_defined_upto contents (init_prog paths) (init_prog paths).files.length
  have hlen : (init_prog paths).files.length = paths.length := by simp [init_prog]
  unfold find_defined_modules
  refine ⟨?_, by rw [h2, hlen], ?_, ?_⟩
  · intro k
    rw [h1 k, hlen]
    split
    · rename_i h; rw [h]; rfl
    · rfl
  · intro j
    rw [(h3 j).1]
    unfold uses_of init_prog
    by_cases hj : j < paths.length
    · simp [List.getD_eq_getElem?_getD, List.getElem?_eq_getElem, hj, new_file]
    · simp [List.getD_eq_getElem?_getD, List.getElem?_eq_none, Nat.le_of_not_lt hj, new_file]
  · intro j
    rw [(h3 j).2]
    unfold filename_of init_prog
    by_cases hj : j < paths.length
    · simp [List.getD_eq_getElem?_getD, List.getElem?_eq_getElem, hj, new_file]
    · simp [List.getD_eq_getElem?_getD, List.getElem?_eq_none, Nat.le_of_not_lt hj, new_file]

/-! ## Lookup returns the latest insertion -/

/-- C5: after any sequence of `hash_insert` calls, `hash_lookup(k)` is -1 when `k`
was never inserted, and otherwise the value of the latest call whose key is `k`,
whatever other keys were inserted before, between or after (also into the same
bucket); with non-negative values it is -1 only when `k` was never inserted. So of
several files that define one module name, the last one scanned wins: after
`find_defined_modules` the lookup of a name gives the last file that defines it. -/
theorem hash_lookup_latest (ops : List (CStr × Int)) (k : CStr) :
    ((∀ op ∈ ops, op.1 ≠ k) → hash_lookup (insert_all ops) k = -1) ∧
    (∀ (pre post : List (CStr × Int)) (v : Int), ops = pre ++ (k, v) :: post →
      (∀ op ∈ post, op.1 ≠ k) → hash_lookup (insert_all ops) k = v) ∧
    ((∀ op ∈ ops, 0 ≤ op.2) →
      (hash_lookup (insert_all ops) k = -1 ↔ ∀ op ∈ ops, op.1 ≠ k)) ∧
    (∀ (contents : List (List CStr)) (paths : List CStr) (d : Nat), d < paths.length →
      k ∈ defined_keys (contents.getD d []) →
      (∀ e, d < e → e < paths.length → k ∉ defined_keys (contents.getD e [])) →
      hash_lookup (find_defined_modules contents (init_prog paths)).hash_table k =
        (d : Int)) := by
  refine ⟨?_, ?_, ?_, ?_⟩
  · intro h
    rw [hash_lookup_insert_all]
    exact chain_lookup_absent k _ (fun op hop => h op (by simpa using hop))
  · intro pre post v hops h
    rw [hash_lookup_insert_all, hops]
    exact chain_lookup_last k v pre post h
  · intro hv
    constructor
    · intro h op hop hk
      have := chain_lookup_nonneg k ops.reverse (fun o ho => hv o (by simpa using ho))
        ⟨op, by simpa using hop, hk⟩
      rw [← hash_lookup_insert_all, h] at this
      omega
    · intro h
      rw [hash_lookup_insert_all]
      exact chain_lookup_absent k _ (fun op hop => h op (by simpa using hop))
  · intro contents paths d hd hdef hlast
    rw [(find_defined_modules_spec contents paths).1 k]
    exact (registry_eq_iff contents paths.length k d).2 ⟨hd, hdef, hlast⟩

/-- Two files define module `m`, a third one `n` in between: the later definer of
`m` is found, and a name never inserted gives -1. -/
theorem hash_lookup_latest_witness :
    hash_lookup (insert_all [(cstr "m", 0), (cstr "n", 1), (cstr "m", 2)]) (cstr "m") = 2 ∧
    hash_lookup (insert_all [(cstr "m", 0), (cstr "n", 1), (cstr "m", 2)]) (cstr "q") = -1 ∧
    hash_lookup (find_defined_modules (duplicate_srcs.map Source.lines)
      (init_prog (duplicate_srcs.map Source.path))).hash_table (cstr "n") = 2 :=
  ⟨(hash_lookup_latest [(cstr "m", 0), (cstr "n", 1), (cstr "m", 2)] (cstr "m")).2.1
      [(cstr "m", 0), (cstr "n", 1)] [] 2 (by decide) (by decide),
   (hash_lookup_latest [(cstr "m", 0), (cstr "n", 1), (cstr "m", 2)] (cstr "q")).1 (by decide),
   (hash_lookup_latest [] (cstr "n")).2.2.2 (duplicate_srcs.map Source.lines)
      (duplicate_srcs.map Source.path) 2 (by decide) (by decide)
      (by intro e h1 h2; simp [duplicate_srcs] at h2; omega)⟩

/-! ## The second scanning pass and the uses lists -/

theorem use_line_eq (table : HashTable) (i : Nat) (files : List FortranFile) (line : CStr) :
    use_line table i files line =
      match resolved_line table line with
      | none => some files
      | some idx => add_used_module files i idx := by
  unfold use_line resolved_line use_key
  by_cases h1 : strncasecmp (trim line) (cstr "use ") 4 = 0
  · by_cases h2 : (extract_second_word (trim line) MAX_MODULE_LEN).1 = true
    · by_cases h3 : hash_lookup table (extract_second_word (trim line) MAX_MODULE_LEN).2 = -1
      · simp [h1, h2, h3]
      · simp [h1, h2, h3]
    · simp [h1, h2]
  · simp [h1]

theorem ensure_uses_capacity_spec {files files1 : List FortranFile} {i : Nat}
    (h : ensure_uses_capacity files i = some files1) :
    files1.length = files.length ∧
    (∀ j, uses_of files1 j = uses_of files j) ∧
    (∀ j, j ≠ i → files1.getD j (new_file []) = files.getD j (new_file [])) ∧
    (∀ j, filename_of files1 j = filename_of files j) := by
  unfold ensure_uses_capacity at h
  by_cases h1 : (files.getD i (new_file [])).uses.length ≥
      (files.getD i (new_file [])).uses_capacity
  · by_cases h2 : (if (files.getD i (new_file [])).uses_capacity = 0 then INITIAL_USES_CAPACITY
        else (files.getD i (new_file [])).uses_capacity * 2) ≤ MAX_USES_CAPACITY
    · simp only [h1, h2, if_true] at h
      injection h with h
      subst h
      refine ⟨by simp, ?_, ?_, ?_⟩
      · intro j
        unfold uses_of
        by_cases hj : j = i
        · subst hj
          by_cases hlt : j < files.length
          · rw [getD_modify_eq _ _ _ _ hlt]
          · rw [List.modify_eq_self (Nat.le_of_not_lt hlt)]
        · rw [getD_modify_ne _ _ _ _ _ (Ne.symm hj)]
      · intro j hj
        rw [getD_modify_ne _ _ _ _ _ (Ne.symm hj)]
      · intro j
        unfold filename_of
        by_cases hj : j = i
        · subst hj
          by_cases hlt : j < files.length
          · rw [getD_modify_eq _ _ _ _ hlt]
          · rw [List.modify_eq_self (Nat.le_of_not_lt hlt)]
        · rw [getD_modify_ne _ _ _ _ _ (Ne.symm hj)]
    · simp only [h1, h2, if_true, if_false] at h
      exact absurd h (by simp)
  · simp only [h1, if_false] at h
    injection h with h
    subst h
    exact ⟨rfl, fun _ => rfl, fun _ _ => rfl, fun _ => rfl⟩

/-- What a successful `add_used_module` does to the array `files`. -/
theorem add_used_module_spec {files files2 : List FortranFile} {i : Nat} {x : Int}
    (hi : i < files.length) (h : add_used_module files i x = some files2) :
    files2.length = files.length ∧
    uses_of files2 i = add_once (uses_of files i) x ∧
    (∀ j, j ≠ i → files2.getD j (new_file []) = files.getD j (new_file [])) ∧
    (∀ j, filename_of files2 j = filename_of files j) := by
  unfold add_used_module at h
  by_cases hx : x ∈ uses_of files i
  · have hx2 : x ∈ (files.getD i (new_file [])).uses := hx
    rw [if_pos hx2] at h
    injection h with h
    subst h
    refine ⟨rfl, ?_, fun _ _ => rfl, fun _ => rfl⟩
    unfold add_once
    rw [if_pos hx]
  · have hx2 : x ∉ (files.getD i (new_file [])).uses := hx
    rw [if_neg hx2] at h
    cases hE : ensure_uses_capacity files i with
    | none => rw [hE] at h; exact absurd h (by simp)
    | some files1 =>
      rw [hE] at h
      dsimp only at h
      injection h with h
      subst h
      obtain ⟨hl, hu, ho, hf⟩ := ensure_uses_capacity_spec hE
      refine ⟨by simpa using hl, ?_, ?_, ?_⟩
      · unfold add_once
        rw [if_neg hx, ← hu i]
        unfold uses_of
        rw [getD_modify_eq _ _ _ _ (by omega)]
      · intro j hj
        rw [getD_modify_ne _ _ _ _ _ (Ne.symm hj)]
        exact ho j hj
      · intro j
        rw [← hf j]
        unfold filename_of
        by_cases hj : j = i
        · subst hj
          rw [getD_modify_eq _ _ _ _ (by omega)]
        · rw [getD_modify_ne _ _ _ _ _ (Ne.symm hj)]

/-- The second pass over the lines of file `i`, when no `assert` fails. -/
theorem use_lines_spec (table : HashTable) (i : Nat) (lines : List CStr) :
    ∀ files files2 : List FortranFile, i < files.length →
    lines.foldlM (use_line table i) files = some files2 →
    files2.length = files.length ∧
    uses_of files2 i = (resolved table lines).foldl add_once (uses_of files i) ∧
    (∀ j, j ≠ i → files2.getD j (new_file []) = files.getD j (new_file [])) ∧
    (∀ j, filename_of files2 j = filename_of files j) := by
  induction lines with
  | nil =>
    intro files files2 _ h
    simp only [List.foldlM_nil] at h
    injection h with h
    subst h
    exact ⟨rfl, rfl, fun _ _ => rfl, fun _ => rfl⟩
  | cons l ls ih =>
    intro files files2 hi h
    rw [List.foldlM_cons] at h
    cases h1 : use_line table i files l with
    | none => rw [h1] at h; exact absurd h (by simp)
    | some files1 =>
      rw [h1] at h
      replace h : ls.foldlM (use_line table i) files1 = some files2 := by
        simpa [bind] using h
      rw [use_line_eq] at h1
      cases hr : resolved_line table l with
      | none =>
        rw [hr] at h1
        injection h1 with h1
        subst h1
        have := ih files files2 hi h
        simpa [resolved, List.filterMap_cons, hr] using this
      | some idx =>
        rw [hr] at h1
        obtain ⟨a1, a2, a3, a4⟩ := add_used_module_spec hi h1
        obtain ⟨b1, b2, b3, b4⟩ := ih files1 files2 (by omega) h
        refine ⟨by omega, ?_, ?_, ?_⟩
        · rw [b2, a2]
          simp [resolved, List.filterMap_cons, hr]
        · intro j hj; rw [b3 j hj, a3 j hj]
        · intro j; rw [b4 j, a4 j]

/-- The second pass over the files `0..m-1`, when no `assert` fails. -/
theorem find_used_upto (table : HashTable) (contents : List (List CStr)) (m : Nat) :
    ∀ files files2 : List FortranFile, m ≤ files.length →
    (List.range m).foldlM
      (fun files i => (contents.getD i []).foldlM (use_line table i) files) files = some files2 →
    files2.length = files.length ∧
    (∀ i, i < m → uses_of files2 i =
      (resolved table (contents.getD i [])).foldl add_once (uses_of files i)) ∧
    (∀ j, m ≤ j → files2.getD j (new_file []) = files.getD j (new_file [])) ∧
    (∀ j, filename_of files2 j = filename_of files j) := by
  induction m with
  | zero =>
    intro files files2 _ h
    simp only [List.range_zero, List.foldlM_nil] at h
    injection h with h
    subst h
    exact ⟨rfl, fun _ hi => absurd hi (by omega), fun _ _ => rfl, fun _ => rfl⟩
  | succ m ih =>
    intro files files2 hm h
    rw [List.range_succ, List.foldlM_append] at h
    cases h1 : (List.range m).foldlM
        (fun files i => (contents.getD i []).foldlM (use_line table i) files) files with
    | none => rw [h1] at h; exact absurd h (by simp)
    | some files1 =>
      rw [h1] at h
      obtain ⟨a1, a2, a3, a4⟩ := ih files files1 (by omega) h1
      have h2 : (contents.getD m []).foldlM (use_line table m) files1 = some files2 := by
        simpa [bind, pure] using h
      obtain ⟨b1, b2, b3, b4⟩ := use_lines_spec table m (contents.getD m []) files1 files2
        (by omega) h2
      refine ⟨by omega, ?_, ?_, ?_⟩
      · intro i hi
        by_cases him : i = m
        · subst him
          rw [b2]
          unfold uses_of
          rw [a3 i (Nat.le_refl i)]
        · have : uses_of files2 i = uses_of files1 i := by
            unfold uses_of; rw [b3 i him]
          rw [this, a2 i (by omega)]
      · intro j hj
        rw [b3 j (by omega), a3 j (by omega)]
      · intro j; rw [b4 j, a4 j]

theorem foldl_add_once (xs : List Int) : ∀ acc : List Int,
    xs.foldl add_once acc = acc ++ (first_occurrences xs).filter (fun y => decide (y ∉ acc)) := by
  induction xs with
  | nil => intro acc; simp [first_occurrences]
  | cons x xs ih =>
    intro acc
    simp only [List.foldl_cons, first_occurrences]
    by_cases hx : x ∈ acc
    · rw [show add_once acc x = acc from by simp [add_once, hx], ih acc]
      congr 1
      rw [List.filter_cons]
      simp only [hx, not_true_eq_false, decide_False, Bool.false_eq_true, if_false,
        List.filter_filter]
      apply List.filter_congr
      intro y _
      by_cases hy : y ∈ acc
      · simp [hy]
      · have : y ≠ x := fun e => hy (e ▸ hx)
        simp [hy, this]
    · rw [show add_once acc x = acc ++ [x] from by simp [add_once, hx], ih (acc ++ [x])]
      rw [List.filter_cons]
      simp only [hx, not_false_eq_true, decide_True, if_true, List.filter_filter,
        List.append_assoc, List.singleton_append]
      congr 2
      apply List.filter_congr
      intro y _
      by_cases hy : y ∈ acc <;> by_cases hyx : y = x <;> simp [hy, hyx]

theorem first_occurrences_mem (xs : List Int) (y : Int) :
    y ∈ first_occurrences xs ↔ y ∈ xs := by
  induction xs with
  | nil => simp [first_occurrences]
  | cons x xs ih =>
    simp only [first_occurrences, List.mem_cons, List.mem_filter, ih, decide_eq_true_eq]
    by_cases h : y = x <;> simp [h]

theorem first_occurrences_nodup (xs : List Int) : (first_occurrences xs).Nodup := by
  induction xs with
  | nil => simp [first_occurrences]
  | cons x xs ih =>
    simp only [first_occurrences, List.nodup_cons, List.mem_filter, decide_eq_true_eq]
    exact ⟨fun h => h.2 rfl, ih.filter _⟩

theorem foldl_add_once_nil (xs : List Int) : xs.foldl add_once [] = first_occurrences xs := by
  rw [foldl_add_once]
  simp

/-! ## The graph that `build_graph` builds -/

theorem out_edges_eq_map (adj : List AdjList) (u : Nat) :
    out_edges adj u = (adj.map AdjList.edges).getD u [] := by
  unfold out_edges
  by_cases hu : u < adj.length
  · simp [List.getD_eq_getElem?_getD, List.getElem?_eq_getElem, hu]
  · simp [List.getD_eq_getElem?_getD, List.getElem?_eq_none, Nat.le_of_not_lt hu]

theorem map_modify_edges (adj : List AdjList) (h : AdjList → AdjList) (f : List Nat → List Nat)
    (hf : ∀ a, (h a).edges = f a.edges) (d : Nat) :
    (adj.modify h d).map AdjList.edges = (adj.map AdjList.edges).modify f d := by
  induction adj generalizing d with
  | nil => simp
  | cons a adj ih =>
    cases d with
    | zero => simp [hf]
    | succ d => simp [ih]

theorem count_flatten_modify (L : List (List Nat)) (d i v : Nat) (hd : d < L.length) :
    (L.modify (fun es => es ++ [i]) d).flatten.count v =
      L.flatten.count v + if v = i then 1 else 0 := by
  induction L generalizing d with
  | nil => simp at hd
  | cons a L ih =>
    cases d with
    | zero =>
      simp only [List.modify_zero_cons, List.flatten_cons, List.count_append, List.count_cons,
        List.count_nil]
      by_cases h : v = i
      · subst h; simp; omega
      · have : ¬ i = v := fun e => h e.symm
        simp [h, this]
    | succ d =>
      simp only [List.modify_succ_cons, List.flatten_cons, List.count_append]
      rw [ih d (by simpa using hd)]
      omega

/-- The adjacency lists after the edge `dep -> i` was added. -/
theorem add_edge_adj (i : Nat) (g : Graph) (dep : Int) :
    (add_edge i g dep).adj.map AdjList.edges =
      (g.adj.map AdjList.edges).modify (fun es => es ++ [i]) dep.toNat := by
  unfold add_edge ensure_adj_capacity
  dsimp only
  rw [List.modify_modify_eq]
  apply map_modify_edges
  intro a
  simp only [Function.comp]
  split <;> rfl

/-- Adding the edge `dep -> i` keeps the graph well formed and its counts matching,
and adds one occurrence of `i` to the list of `dep`. -/
theorem add_edge_spec {n : Nat} {i : Nat} {g : Graph} {dep : Int} (hi : i < n)
    (hd : dep.toNat < n) (hwf : WellFormed n g.adj) (hm : InDegreeMatches n g) :
    WellFormed n (add_edge i g dep).adj ∧ InDegreeMatches n (add_edge i g dep) ∧
    ∀ u v, (out_edges (add_edge i g dep).adj u).count v =
      (out_edges g.adj u).count v + if u = dep.toNat ∧ v = i then 1 else 0 := by
  have hE := add_edge_adj i g dep
  have hlen : (add_edge i g dep).adj.length = n := by
    have := congrArg List.length hE
    simpa [hwf.1] using this
  have hdl : dep.toNat < (g.adj.map AdjList.edges).length := by simpa [hwf.1] using hd
  have hout : ∀ u, out_edges (add_edge i g dep).adj u =
      if u = dep.toNat then out_edges g.adj u ++ [i] else out_edges g.adj u := by
    intro u
    rw [out_edges_eq_map, out_edges_eq_map, hE]
    by_cases hu : u = dep.toNat
    · subst hu
      rw [if_pos rfl, getD_modify_eq _ _ _ _ hdl]
    · rw [if_neg hu, getD_modify_ne _ _ _ _ _ (Ne.symm hu)]
  refine ⟨⟨hlen, ?_⟩, ⟨?_, ?_⟩, ?_⟩
  · intro a ha v hv
    obtain ⟨u, hu, hua⟩ := List.getElem_of_mem ha
    have hv2 : v ∈ out_edges (add_edge i g dep).adj u := by
      unfold out_edges
      rw [List.getD_eq_getElem _ _ hu, hua]
      exact hv
    rw [hout u] at hv2
    split at hv2
    · rcases List.mem_append.1 hv2 with h | h
      · exact out_edges_lt hwf u v h
      · simpa [List.mem_singleton.1 h] using hi
    · exact out_edges_lt hwf u v hv2
  · show (g.in_degree.modify (fun d => d + 1) i).length = n
    simpa using hm.1
  · intro v hv
    show (g.in_degree.modify (fun d => d + 1) i).getD v 0 = _
    have hocc : occurrences (add_edge i g dep).adj v =
        occurrences g.adj v + if v = i then 1 else 0 := by
      unfold occurrences
      rw [hE]
      exact count_flatten_modify _ _ _ _ hdl
    rw [hocc]
    by_cases hvi : v = i
    · subst hvi
      rw [getD_modify_eq _ _ _ _ (by rw [hm.1]; exact hi), hm.2 v hv]
      simp
    · rw [getD_modify_ne _ _ _ _ _ (Ne.symm hvi), hm.2 v hv]
      simp [hvi]
  · intro u v
    rw [hout u]
    by_cases hu : u = dep.toNat
    · rw [if_pos hu, List.count_append]
      by_cases hv : v = i
      · subst hv; simp [hu]
      · have : ¬ i = v := fun e => hv e.symm
        simp [hu, hv, List.count_cons, this]
    · simp [hu]

/-- The edges of file `i` (lines 322-327). -/
theorem add_edges_spec {n : Nat} {i : Nat} (hi : i < n) (deps : List Int) :
    ∀ g : Graph, (∀ dep ∈ deps, 0 ≤ dep ∧ dep < n) → WellFormed n g.adj → InDegreeMatches n g →
    WellFormed n (deps.foldl (add_edge i) g).adj ∧
    InDegreeMatches n (deps.foldl (add_edge i) g) ∧
    ∀ u v, (out_edges (deps.foldl (add_edge i) g).adj u).count v =
      (out_edges g.adj u).count v + if v = i then deps.count (u : Int) else 0 := by
  induction deps with
  | nil => intro g _ hwf hm; exact ⟨hwf, hm, fun u v => by simp⟩
  | cons dep deps ih =>
    intro g hv hwf hm
    have hdep := hv dep (by simp)
    obtain ⟨a1, a2, a3⟩ := add_edge_spec hi (by omega : dep.toNat < n) hwf hm
    obtain ⟨b1, b2, b3⟩ := ih (add_edge i g dep) (fun d hd => hv d (by simp [hd])) a1 a2
    refine ⟨b1, b2, ?_⟩
    intro u v
    simp only [List.foldl_cons]
    rw [b3 u v, a3 u v, List.count_cons]
    have hiff : (u = dep.toNat) ↔ (dep = (u : Int)) := by omega
    by_cases hvi : v = i
    · by_cases hu : dep = (u : Int)
      · have hu2 : u = dep.toNat := hiff.2 hu
        rw [if_pos ⟨hu2, hvi⟩, if_pos hvi, if_pos hvi]
        simp [hu]
        omega
      · have hu2 : ¬ (u = dep.toNat ∧ v = i) := fun e => hu (hiff.1 e.1)
        rw [if_neg hu2, if_pos hvi, if_pos hvi]
        simp [hu]
    · simp [hvi]

theorem empty_graph_spec (n : Nat) :
    WellFormed n (empty_graph n).adj ∧ InDegreeMatches n (empty_graph n) ∧
    ∀ u v, (out_edges (empty_graph n).adj u).count v = 0 := by
  have hout : ∀ u, out_edges (empty_graph n).adj u = [] := by
    intro u
    unfold out_edges empty_graph
    by_cases hu : u < n
    · simp [List.getD_eq_getElem?_getD, List.getElem?_eq_getElem, hu]
    · simp [List.getD_eq_getElem?_getD, List.getElem?_eq_none, Nat.le_of_not_lt hu]
  have hlen : (empty_graph n).adj.length = n := by simp [empty_graph]
  refine ⟨⟨hlen, ?_⟩, ⟨by simp [empty_graph], ?_⟩, fun u v => by simp [hout]⟩
  · intro a ha v hv
    simp only [empty_graph, List.mem_replicate] at ha
    rw [ha.2] at hv
    simp at hv
  · intro v hv
    have hocc : occurrences (empty_graph n).adj v = 0 := by
      rw [occurrences_eq_sum]
      apply Finset.sum_eq_zero
      intro u _
      rw [hout]; rfl
    rw [hocc]
    simp [empty_graph, List.getD_eq_getElem?_getD, List.getElem?_eq_getElem, hv]

/-- Lines 320-328 for the files `0..m-1`. -/
theorem build_graph_upto {n : Nat} (files : List FortranFile)
    (hvalid : ∀ i, i < n → ∀ dep ∈ uses_of files i, 0 ≤ dep ∧ dep < n) (m : Nat) (hm : m ≤ n) :
    WellFormed n ((List.range m).foldl
      (fun g i => ((files.getD i (new_file [])).uses).foldl (add_edge i) g) (empty_graph n)).adj ∧
    InDegreeMatches n ((List.range m).foldl
      (fun g i => ((files.getD i (new_file [])).uses).foldl (add_edge i) g) (empty_graph n)) ∧
    ∀ u v, (out_edges ((List.range m).foldl
      (fun g i => ((files.getD i (new_file [])).uses).foldl (add_edge i) g)
        (empty_graph n)).adj u).count v =
      if v < m then (uses_of files v).count (u : Int) else 0 := by
  induction m with
  | zero =>
    obtain ⟨a, b, c⟩ := empty_graph_spec n
    exact ⟨a, b, fun u v => by simpa using c u v⟩
  | succ m ih =>
    obtain ⟨a1, a2, a3⟩ := ih (by omega)
    rw [List.range_succ, List.foldl_append]
    simp only [List.foldl_cons, List.foldl_nil]
    obtain ⟨b1, b2, b3⟩ := add_edges_spec (by omega : m < n) (uses_of files m) _
      (hvalid m (by omega)) a1 a2
    refine ⟨b1, b2, ?_⟩
    intro u v
    have := b3 u v
    unfold uses_of at this
    rw [this, a3 u v]
    by_cases hvm : v = m
    · subst hvm; simp [uses_of]
    · by_cases hlt : v < m
      · simp [hvm, hlt, Nat.lt_succ_of_lt hlt]
      · have : ¬ v < m + 1 := by omega
        simp [hvm, hlt, this]

/-- `build_graph` on reference lists whose entries are file indices: the graph is
well formed, its in-degree counts match, and `v` stands in the list of `u` as often
as `u` stands in the uses list of `v`. -/
theorem build_graph_spec (files : List FortranFile)
    (hvalid : ∀ i, i < files.length → ∀ dep ∈ uses_of files i, 0 ≤ dep ∧ dep < files.length) :
    WellFormed files.length (build_graph files).adj ∧
    InDegreeMatches files.length (build_graph files) ∧
    ∀ u v, (out_edges (build_graph files).adj u).count v =
      if v < files.length then (uses_of files v).count (u : Int) else 0 :=
  build_graph_upto files hvalid files.length (Nat.le_refl _)

theorem build_graph_edge (files : List FortranFile)
    (hvalid : ∀ i, i < files.length → ∀ dep ∈ uses_of files i, 0 ≤ dep ∧ dep < files.length)
    (u v : Nat) :
    Edge (build_graph files).adj u v ↔ v < files.length ∧ (u : Int) ∈ uses_of files v := by
  have := (build_graph_spec files hvalid).2.2 u v
  unfold Edge
  rw [← List.count_pos_iff, this]
  by_cases hv : v < files.length
  · simp [hv, List.count_pos_iff]
  · simp [hv]

/-! ## The run -/

theorem mem_resolved (table : HashTable) (lines : List CStr) (x : Int) :
    x ∈ resolved table lines ↔
      ∃ line ∈ lines, ∃ k, use_key line = some k ∧ hash_lookup table k = x ∧ x ≠ -1 := by
  unfold resolved
  rw [List.mem_filterMap]
  constructor
  · rintro ⟨line, hl, hr⟩
    unfold resolved_line at hr
    cases hk : use_key line with
    | none => rw [hk] at hr; simp at hr
    | some k =>
      rw [hk] at hr
      dsimp only at hr
      split at hr
      · rename_i hne
        injection hr with hr
        exact ⟨line, hl, k, hk, hr, hr ▸ hne⟩
      · simp at hr
  · rintro ⟨line, hl, k, hk, hx, hne⟩
    refine ⟨line, hl, ?_⟩
    unfold resolved_line
    rw [hk]
    dsimp only
    rw [if_pos (hx ▸ hne), hx]

/-- The state after the two scanning passes, when no `assert` fails: every file has
as its uses list the files that the registry gives for its reference lines, each
once, in the order of their first reference. -/
theorem scan_spec {srcs : List Source} {st2 : Prog} (h : scan srcs = some st2) :
    st2.files.length = srcs.length ∧
    (∀ k, hash_lookup st2.hash_table k = registry (srcs.map Source.lines) srcs.length k) ∧
    (∀ i, i < srcs.length → uses_of st2.files i =
      first_occurrences (resolved st2.hash_table ((srcs.map Source.lines).getD i []))) ∧
    (∀ j, filename_of st2.files j = (srcs.map Source.path).getD j []) := by
  unfold scan find_used_modules at h
  obtain ⟨d1, d2, d3, d4⟩ := find_defined_modules_spec (srcs.map Source.lines)
    (srcs.map Source.path)
  simp only [List.length_map] at d1 d2
  rw [Option.map_eq_some'] at h
  obtain ⟨files2, hf, hst⟩ := h
  subst hst
  rw [d2] at hf
  obtain ⟨u1, u2, u3, u4⟩ := find_used_upto _ _ srcs.length _ files2 (by rw [d2]) hf
  refine ⟨by rw [u1, d2], d1, ?_, ?_⟩
  · intro i hi
    show uses_of files2 i = _
    rw [u2 i hi, d3 i, foldl_add_once_nil]
  · intro j
    show filename_of files2 j = _
    rw [u4 j, d4 j]

theorem scan_uses_mem {srcs : List Source} {st2 : Prog} (h : scan srcs = some st2)
    {i : Nat} (hi : i < srcs.length) (x : Int) :
    x ∈ uses_of st2.files i ↔
      ∃ line ∈ (srcs.map Source.lines).getD i [], ∃ k, use_key line = some k ∧
        registry (srcs.map Source.lines) srcs.length k = x ∧ x ≠ -1 := by
  obtain ⟨_, h2, h3, _⟩ := scan_spec h
  rw [h3 i hi, first_occurrences_mem, mem_resolved]
  simp only [h2]

theorem scan_uses_valid {srcs : List Source} {st2 : Prog} (h : scan srcs = some st2) :
    ∀ i, i < st2.files.length → ∀ dep ∈ uses_of st2.files i,
      0 ≤ dep ∧ dep < st2.files.length := by
  intro i hi dep hdep
  rw [(scan_spec h).1] at hi ⊢
  obtain ⟨line, _, k, _, hr, hne⟩ := (scan_uses_mem h hi dep).1 hdep
  rcases registry_range (srcs.map Source.lines) srcs.length k with h1 | h1
  · exact absurd (hr ▸ h1) hne
  · rw [hr] at h1; exact h1

/-- The edges of the graph of a run are the resolved references. -/
theorem scan_edge {srcs : List Source} {st2 : Prog} (h : scan srcs = some st2) (d f : Nat) :
    Edge (build_graph st2.files).adj d f ↔
      References (srcs.map Source.lines) srcs.length d f := by
  rw [build_graph_edge st2.files (scan_uses_valid h), (scan_spec h).1]
  unfold References
  constructor
  · rintro ⟨hf, hmem⟩
    obtain ⟨line, hl, k, hk, hr, _⟩ := (scan_uses_mem h hf _).1 hmem
    exact ⟨hf, line, hl, k, hk, hr⟩
  · rintro ⟨hf, line, hl, k, hk, hr⟩
    exact ⟨hf, (scan_uses_mem h hf _).2 ⟨line, hl, k, hk, hr, by omega⟩⟩

/-- A run whose scan went through: `topologic_sort` returns, and the run ends with
the cycle message or prints the order. -/
theorem run_of_scan {srcs : List Source} {st2 : Prog} (mk : Bool) (hne : srcs.length ≠ 0)
    (h : scan srcs = some st2) :
    ∃ r, topologic_sort st2.files.length (build_graph st2.files) st2.files.length = some r ∧
      run srcs mk =
        some (if r.ret = 0 then RunResult.cycle
          else if mk then RunResult.ok r.sorted (print_make st2.files r.sorted)
          else RunResult.ok r.sorted (print_order st2.files r.sorted)) := by
  obtain ⟨g1, g2, _⟩ := build_graph_spec st2.files (scan_uses_valid h)
  obtain ⟨r, hr⟩ : ∃ r, topologic_sort st2.files.length (build_graph st2.files)
      st2.files.length = some r := by
    obtain ⟨st, _, _, hr⟩ := topologic_sort_result st2.files.length g1 g2
    exact ⟨_, hr⟩
  refine ⟨r, hr, ?_⟩
  unfold run
  unfold scan at h
  rw [if_neg hne]
  simp only [h, hr]
  by_cases h0 : r.ret = 0 <;> cases mk <;> simp [h0]

theorem run_of_abort {srcs : List Source} (mk : Bool) (hne : srcs.length ≠ 0)
    (h : scan srcs = none) : run srcs mk = some RunResult.aborted := by
  unfold run
  unfold scan at h
  rw [if_neg hne]
  simp only [h]

/-- The two outcomes of `topologic_sort` on a well-formed graph with matching counts. -/
theorem topologic_sort_cases {n : Nat} {g : Graph} (len0 : Nat) (hwf : WellFormed n g.adj)
    (hm : InDegreeMatches n g) :
    ∃ r, topologic_sort n g len0 = some r ∧
      ((r.ret = 0 ∧ r.sorted_len = len0 ∧ HasCycle g.adj) ∨
       (r.ret = 1 ∧ r.sorted_len = n ∧ ¬ HasCycle g.adj ∧ r.sorted.Perm (List.range n) ∧
        ∀ a b i j : Nat, Edge g.adj a b → r.sorted[i]? = some a → r.sorted[j]? = some b →
          i < j)) := by
  obtain ⟨st, hs, inv, hr⟩ := topologic_sort_result len0 hwf hm
  refine ⟨_, hr, ?_⟩
  by_cases hlen : st.sorted.length = n
  · right
    rw [if_neg (by simp [hlen])]
    refine ⟨rfl, hlen, kahn_acyclic hwf inv (hs ▸ hlen), ?_, ?_⟩
    · show st.sorted.Perm (List.range n)
      rw [hs]; exact kahn_perm inv.nodup inv.lt (hs ▸ hlen)
    · intro a b i j he hi hj
      simp only [hs] at hi hj
      exact kahn_order inv he hi hj
  · left
    rw [if_pos hlen]
    refine ⟨rfl, rfl, ?_⟩
    by_contra hac
    exact hlen (hs ▸ kahn_complete inv hac)

/-- A node without an edge into it is written to `sorted`, cycle or not. -/
theorem no_edge_emitted {n : Nat} {g : Graph} (len0 : Nat) (hwf : WellFormed n g.adj)
    (hm : InDegreeMatches n g) {f : Nat} (hf : f < n) (hno : ∀ d, ¬ Edge g.adj d f)
    {r : SortResult} (hr : topologic_sort n g len0 = some r) : f ∈ r.sorted := by
  obtain ⟨st, hs, inv, hr2⟩ := topologic_sort_result len0 hwf hm
  have hq : f ∈ st.queue := by
    apply (inv.zero f hf).2
    rw [inv.deg f hf]
    have : residual g.adj n st.queue f = 0 := by
      unfold residual
      apply Finset.sum_eq_zero
      intro u _
      exact List.count_eq_zero.2 (hno u)
    rw [this]; rfl
  rw [hr] at hr2
  injection hr2 with hr2
  subst hr2
  split <;> (show f ∈ st.sorted; rw [hs]; exact hq)

theorem print_order_getElem? (files : List FortranFile) (sorted : List Nat) (i idx : Nat)
    (h : sorted[i]? = some idx) :
    (print_order files sorted)[i]? = some (filename_of files idx) := by
  unfold print_order filename_of
  rw [List.getElem?_map, h]
  rfl

/-- A run that prints an order: the scan went through, the graph has no cycle, the
order is a permutation of the file indices that respects every edge. -/
theorem run_ok_spec {srcs : List Source} {mk : Bool} {sorted : List Nat} {out : List CStr}
    (hrun : run srcs mk = some (RunResult.ok sorted out)) :
    ∃ st2, scan srcs = some st2 ∧ ¬ HasCycle (build_graph st2.files).adj ∧
      sorted.Perm (List.range srcs.length) ∧
      (∀ a b i j : Nat, Edge (build_graph st2.files).adj a b → sorted[i]? = some a →
        sorted[j]? = some b → i < j) ∧
      out = if mk then print_make st2.files sorted else print_order st2.files sorted := by
  have hne : srcs.length ≠ 0 := by
    intro h0
    unfold run at hrun
    rw [if_pos h0] at hrun
    simp at hrun
  cases hs : scan srcs with
  | none =>
    rw [run_of_abort mk hne hs] at hrun
    simp at hrun
  | some st2 =>
    obtain ⟨r, hr, hrun2⟩ := run_of_scan mk hne hs
    obtain ⟨g1, g2, _⟩ := build_graph_spec st2.files (scan_uses_valid hs)
    obtain ⟨r2, hr2, hcases⟩ := topologic_sort_cases st2.files.length g1 g2
    rw [hr] at hr2
    injection hr2 with hr2
    subst hr2
    rw [hrun] at hrun2
    rcases hcases with ⟨h0, _, _⟩ | ⟨h1, _, hac, hperm, hord⟩
    · rw [if_pos h0] at hrun2
      simp at hrun2
    · have h0 : ¬ r.ret = 0 := by rw [h1]; decide
      rw [if_neg h0] at hrun2
      have hsorted : sorted = r.sorted := by
        cases mk <;> simp at hrun2 <;> exact hrun2.1
      have hout : out = if mk then print_make st2.files sorted
          else print_order st2.files sorted := by
        rw [hsorted]
        cases mk <;> simp at hrun2 <;> simp [hrun2.2]
      subst hsorted
      rw [(scan_spec hs).1] at hperm
      exact ⟨st2, rfl, hac, hperm, hord, hout⟩

/-! ## Build order, forward references and cycles -/

/-- C3 (amended): whenever a run succeeds, for every file `f` and every reference
line of `f` whose name `k` is defined by a scanned file, the file `d` to which the
registry resolves `k`, the last file in enumeration order that defines `k`, is
emitted before `f`; `d` may be enumerated before or after `f`. -/
theorem run_order (srcs : List Source) (mk : Bool) (sorted : List Nat) (out : List CStr)
    (hrun : run srcs mk = some (RunResult.ok sorted out))
    (f d : Nat) (line k : CStr) (hf : f < srcs.length)
    (hline : line ∈ (srcs.map Source.lines).getD f []) (hk : use_key line = some k)
    (hd : d < srcs.length) (hdef : k ∈ defined_keys ((srcs.map Source.lines).getD d []))
    (hlast : ∀ e, d < e → e < srcs.length →
      k ∉ defined_keys ((srcs.map Source.lines).getD e [])) :
    sorted.Perm (List.range srcs.length) ∧
    ∃ i j : Nat, i < j ∧ sorted[i]? = some d ∧ sorted[j]? = some f ∧
      (mk = false → out[i]? = some ((srcs.map Source.path).getD d []) ∧
        out[j]? = some ((srcs.map Source.path).getD f [])) := by
  obtain ⟨st2, hs, _, hperm, hord, hout⟩ := run_ok_spec hrun
  have hreg : registry (srcs.map Source.lines) srcs.length k = (d : Int) :=
    (registry_eq_iff _ _ _ _).2 ⟨hd, hdef, hlast⟩
  have hedge : Edge (build_graph st2.files).adj d f :=
    (scan_edge hs d f).2 ⟨hf, line, hline, k, hk, hreg⟩
  obtain ⟨i, hi⟩ := List.mem_iff_getElem?.1 (hperm.mem_iff.2 (List.mem_range.2 hd))
  obtain ⟨j, hj⟩ := List.mem_iff_getElem?.1 (hperm.mem_iff.2 (List.mem_range.2 hf))
  refine ⟨hperm, i, j, hord d f i j hedge hi hj, hi, hj, ?_⟩
  intro hmk
  subst hmk
  rw [hout]
  simp only [Bool.false_eq_true, if_false]
  rw [print_order_getElem? _ _ _ _ hi, print_order_getElem? _ _ _ _ hj,
    (scan_spec hs).2.2.2 d, (scan_spec hs).2.2.2 f]
  exact ⟨rfl, rfl⟩

theorem run_order_witness :
    run forward_srcs false = some (RunResult.ok [1, 0] [cstr "d.f90", cstr "f.f90"]) ∧
    ([1, 0] : List Nat).Perm (List.range forward_srcs.length) ∧
    ∃ i j : Nat, i < j ∧ ([1, 0] : List Nat)[i]? = some 1 ∧ ([1, 0] : List Nat)[j]? = some 0 ∧
      (false = false →
        [cstr "d.f90", cstr "f.f90"][i]? = some ((forward_srcs.map Source.path).getD 1 []) ∧
        [cstr "d.f90", cstr "f.f90"][j]? = some ((forward_srcs.map Source.path).getD 0 [])) :=
  ⟨by decide,
   run_order forward_srcs false [1, 0] [cstr "d.f90", cstr "f.f90"] (by decide) 0 1
    (cstr "use m\n") (cstr "m") (by decide) (by decide) (by decide) (by decide) (by decide)
    (by intro e h1 h2; simp [forward_srcs] at h2; omega)⟩

/-- Files 0 and 2 both define `n` and file 1 refers to `n`: the run succeeds with the
order file 2, file 1, file 0, so file 0, which defines `n`, is emitted after file 1. -/
theorem run_order_duplicate_definer :
    run duplicate_srcs false =
      some (RunResult.ok [2, 1, 0] [cstr "d2.f90", cstr "f.f90", cstr "d1.f90"]) ∧
    cstr "use n\n" ∈ (duplicate_srcs.map Source.lines).getD 1 [] ∧
    use_key (cstr "use n\n") = some (cstr "n") ∧
    cstr "n" ∈ defined_keys ((duplicate_srcs.map Source.lines).getD 0 []) ∧
    ¬ ∃ i j : Nat, i < j ∧ ([2, 1, 0] : List Nat)[i]? = some 0 ∧
      ([2, 1, 0] : List Nat)[j]? = some 1 := by
  refine ⟨by decide, by decide, by decide, by decide, ?_⟩
  rintro ⟨i, j, hij, hi, hj⟩
  match i, j, hij, hi, hj with
  | 0, _, _, hi, _ => simp at hi
  | 1, _, _, hi, _ => simp at hi
  | 2, 0, hij, _, _ => omega
  | 2, 1, hij, _, _ => omega
  | 2, 2, hij, _, _ => omega
  | 2, _ + 3, _, _, hj => simp at hj
  | _ + 3, _, _, hi, _ => simp at hi

/-- C4: whenever the references of the scanned files, resolved through the registry,
form a cycle of any length, the run fails, with the cycle message or, when a
reference list outgrows its ceiling first, with the failed `assert`, and prints no
order; when the scan goes through it is the cycle message. -/
theorem run_cycle (srcs : List Source) (mk : Bool)
    (hc : ∃ x, Relation.TransGen (References (srcs.map Source.lines) srcs.length) x x) :
    ∃ r, run srcs mk = some r ∧ (r = RunResult.cycle ∨ r = RunResult.aborted) ∧
      emitted r = [] ∧ (scan srcs ≠ none → r = RunResult.cycle) := by
  obtain ⟨x, hx⟩ := hc
  have hne : srcs.length ≠ 0 := by
    intro h0
    have hlt : x < srcs.length := by
      cases hx with
      | single h => exact h.1
      | tail _ h => exact h.1
    omega
  cases hs : scan srcs with
  | none =>
    exact ⟨_, run_of_abort mk hne hs, Or.inr rfl, rfl, fun h => absurd rfl h⟩
  | some st2 =>
    obtain ⟨r, hr, hrun⟩ := run_of_scan mk hne hs
    obtain ⟨g1, g2, _⟩ := build_graph_spec st2.files (scan_uses_valid hs)
    obtain ⟨r2, hr2, hcases⟩ := topologic_sort_cases st2.files.length g1 g2
    rw [hr] at hr2
    injection hr2 with hr2
    subst hr2
    have hcyc : HasCycle (build_graph st2.files).adj :=
      ⟨x, Relation.TransGen.mono (fun a b hab => (scan_edge hs a b).2 hab) hx⟩
    rcases hcases with ⟨h0, _, _⟩ | ⟨_, _, hac, _⟩
    · rw [if_pos h0] at hrun
      exact ⟨_, hrun, Or.inl rfl, rfl, fun _ => rfl⟩
    · exact absurd hcyc hac

theorem run_cycle_witness :
    (∃ x, Relation.TransGen
      (References (cycle_srcs.map Source.lines) cycle_srcs.length) x x) ∧
    (∃ x, Relation.TransGen
      (References (self_srcs.map Source.lines) self_srcs.length) x x) ∧
    run cycle_srcs false = some RunResult.cycle ∧
    run self_srcs false = some RunResult.cycle ∧
    (scan self_srcs).map (fun st => (build_graph st.files).adj.map AdjList.edges) =
      some [[0]] ∧
    ∃ r, run cycle_srcs false = some r ∧ (r = RunResult.cycle ∨ r = RunResult.aborted) ∧
      emitted r = [] ∧ (scan cycle_srcs ≠ none → r = RunResult.cycle) :=
  have h01 : References (cycle_srcs.map Source.lines) cycle_srcs.length 0 1 :=
    ⟨by decide, cstr "use x\n", by decide, cstr "x", by decide, by decide⟩
  have h10 : References (cycle_srcs.map Source.lines) cycle_srcs.length 1 0 :=
    ⟨by decide, cstr "use y\n", by decide, cstr "y", by decide, by decide⟩
  have h00 : References (self_srcs.map Source.lines) self_srcs.length 0 0 :=
    ⟨by decide, cstr "use s\n", by decide, cstr "s", by decide, by decide⟩
  ⟨⟨0, Relation.TransGen.tail (Relation.TransGen.single h01) h10⟩,
   ⟨0, Relation.TransGen.single h00⟩, by decide, by decide, by decide,
   run_cycle cycle_srcs false ⟨0, Relation.TransGen.tail (Relation.TransGen.single h01) h10⟩⟩

/-! ## Unresolved references -/

/-- C6: a reference line whose name no scanned file defines leaves the array `files`
as it is (no entry in the uses list, hence no edge and no in-degree increment in
`build_graph`, which reads only the uses lists). After a scan that went through, a
file all of whose references are unresolved has an empty uses list, in-degree 0 and
no edge into it, and `topologic_sort` writes it to `sorted` whether or not it finds
a cycle; and when no other node lies on a cycle of the graph, the run succeeds and
the file is in the order that `topologic_sort` produced and in the printed order. -/
theorem unresolved_reference (srcs : List Source) :
    (∀ (i : Nat) (files : List FortranFile) (line k : CStr), use_key line = some k →
      (∀ d, d < srcs.length → k ∉ defined_keys ((srcs.map Source.lines).getD d [])) →
      use_line (find_defined_modules (srcs.map Source.lines)
        (init_prog (srcs.map Source.path))).hash_table i files line = some files) ∧
    (∀ (st2 : Prog) (f : Nat), scan srcs = some st2 → f < srcs.length →
      (∀ line ∈ (srcs.map Source.lines).getD f [], ∀ k, use_key line = some k →
        ∀ d, d < srcs.length → k ∉ defined_keys ((srcs.map Source.lines).getD d [])) →
      uses_of st2.files f = [] ∧
      (build_graph st2.files).in_degree.getD f 0 = 0 ∧
      (∀ d, ¬ Edge (build_graph st2.files).adj d f) ∧
      (∃ r, topologic_sort st2.files.length (build_graph st2.files) st2.files.length =
        some r ∧ f ∈ r.sorted) ∧
      ((∀ x, x ≠ f → ¬ Relation.TransGen (Edge (build_graph st2.files).adj) x x) →
        ∀ mk : Bool, ∃ sorted out, run srcs mk = some (RunResult.ok sorted out) ∧
          f ∈ sorted ∧ sorted.Perm (List.range srcs.length) ∧
          (mk = false → (srcs.map Source.path).getD f [] ∈ out))) := by
  constructor
  · intro i files line k hk hno
    rw [use_line_eq]
    have hreg : registry (srcs.map Source.lines) srcs.length k = -1 :=
      (registry_eq_neg_one_iff _ _ _).2 hno
    have hl := (find_defined_modules_spec (srcs.map Source.lines) (srcs.map Source.path)).1 k
    simp only [List.length_map] at hl
    unfold resolved_line
    rw [hk]
    simp [hl, hreg]
  · intro st2 f hs hf hun
    have hvalid := scan_uses_valid hs
    obtain ⟨g1, g2, g3⟩ := build_graph_spec st2.files hvalid
    have hlen := (scan_spec hs).1
    have huses : uses_of st2.files f = [] := by
      apply List.eq_nil_iff_forall_not_mem.2
      intro x hx
      obtain ⟨line, hl, k, hk, hr, hne⟩ := (scan_uses_mem hs hf x).1 hx
      have := (registry_eq_neg_one_iff _ _ _).2 (hun line hl k hk)
      exact hne (hr ▸ this)
    have hnoedge : ∀ d, ¬ Edge (build_graph st2.files).adj d f := by
      intro d he
      have := (build_graph_edge st2.files hvalid d f).1 he
      rw [huses] at this
      simp at this
    have hemit : ∃ r, topologic_sort st2.files.length (build_graph st2.files)
        st2.files.length = some r ∧ f ∈ r.sorted := by
      obtain ⟨r, hr, _⟩ := topologic_sort_cases st2.files.length g1 g2
      exact ⟨r, hr, no_edge_emitted _ g1 g2 (by omega) hnoedge hr⟩
    refine ⟨huses, ?_, hnoedge, hemit, ?_⟩
    · rw [g2.2 f (by omega), occurrences_eq_sum]
      have : Finset.sum (Finset.range (build_graph st2.files).adj.length)
          (fun u => (out_edges (build_graph st2.files).adj u).count f) = 0 := by
        apply Finset.sum_eq_zero
        intro u _
        rw [g3 u f, huses]
        simp
      rw [this]; rfl
    · intro hrest mk
      have hne : srcs.length ≠ 0 := by omega
      have hac : ¬ HasCycle (build_graph st2.files).adj := by
        rintro ⟨x, hx⟩
        by_cases hxf : x = f
        · subst hxf
          cases hx with
          | single he => exact hnoedge _ he
          | tail _ he => exact hnoedge _ he
        · exact hrest x hxf hx
      obtain ⟨r, hr, hrun⟩ := run_of_scan mk hne hs
      obtain ⟨r2, hr2, hcases⟩ := topologic_sort_cases st2.files.length g1 g2
      rw [hr] at hr2
      injection hr2 with hr2
      subst hr2
      rcases hcases with ⟨_, _, hcyc⟩ | ⟨h1, _, _, hperm, _⟩
      · exact absurd hcyc hac
      · have h0 : ¬ r.ret = 0 := by rw [h1]; decide
        rw [if_neg h0] at hrun
        rw [hlen] at hperm
        have hmem : f ∈ r.sorted := hperm.mem_iff.2 (List.mem_range.2 hf)
        cases mk with
        | true =>
          simp only [if_true] at hrun
          exact ⟨_, _, hrun, hmem, hperm, fun h => absurd h (by decide)⟩
        | false =>
          simp only [Bool.false_eq_true, if_false] at hrun
          refine ⟨_, _, hrun, hmem, hperm, fun _ => ?_⟩
          obtain ⟨i, hi⟩ := List.mem_iff_getElem?.1 hmem
          have := print_order_getElem? st2.files r.sorted i f hi
          rw [(scan_spec hs).2.2.2 f] at this
          exact List.getElem?_mem this

theorem external_srcs_references (d f : Nat)
    (h : References (external_srcs.map Source.lines) external_srcs.length d f) : d < f := by
  obtain ⟨hf, line, hl, k, hk, hr⟩ := h
  have hf2 : f < 2 := hf
  have e1 : use_key (cstr "module u\n") = none := by decide
  have e2 : use_key (cstr "use external\n") = some (cstr "external") := by decide
  have e3 : use_key (cstr "module v\n") = none := by decide
  have e4 : use_key (cstr "use u\n") = some (cstr "u") := by decide
  have r2 : registry (external_srcs.map Source.lines) external_srcs.length (cstr "external") = -1 := by
    decide
  have r4 : registry (external_srcs.map Source.lines) external_srcs.length (cstr "u") = 0 := by
    decide
  match f, hf2, hl with
  | 0, _, hl =>
    have hl2 : line = cstr "module u\n" ∨ line = cstr "use external\n" := by
      simpa [external_srcs] using hl
    rcases hl2 with rfl | rfl
    · rw [e1] at hk; simp at hk
    · rw [e2] at hk
      injection hk with hk
      subst hk
      rw [r2] at hr
      omega
  | 1, _, hl =>
    have hl2 : line = cstr "module v\n" ∨ line = cstr "use u\n" := by
      simpa [external_srcs] using hl
    rcases hl2 with rfl | rfl
    · rw [e3] at hk; simp at hk
    · rw [e4] at hk
      injection hk with hk
      subst hk
      rw [r4] at hr
      omega

theorem unresolved_reference_witness :
    (∀ files : List FortranFile,
      use_line (find_defined_modules (external_srcs.map Source.lines)
        (init_prog (external_srcs.map Source.path))).hash_table 0 files
          (cstr "use external\n") = some files) ∧
    ∃ st2, scan external_srcs = some st2 ∧ uses_of st2.files 0 = [] ∧
      (build_graph st2.files).in_degree.getD 0 0 = 0 ∧
      (∀ d, ¬ Edge (build_graph st2.files).adj d 0) ∧
      (∃ r, topologic_sort st2.files.length (build_graph st2.files) st2.files.length =
        some r ∧ 0 ∈ r.sorted) ∧
      ∀ mk : Bool, ∃ sorted out, run external_srcs mk = some (RunResult.ok sorted out) ∧
        0 ∈ sorted ∧ sorted.Perm (List.range external_srcs.length) ∧
        (mk = false → (external_srcs.map Source.path).getD 0 [] ∈ out) := by
  have hsome : (scan external_srcs).isSome = true := by decide
  obtain ⟨st2, hs⟩ := Option.isSome_iff_exists.1 hsome
  have hun : ∀ line ∈ (external_srcs.map Source.lines).getD 0 [], ∀ k, use_key line = some k →
      ∀ d, d < external_srcs.length →
        k ∉ defined_keys ((external_srcs.map Source.lines).getD d []) := by
    intro line hl k hk
    have hl2 : line = cstr "module u\n" ∨ line = cstr "use external\n" := by
      simpa [external_srcs] using hl
    have e1 : use_key (cstr "module u\n") = none := by decide
    have e2 : use_key (cstr "use external\n") = some (cstr "external") := by decide
    rcases hl2 with rfl | rfl
    · rw [e1] at hk; simp at hk
    · rw [e2] at hk
      injection hk with hk
      subst hk
      decide
  obtain ⟨a1, a2, a3, a4, a5⟩ :=
    (unresolved_reference external_srcs).2 st2 0 hs (by decide) hun
  refine ⟨fun files => (unresolved_reference external_srcs).1 0 files (cstr "use external\n")
    (cstr "external") (by decide) (by decide), st2, hs, a1, a2, a3, a4, a5 ?_⟩
  intro x _ hx
  have key : ∀ a b, Relation.TransGen (Edge (build_graph st2.files).adj) a b → a < b := by
    intro a b hab
    induction hab with
    | single he => exact external_srcs_references _ _ ((scan_edge hs _ _).1 he)
    | tail _ he ih => exact Nat.lt_trans ih (external_srcs_references _ _ ((scan_edge hs _ _).1 he))
  exact Nat.lt_irrefl x (key x x hx)

/-! ## The three-file scenario -/

/-- C7: in the three-file scenario the run succeeds and prints `a.src`, `b.src`,
`c.src`, in each of the six orders in which the three files can be enumerated. -/
theorem three_files_order :
    run [src_a, src_b, src_c] false =
      some (RunResult.ok [0, 1, 2] [cstr "a.src", cstr "b.src", cstr "c.src"]) ∧
    run [src_a, src_c, src_b] false =
      some (RunResult.ok [0, 2, 1] [cstr "a.src", cstr "b.src", cstr "c.src"]) ∧
    run [src_b, src_a, src_c] false =
      some (RunResult.ok [1, 0, 2] [cstr "a.src", cstr "b.src", cstr "c.src"]) ∧
    run [src_b, src_c, src_a] false =
      some (RunResult.ok [2, 0, 1] [cstr "a.src", cstr "b.src", cstr "c.src"]) ∧
    run [src_c, src_a, src_b] false =
      some (RunResult.ok [1, 2, 0] [cstr "a.src", cstr "b.src", cstr "c.src"]) ∧
    run [src_c, src_b, src_a] false =
      some (RunResult.ok [2, 1, 0] [cstr "a.src", cstr "b.src", cstr "c.src"]) := by
  refine ⟨?_, ?_, ?_, ?_, ?_, ?_⟩ <;> decide

/-! ## Letter case -/

theorem is_name_recasing {n1 n2 : CStr} (hn : is_name n1)
    (hcase : n2.map tolower = n1.map tolower) : is_name n2 ∧ key_of n2 = key_of n1 := by
  refine ⟨⟨?_, ?_⟩, by unfold key_of; rw [hcase]⟩
  · intro h
    rw [h] at hcase
    exact hn.1 (List.map_eq_nil_iff.1 hcase.symm)
  · intro c hc
    have : tolower c ∈ n1.map tolower := by
      rw [← hcase]; exact List.mem_map_of_mem tolower hc
    obtain ⟨c1, hc1, he⟩ := List.mem_map.1 this
    obtain ⟨h1, h2⟩ := isspace_of_tolower_eq he
    rw [← h1, ← h2]
    exact hn.2 c1 hc1

/-- C9 (amended): for every module name `n1` that does not contain `procedure` (in
any letter case), every re-casing `n2` of it and every re-casing of the keywords, a
definition line `module n1` and a reference line `use n2` (white space around them
allowed) give the same registry key, the lowercased name. So after the scan the
using file has in its uses list the file that the registry holds for that key; that
file defines the name, and it is the file with the definition line when no file
enumerated later defines the name too. -/
theorem case_insensitive_resolution (srcs : List Source) (st2 : Prog) (d f : Nat)
    (kwm kwu n1 n2 : CStr) (lead1 trail1 lead2 trail2 : CStr)
    (hs : scan srcs = some st2) (hd : d < srcs.length) (hf : f < srcs.length)
    (hkwm : kwm.map tolower = cstr "module") (hkwu : kwu.map tolower = cstr "use")
    (hn : is_name n1) (hcase : n2.map tolower = n1.map tolower)
    (hproc : strcasestr_custom n1 (cstr "procedure") = none)
    (hlead1 : ∀ c ∈ lead1, isspace c = true) (htrail1 : ∀ c ∈ trail1, isspace c = true)
    (hlead2 : ∀ c ∈ lead2, isspace c = true) (htrail2 : ∀ c ∈ trail2, isspace c = true)
    (hdline : lead1 ++ (kwm ++ [32] ++ n1) ++ trail1 ∈ (srcs.map Source.lines).getD d [])
    (hfline : lead2 ++ (kwu ++ [32] ++ n2) ++ trail2 ∈ (srcs.map Source.lines).getD f []) :
    def_key (lead1 ++ (kwm ++ [32] ++ n1) ++ trail1) = some (key_of n1) ∧
    use_key (lead2 ++ (kwu ++ [32] ++ n2) ++ trail2) = some (key_of n1) ∧
    ∃ D : Nat, D < srcs.length ∧ hash_lookup st2.hash_table (key_of n1) = (D : Int) ∧
      key_of n1 ∈ defined_keys ((srcs.map Source.lines).getD D []) ∧
      (D : Int) ∈ uses_of st2.files f ∧
      ((∀ e, d < e → e < srcs.length →
        key_of n1 ∉ defined_keys ((srcs.map Source.lines).getD e [])) → D = d) := by
  have hdk := def_key_shape lead1 kwm [] n1 trail1 hlead1 htrail1 hkwm (by simp) hn hproc
  obtain ⟨hn2, hkey⟩ := is_name_recasing hn hcase
  have huk := use_key_shape lead2 kwu [] n2 trail2 hlead2 htrail2 hkwu (by simp) hn2
  rw [hkey] at huk
  refine ⟨hdk, huk, ?_⟩
  have hdef : key_of n1 ∈ defined_keys ((srcs.map Source.lines).getD d []) := by
    unfold defined_keys
    rw [List.mem_filterMap]
    exact ⟨_, hdline, hdk⟩
  have hne : registry (srcs.map Source.lines) srcs.length (key_of n1) ≠ -1 := by
    intro h
    exact (registry_eq_neg_one_iff _ _ _).1 h d hd hdef
  rcases registry_range (srcs.map Source.lines) srcs.length (key_of n1) with h | ⟨h1, h2⟩
  · exact absurd h hne
  · obtain ⟨D, hD⟩ := Int.eq_ofNat_of_zero_le h1
    have hD2 := (registry_eq_iff _ _ _ D).1 hD
    refine ⟨D, hD2.1, ?_, hD2.2.1, ?_, ?_⟩
    · rw [(scan_spec hs).2.1, hD]
    · exact (scan_uses_mem hs hf _).2 ⟨_, hfline, key_of n1, huk, hD, by omega⟩
    · intro hlast
      have := (registry_eq_iff _ _ _ d).2 ⟨hd, hdef, hlast⟩
      rw [hD] at this
      omega

theorem case_insensitive_resolution_witness :
    def_key (cstr "Module Foo\n") = some (key_of (cstr "Foo")) ∧
    use_key (cstr "use FOO\n") = some (key_of (cstr "Foo")) ∧
    ∃ st2, scan recased_srcs = some st2 ∧
      ∃ D : Nat, D < recased_srcs.length ∧
        hash_lookup st2.hash_table (key_of (cstr "Foo")) = (D : Int) ∧
        key_of (cstr "Foo") ∈ defined_keys ((recased_srcs.map Source.lines).getD D []) ∧
        (D : Int) ∈ uses_of st2.files 1 ∧
        ((∀ e, 0 < e → e < recased_srcs.length →
          key_of (cstr "Foo") ∉ defined_keys ((recased_srcs.map Source.lines).getD e [])) →
          D = 0) := by
  have hsome : (scan recased_srcs).isSome = true := by decide
  obtain ⟨st2, hs⟩ := Option.isSome_iff_exists.1 hsome
  have h := case_insensitive_resolution recased_srcs st2 0 1 (cstr "Module") (cstr "use")
    (cstr "Foo") (cstr "FOO") [] (cstr "\n") [] (cstr "\n") hs (by decide) (by decide)
    (by decide) (by decide) ⟨by decide, by decide⟩ (by decide) (by decide) (by decide)
    (by decide) (by decide) (by decide) (by decide) (by decide)
  exact ⟨h.1, h.2.1, st2, hs, h.2.2⟩

/-- File 0 defines the module `procedures` and file 1 imports it: the definition
line is not registered, so the uses list of file 1 stays empty. -/
theorem procedure_in_name_unregistered :
    def_key (cstr "module procedures\n") = none ∧
    use_key (cstr "use procedures\n") = some (cstr "procedures") ∧
    (scan procedure_srcs).map (fun st => hash_lookup st.hash_table (cstr "procedures")) =
      some (-1) ∧
    (scan procedure_srcs).map (fun st => uses_of st.files 1) = some [] := by
  decide

/-! ## De-duplication of the uses lists -/

theorem add_used_modules_spec (i : Nat) (xs : List Int) :
    ∀ files files2 : List FortranFile, i < files.length →
    xs.foldlM (fun fs x => add_used_module fs i x) files = some files2 →
    files2.length = files.length ∧ uses_of files2 i = xs.foldl add_once (uses_of files i) := by
  induction xs with
  | nil =>
    intro files files2 _ h
    simp only [List.foldlM_nil] at h
    injection h with h
    subst h
    exact ⟨rfl, rfl⟩
  | cons x xs ih =>
    intro files files2 hi h
    rw [List.foldlM_cons] at h
    cases h1 : add_used_module files i x with
    | none => rw [h1] at h; exact absurd h (by simp)
    | some files1 =>
      rw [h1] at h
      replace h : xs.foldlM (fun fs x => add_used_module fs i x) files1 = some files2 := by
        simpa [bind] using h
      obtain ⟨a1, a2, _, _⟩ := add_used_module_spec hi h1
      obtain ⟨b1, b2⟩ := ih files1 files2 (by omega) h
      exact ⟨by omega, by rw [b2, a2]; rfl⟩

theorem nodup_append_first_occurrences (acc xs : List Int) (h : acc.Nodup) :
    (acc ++ (first_occurrences xs).filter (fun y => decide (y ∉ acc))).Nodup := by
  apply List.Nodup.append h ((first_occurrences_nodup xs).filter _)
  intro a ha hb
  have := (List.mem_filter.1 hb).2
  simp only [decide_eq_true_eq] at this
  exact this ha

/-- C10 (amended): after the scan no uses list has a duplicate and its entries stand
in the order of their first reference; a file that refers to
one module, defined by a scanned file, on one or more lines, in any letter case, with
any white space around the line and any white space after the space that follows the
keyword, has exactly one entry for that module. And any sequence of `add_used_module`
calls that run through leaves a uses list without duplicates, the new entries
appended in the order in which they were first added. -/
theorem uses_deduplicated :
    (∀ (srcs : List Source) (st2 : Prog) (f : Nat), scan srcs = some st2 →
      f < srcs.length →
      (uses_of st2.files f).Nodup ∧
      uses_of st2.files f =
        first_occurrences (resolved st2.hash_table ((srcs.map Source.lines).getD f [])) ∧
      ∀ n : CStr, is_name n →
        (∀ line, is_reference_to line n → use_key line = some (key_of n)) ∧
        ((∃ d, d < srcs.length ∧
            key_of n ∈ defined_keys ((srcs.map Source.lines).getD d [])) →
          (∃ line ∈ (srcs.map Source.lines).getD f [], is_reference_to line n) →
          hash_lookup st2.hash_table (key_of n) ≠ -1 ∧
          (uses_of st2.files f).count (hash_lookup st2.hash_table (key_of n)) = 1)) ∧
    (∀ (files files2 : List FortranFile) (i : Nat) (xs : List Int), i < files.length →
      (uses_of files i).Nodup →
      xs.foldlM (fun fs x => add_used_module fs i x) files = some files2 →
      (uses_of files2 i).Nodup ∧
      uses_of files2 i =
        uses_of files i ++
          (first_occurrences xs).filter (fun y => decide (y ∉ uses_of files i))) := by
  constructor
  · intro srcs st2 f hs hf
    have hnd : (uses_of st2.files f).Nodup := by
      rw [(scan_spec hs).2.2.1 f hf]
      exact first_occurrences_nodup _
    refine ⟨hnd, (scan_spec hs).2.2.1 f hf, ?_⟩
    intro n hn
    have hkey : ∀ line, is_reference_to line n → use_key line = some (key_of n) := by
      rintro line ⟨lead, kw, ws, m, trail, rfl, h1, h2, h3, h4, h5⟩
      obtain ⟨hm, hk⟩ := is_name_recasing hn h5
      rw [← hk]
      exact use_key_shape lead kw ws m trail h1 h2 h4 h3 hm
    refine ⟨hkey, ?_⟩
    rintro ⟨d, hd, hdef⟩ ⟨line, hl, href⟩
    have hne : hash_lookup st2.hash_table (key_of n) ≠ -1 := by
      rw [(scan_spec hs).2.1]
      intro h
      exact (registry_eq_neg_one_iff _ _ _).1 h d hd hdef
    refine ⟨hne, ?_⟩
    apply List.count_eq_one_of_mem hnd
    rw [scan_uses_mem hs hf]
    exact ⟨line, hl, key_of n, hkey line href, ((scan_spec hs).2.1 _).symm, hne⟩
  · intro files files2 i xs hi hnd h
    obtain ⟨_, h2⟩ := add_used_modules_spec i xs files files2 hi h
    rw [foldl_add_once] at h2
    rw [h2]
    exact ⟨nodup_append_first_occurrences _ _ hnd, rfl⟩

theorem uses_deduplicated_witness :
    (∃ st2, scan repeated_srcs = some st2 ∧ (uses_of st2.files 1).Nodup ∧
      (uses_of st2.files 1).count (hash_lookup st2.hash_table (key_of (cstr "m"))) = 1) ∧
    (∀ files2, [2, 0, 2, 1, 0].foldlM (fun fs x => add_used_module fs 0 x)
        [new_file (cstr "a.f90")] = some files2 →
      (uses_of files2 0).Nodup ∧ uses_of files2 0 = [2, 0, 1]) := by
  constructor
  · have hsome : (scan repeated_srcs).isSome = true := by decide
    obtain ⟨st2, hs⟩ := Option.isSome_iff_exists.1 hsome
    obtain ⟨h1, _, h2⟩ := uses_deduplicated.1 repeated_srcs st2 1 hs (by decide)
    exact ⟨st2, hs, h1, ((h2 (cstr "m") ⟨by decide, by decide⟩).2 ⟨0, by decide, by decide⟩
      ⟨cstr "  USE   M  \n", by decide, cstr "  ", cstr "USE", cstr "  ", cstr "M",
        cstr "  \n", by decide, by decide, by decide, by decide, by decide, by decide⟩).2⟩
  · intro files2 h
    have := uses_deduplicated.2 [new_file (cstr "a.f90")] files2 0 [2, 0, 2, 1, 0]
      (by decide) (by decide) h
    exact ⟨this.1, this.2.trans (by decide)⟩

/-- Module `m` is defined by file 0 and file 1 refers to it on two lines with a tab
between keyword and name: neither line is taken for a reference, and the uses list
of file 1 has no entry for `m`. -/
theorem tab_after_keyword_no_entry :
    isspace 9 = true ∧
    (tab_srcs.map Source.lines).getD 1 [] =
      [cstr "use" ++ [9] ++ cstr "m" ++ [10], cstr "USE" ++ [9] ++ cstr "M" ++ [10]] ∧
    use_key (cstr "use\tm\n") = none ∧ use_key (cstr "USE\tM\n") = none ∧
    (scan tab_srcs).map (fun st => hash_lookup st.hash_table (cstr "m")) = some 0 ∧
    (scan tab_srcs).map (fun st => uses_of st.files 1) = some [] ∧
    (scan tab_srcs).map (fun st => (uses_of st.files 1).count 0) = some 0 := by
  decide

/-! ## The dependency manifest -/

theorem scan_dependencies {srcs : List Source} {st2 : Prog} (h : scan srcs = some st2)
    {i : Nat} (hi : i < srcs.length) :
    uses_of st2.files i = dependencies (srcs.map Source.lines) srcs.length i := by
  obtain ⟨_, h2, h3, _⟩ := scan_spec h
  rw [h3 i hi]
  unfold dependencies resolved
  congr 1
  apply List.filterMap_congr
  intro line _
  unfold resolved_line
  cases use_key line with
  | none => rfl
  | some k => simp only [h2]

theorem print_make_eq {srcs : List Source} {st2 : Prog} (h : scan srcs = some st2)
    (sorted : List Nat) (hs : ∀ idx ∈ sorted, idx < srcs.length) :
    print_make st2.files sorted = sorted.map (fun idx =>
      manifest_line (srcs.map Source.path) idx
        (dependencies (srcs.map Source.lines) srcs.length idx)) := by
  unfold print_make
  apply List.map_congr_left
  intro idx hidx
  have h4 := (scan_spec h).2.2.2
  have hu := scan_dependencies h (hs idx hidx)
  unfold uses_of at hu
  unfold filename_of at h4
  simp only [manifest_line, hu, h4]

/-- C11 (amended): in dependency-manifest mode a successful run prints one line per
file, in build order; the line of a file is its path, a colon and the paths of its
dependencies, and the dependencies of a file are the files to which the registry
resolves the names of its reference lines (for a name the last file in enumeration
order that defines it), each listed once, in the order in which the file first refers
to them. In the three-file scenario the list of `c.src` is `a.src` then `b.src` and
the list of `a.src` is empty. -/
theorem run_manifest :
    (∀ (srcs : List Source) (sorted : List Nat) (out : List CStr),
      run srcs true = some (RunResult.ok sorted out) →
      sorted.Perm (List.range srcs.length) ∧
      out = sorted.map (fun idx => manifest_line (srcs.map Source.path) idx
        (dependencies (srcs.map Source.lines) srcs.length idx)) ∧
      ∀ f, f < srcs.length →
        (dependencies (srcs.map Source.lines) srcs.length f).Nodup ∧
        ∀ x : Int, x ∈ dependencies (srcs.map Source.lines) srcs.length f ↔
          ∃ d : Nat, x = (d : Int) ∧ d < srcs.length ∧
            ∃ line ∈ (srcs.map Source.lines).getD f [], ∃ k, use_key line = some k ∧
              k ∈ defined_keys ((srcs.map Source.lines).getD d []) ∧
              ∀ e, d < e → e < srcs.length →
                k ∉ defined_keys ((srcs.map Source.lines).getD e [])) ∧
    run [src_a, src_b, src_c] true =
      some (RunResult.ok [0, 1, 2] [cstr "a.src:", cstr "b.src: a.src",
        cstr "c.src: a.src b.src"]) ∧
    run [src_c, src_b, src_a] true =
      some (RunResult.ok [2, 1, 0] [cstr "a.src:", cstr "b.src: a.src",
        cstr "c.src: a.src b.src"]) ∧
    dependencies ([src_c, src_b, src_a].map Source.lines) 3 0 = [2, 1] ∧
    dependencies ([src_c, src_b, src_a].map Source.lines) 3 2 = [] := by
  refine ⟨?_, by decide, by decide, by decide, by decide⟩
  intro srcs sorted out hrun
  obtain ⟨st2, hs, _, hperm, _, hout⟩ := run_ok_spec hrun
  refine ⟨hperm, ?_, ?_⟩
  · rw [hout, if_pos rfl]
    exact print_make_eq hs sorted (fun idx hidx => List.mem_range.1 (hperm.mem_iff.1 hidx))
  · intro f hf
    rw [← scan_dependencies hs hf]
    refine ⟨?_, ?_⟩
    · rw [(scan_spec hs).2.2.1 f hf]
      exact first_occurrences_nodup _
    · intro x
      rw [scan_uses_mem hs hf]
      constructor
      · rintro ⟨line, hl, k, hk, hr, hne⟩
        rcases registry_range (srcs.map Source.lines) srcs.length k with h1 | h1
        · exact absurd (hr ▸ h1) hne
        · rw [hr] at h1
          obtain ⟨d, hd⟩ := Int.eq_ofNat_of_zero_le h1.1
          subst hd
          obtain ⟨e1, e2, e3⟩ := (registry_eq_iff _ _ _ _).1 hr
          exact ⟨d, rfl, e1, line, hl, k, hk, e2, e3⟩
      · rintro ⟨d, rfl, hd, line, hl, k, hk, e2, e3⟩
        exact ⟨line, hl, k, hk, (registry_eq_iff _ _ _ _).2 ⟨hd, e2, e3⟩, by omega⟩

/-- The run on the forward reference: file 1 defines `m`, file 0 imports it. -/
theorem run_manifest_witness :
    run forward_srcs true = some (RunResult.ok [1, 0] [cstr "d.f90:", cstr "f.f90: d.f90"]) ∧
    [cstr "d.f90:", cstr "f.f90: d.f90"] =
      ([1, 0] : List Nat).map (fun idx => manifest_line (forward_srcs.map Source.path) idx
        (dependencies (forward_srcs.map Source.lines) forward_srcs.length idx)) ∧
    dependencies (forward_srcs.map Source.lines) forward_srcs.length 0 = [1] :=
  ⟨by decide,
   (run_manifest.1 forward_srcs [1, 0] [cstr "d.f90:", cstr "f.f90: d.f90"] (by decide)).2.1,
   by decide⟩

/-- Files 0 and 2 both define `n` and file 1 refers to `n`: the manifest line of file
1 lists file 2 only, though file 0 defines `n` as well. -/
theorem manifest_duplicate_definer :
    run duplicate_srcs true =
      some (RunResult.ok [2, 1, 0] [cstr "d2.f90:", cstr "f.f90: d2.f90",
        cstr "d1.f90: f.f90"]) ∧
    cstr "use n\n" ∈ (duplicate_srcs.map Source.lines).getD 1 [] ∧
    use_key (cstr "use n\n") = some (cstr "n") ∧
    cstr "n" ∈ defined_keys ((duplicate_srcs.map Source.lines).getD 0 []) ∧
    cstr "n" ∈ defined_keys ((duplicate_srcs.map Source.lines).getD 2 []) ∧
    (duplicate_srcs.map Source.path).getD 0 [] = cstr "d1.f90" ∧
    (scan duplicate_srcs).map (fun st => uses_of st.files 1) = some [2] := by
  decide

/-! ## Keywords and the byte after them -/

theorem tolower_eq_space {c : Nat} (h : tolower c = 32) : c = 32 := by
  unfold tolower at h
  split at h <;> omega

theorem strncasecmp_zero_iff (b : CStr) (hb : ∀ y ∈ b, tolower y ≠ 0) : ∀ a : CStr,
    strncasecmp a b b.length = 0 ↔ (a.take b.length).map tolower = b.map tolower := by
  induction b with
  | nil => intro a; simp [strncasecmp]
  | cons y ys ih =>
    intro a
    have hy : tolower y ≠ 0 := hb y (by simp)
    cases a with
    | nil =>
      simp only [List.length_cons, strncasecmp, List.take_nil, List.map_nil, List.map_cons]
      constructor
      · intro h; omega
      · intro h; simp at h
    | cons x xs =>
      simp only [List.length_cons, strncasecmp, List.take_succ_cons, List.map_cons,
        List.cons.injEq]
      by_cases hxy : tolower x = tolower y
      · rw [if_pos hxy, ih (fun z hz => hb z (by simp [hz])) xs]
        simp [hxy]
      · rw [if_neg hxy]
        constructor
        · intro h; omega
        · intro h; exact absurd h.1 hxy

/-- The keyword test of the scanner: the first bytes of the text are the keyword in
some letter case, followed by a space. -/
theorem keyword_test_iff (lit a : CStr) (hlit : ∀ y ∈ lit, tolower y = y ∧ y ≠ 0) :
    strncasecmp a (lit ++ [32]) (lit.length + 1) = 0 ↔
      ∃ kw rest, a = kw ++ 32 :: rest ∧ kw.map tolower = lit := by
  have hb : ∀ y ∈ lit ++ [32], tolower y ≠ 0 := by
    intro y hy
    rcases List.mem_append.1 hy with h | h
    · rw [(hlit y h).1]; exact (hlit y h).2
    · rw [List.mem_singleton.1 h]; decide
  have hmap : (lit ++ [32]).map tolower = lit ++ [32] := by
    rw [List.map_append]
    congr 1
    exact (List.map_congr_left (fun y hy => (hlit y hy).1)).trans (List.map_id lit)
  have hlen : (lit ++ [32]).length = lit.length + 1 := by simp
  rw [← hlen, strncasecmp_zero_iff _ hb, hmap, hlen]
  constructor
  · intro h
    have hl : (a.take (lit.length + 1)).length = lit.length + 1 := by
      have := congrArg List.length h
      simpa using this
    have hal : lit.length < a.length := by
      rw [List.length_take] at hl
      omega
    have hsplit : a.take (lit.length + 1) = a.take lit.length ++ [a[lit.length]] := by
      rw [List.take_succ, List.getElem?_eq_getElem hal]; rfl
    rw [hsplit, List.map_append] at h
    have h2 := List.append_inj h (by simp [List.length_take]; omega)
    refine ⟨a.take lit.length, a.drop (lit.length + 1), ?_, h2.1⟩
    have hc : a[lit.length] = 32 := by
      have := h2.2
      simp only [List.map_cons, List.map_nil, List.cons.injEq, and_true] at this
      exact tolower_eq_space this
    rw [← hc, ← List.drop_eq_getElem_cons hal, List.take_append_drop]
  · rintro ⟨kw, rest, rfl, hkw⟩
    have hk : kw.length = lit.length := by
      rw [← hkw, List.length_map]
    have : (kw ++ 32 :: rest).take (lit.length + 1) = kw ++ [32] := by
      rw [← hk, List.take_append_eq_append_take]
      simp
    rw [this, List.map_append, hkw]
    rfl

/-- The second pass on a trimmed line `kw ws name rest`. -/
theorem use_key_of_trim (line kw ws n rest : CStr)
    (htrim : trim line = kw ++ (32 :: ws) ++ n ++ rest) (hkw : kw.map tolower = cstr "use")
    (hws : ∀ c ∈ ws, isspace c = true) (hn : is_name n)
    (hrest : (isspace (rest.headD 0) = true ∨ iscomma (rest.headD 0) = true) ∨ rest = []) :
    use_key line = some (key_of n) := by
  have hbytes := keyword_bytes kw (cstr "use") hkw (by decide)
  have hcmp : strncasecmp (kw ++ (32 :: ws) ++ n ++ rest) (cstr "use ") 4 = 0 := by
    have := (keyword_test_iff (cstr "use") (kw ++ (32 :: ws) ++ n ++ rest) (by decide)).2
      ⟨kw, ws ++ n ++ rest, by simp, hkw⟩
    exact this
  have hext := extract_second_word_shape kw (32 :: ws) n rest MAX_MODULE_LEN
    (fun c hc => (hbytes c hc).1)
    (fun c hc => by
      rcases List.mem_cons.1 hc with h | h
      · rw [h]; decide
      · exact hws c h)
    (by simp) hn hrest (by decide)
  unfold use_key
  rw [htrim, if_pos ⟨hcmp, by rw [hext]⟩, hext]
  rfl

/-- The first pass on a trimmed line `kw ws name rest` without `procedure`. -/
theorem def_key_of_trim (line kw ws n rest : CStr)
    (htrim : trim line = kw ++ (32 :: ws) ++ n ++ rest) (hkw : kw.map tolower = cstr "module")
    (hws : ∀ c ∈ ws, isspace c = true) (hn : is_name n)
    (hrest : (isspace (rest.headD 0) = true ∨ iscomma (rest.headD 0) = true) ∨ rest = [])
    (hproc : strcasestr_custom (trim line) (cstr "procedure") = none) :
    def_key line = some (key_of n) := by
  have hbytes := keyword_bytes kw (cstr "module") hkw (by decide)
  have hcmp : strncasecmp (kw ++ (32 :: ws) ++ n ++ rest) (cstr "module ") 7 = 0 := by
    have := (keyword_test_iff (cstr "module") (kw ++ (32 :: ws) ++ n ++ rest) (by decide)).2
      ⟨kw, ws ++ n ++ rest, by simp, hkw⟩
    exact this
  have hext := extract_second_word_shape kw (32 :: ws) n rest MAX_MODULE_LEN
    (fun c hc => (hbytes c hc).1)
    (fun c hc => by
      rcases List.mem_cons.1 hc with h | h
      · rw [h]; decide
      · exact hws c h)
    (by simp) hn hrest (by decide)
  rw [htrim] at hproc
  unfold def_key
  rw [htrim, if_pos ⟨hcmp, hproc, by rw [hext]⟩, hext]
  rfl

/-- A line whose trimmed text does not begin with `use` and a space is skipped by the
second pass. -/
theorem use_line_skip (line : CStr)
    (h : ¬ ∃ kw rest, trim line = kw ++ 32 :: rest ∧ kw.map tolower = cstr "use")
    (table : HashTable) (i : Nat) (files : List FortranFile) :
    use_line table i files line = some files := by
  have hcmp : ¬ strncasecmp (trim line) (cstr "use ") 4 = 0 := fun h0 =>
    h ((keyword_test_iff (cstr "use") (trim line) (by decide)).1 h0)
  unfold use_line
  dsimp only
  rw [if_neg hcmp]

/-- A line whose trimmed text does not begin with `module` and a space is skipped by
the first pass. -/
theorem define_line_skip (line : CStr)
    (h : ¬ ∃ kw rest, trim line = kw ++ 32 :: rest ∧ kw.map tolower = cstr "module")
    (i : Nat) (st : Prog) : define_line i st line = st := by
  have hcmp : ¬ strncasecmp (trim line) (cstr "module ") 7 = 0 := fun h0 =>
    h ((keyword_test_iff (cstr "module") (trim line) (by decide)).1 h0)
  unfold define_line
  dsimp only
  rw [if_neg hcmp]

/-- The second pass on a line for which it looks up the name `k`. -/
theorem use_line_of_key (line k : CStr) (hk : use_key line = some k)
    (table : HashTable) (i : Nat) (files : List FortranFile) :
    use_line table i files line =
      if hash_lookup table k ≠ -1 then add_used_module files i (hash_lookup table k)
      else some files := by
  rw [use_line_eq]
  unfold resolved_line
  rw [hk]
  dsimp only
  by_cases h : hash_lookup table k = -1
  · rw [if_neg (by simpa using h), if_neg (by simpa using h)]
  · rw [if_pos h, if_pos h]

/-- C12 (amended): the scanner treats a line as a reference line only when its trimmed
text begins with `use` in any letter case followed by a space (byte 32), and as a
definition line only when it begins with `module` in any letter case followed by a
space: every other line, one with a tab after the keyword included, is skipped by
`use_line` and by `define_line`. When the space is followed by any white space (tabs
included) and a name that ends at white space, at a comma or at the end of the line,
`use_line` looks up the lowercased name (cut to 99 bytes) and adds the file it finds
to the uses list, and `define_line` registers the lowercased name for the file unless
the line contains `procedure`. -/
theorem keyword_then_space (line : CStr) :
    ((¬ ∃ kw rest, trim line = kw ++ 32 :: rest ∧ kw.map tolower = cstr "use") →
      ∀ (table : HashTable) (i : Nat) (files : List FortranFile),
        use_line table i files line = some files) ∧
    (∀ kw ws n rest : CStr, trim line = kw ++ (32 :: ws) ++ n ++ rest →
      kw.map tolower = cstr "use" → (∀ c ∈ ws, isspace c = true) → is_name n →
      ((isspace (rest.headD 0) = true ∨ iscomma (rest.headD 0) = true) ∨ rest = []) →
      ∀ (table : HashTable) (i : Nat) (files : List FortranFile),
        use_line table i files line =
          if hash_lookup table (key_of n) ≠ -1 then
            add_used_module files i (hash_lookup table (key_of n))
          else some files) ∧
    ((¬ ∃ kw rest, trim line = kw ++ 32 :: rest ∧ kw.map tolower = cstr "module") →
      ∀ (i : Nat) (st : Prog), define_line i st line = st) ∧
    (∀ kw ws n rest : CStr, trim line = kw ++ (32 :: ws) ++ n ++ rest →
      kw.map tolower = cstr "module" → (∀ c ∈ ws, isspace c = true) → is_name n →
      ((isspace (rest.headD 0) = true ∨ iscomma (rest.headD 0) = true) ∨ rest = []) →
      strcasestr_custom (trim line) (cstr "procedure") = none →
      ∀ (i : Nat) (st : Prog),
        (define_line i st line).hash_table = hash_insert st.hash_table (key_of n) (i : Int) ∧
        (define_line i st line).files =
          st.files.modify (fun f => { f with module_name := key_of n }) i) ∧
    (strncasecmp (trim line) (cstr "use ") 4 = 0 ↔
      ∃ kw rest, trim line = kw ++ 32 :: rest ∧ kw.map tolower = cstr "use") ∧
    (strncasecmp (trim line) (cstr "module ") 7 = 0 ↔
      ∃ kw rest, trim line = kw ++ 32 :: rest ∧ kw.map tolower = cstr "module") := by
  refine ⟨use_line_skip line, ?_, define_line_skip line, ?_,
    keyword_test_iff (cstr "use") (trim line) (by decide),
    keyword_test_iff (cstr "module") (trim line) (by decide)⟩
  · intro kw ws n rest h1 h2 h3 h4 h5 table i files
    exact use_line_of_key line (key_of n) (use_key_of_trim line kw ws n rest h1 h2 h3 h4 h5)
      table i files
  · intro kw ws n rest h1 h2 h3 h4 h5 h6 i st
    have hk := def_key_of_trim line kw ws n rest h1 h2 h3 h4 h5 h6
    have hd := define_line_eq i st line
    rw [hk] at hd
    rw [hd]
    exact ⟨rfl, rfl⟩

/-- The line `  USE \t Foo, only: x`, with a space and then a tab after the keyword,
makes `use_line` add the file registered for `foo` to the uses list of file 1, and the
line `MODULE  Foo` makes `define_line` register `foo` for file 0. -/
theorem keyword_then_space_witness :
    (use_line (hash_insert empty_table (cstr "foo") 0) 1
        [new_file (cstr "d.f90"), new_file (cstr "f.f90")] (cstr "  USE \t Foo, only: x\n") =
      if hash_lookup (hash_insert empty_table (cstr "foo") 0) (key_of (cstr "Foo")) ≠ -1 then
        add_used_module [new_file (cstr "d.f90"), new_file (cstr "f.f90")] 1
          (hash_lookup (hash_insert empty_table (cstr "foo") 0) (key_of (cstr "Foo")))
      else some [new_file (cstr "d.f90"), new_file (cstr "f.f90")]) ∧
    (use_line (hash_insert empty_table (cstr "foo") 0) 1
        [new_file (cstr "d.f90"), new_file (cstr "f.f90")]
        (cstr "  USE \t Foo, only: x\n")).map (fun files => uses_of files 1) = some [0] ∧
    ((define_line 0 (init_prog [cstr "d.f90"]) (cstr "MODULE  Foo\n")).hash_table =
        hash_insert (init_prog [cstr "d.f90"]).hash_table (key_of (cstr "Foo")) ((0 : Nat) : Int) ∧
      (define_line 0 (init_prog [cstr "d.f90"]) (cstr "MODULE  Foo\n")).files =
        (init_prog [cstr "d.f90"]).files.modify
          (fun f => { f with module_name := key_of (cstr "Foo") }) 0) ∧
    hash_lookup (define_line 0 (init_prog [cstr "d.f90"]) (cstr "MODULE  Foo\n")).hash_table
      (cstr "foo") = 0 :=
  ⟨(keyword_then_space (cstr "  USE \t Foo, only: x\n")).2.1 (cstr "USE") (cstr "\t ")
      (cstr "Foo") (cstr ", only: x") (by decide) (by decide) (by decide)
      ⟨by decide, by decide⟩ (Or.inl (Or.inr (by decide)))
      (hash_insert empty_table (cstr "foo") 0) 1
      [new_file (cstr "d.f90"), new_file (cstr "f.f90")],
   by decide,
   (keyword_then_space (cstr "MODULE  Foo\n")).2.2.2.1 (cstr "MODULE") (cstr " ")
      (cstr "Foo") [] (by decide) (by decide) (by decide)
      ⟨by decide, by decide⟩ (Or.inr rfl) (by decide) 0 (init_prog [cstr "d.f90"]),
   by decide⟩

/-- A tab is a white-space character, but a line with a tab right after the keyword is
neither a reference line nor a definition line: `use\tfoo` looks up nothing and
`module\tfoo` registers nothing, while the same lines with a space do. -/
theorem tab_is_not_a_separator :
    isspace 9 = true ∧
    trim (cstr "use\tfoo\n") = cstr "use" ++ [9] ++ cstr "foo" ∧
    strncasecmp (trim (cstr "use\tfoo\n")) (cstr "use ") 4 ≠ 0 ∧
    use_key (cstr "use\tfoo\n") = none ∧
    trim (cstr "module\tfoo\n") = cstr "module" ++ [9] ++ cstr "foo" ∧
    strncasecmp (trim (cstr "module\tfoo\n")) (cstr "module ") 7 ≠ 0 ∧
    def_key (cstr "module\tfoo\n") = none ∧
    (∀ (i : Nat) (st : Prog), define_line i st (cstr "module\tfoo\n") = st) ∧
    (∀ (t : HashTable) (i : Nat) (files : List FortranFile),
      use_line t i files (cstr "use\tfoo\n") = some files) ∧
    use_key (cstr "use foo\n") = some (cstr "foo") ∧
    def_key (cstr "module foo\n") = some (cstr "foo") := by
  refine ⟨by decide, by decide, by decide, by decide, by decide, by decide, by decide,
    ?_, ?_, by decide, by decide⟩
  · intro i st
    rw [define_line_eq]
    have : def_key (cstr "module\tfoo\n") = none := by decide
    rw [this]
  · intro t i files
    rw [use_line_eq]
    have : resolved_line t (cstr "use\tfoo\n") = none := by
      unfold resolved_line
      have h : use_key (cstr "use\tfoo\n") = none := by decide
      rw [h]
    rw [this]

/-! ## Definition lines and the word `procedure` -/

theorem match_here_iff (n : CStr) : ∀ h : CStr,
    match_here h n = true ↔ ∃ mid post : CStr, h = mid ++ post ∧
      mid.map tolower = n.map tolower := by
  induction n with
  | nil =>
    intro h
    simp only [match_here, List.map_nil, List.map_eq_nil_iff, true_iff]
    exact ⟨[], h, rfl, rfl⟩
  | cons y ys ih =>
    intro h
    cases h with
    | nil =>
      simp only [match_here, Bool.false_eq_true, false_iff]
      rintro ⟨mid, post, h1, h2⟩
      have : mid = [] := by
        cases mid with
        | nil => rfl
        | cons a b => simp at h1
      rw [this] at h2
      simp at h2
    | cons x xs =>
      simp only [match_here]
      by_cases hxy : tolower x = tolower y
      · rw [if_pos hxy, ih xs]
        constructor
        · rintro ⟨mid, post, h1, h2⟩
          exact ⟨x :: mid, post, by simp [h1], by simp [hxy, h2]⟩
        · rintro ⟨mid, post, h1, h2⟩
          cases mid with
          | nil => simp at h2
          | cons a b =>
            simp only [List.cons_append, List.cons.injEq] at h1
            simp only [List.map_cons, List.cons.injEq] at h2
            exact ⟨b, post, h1.2, h2.2⟩
      · rw [if_neg hxy]
        simp only [Bool.false_eq_true, false_iff]
        rintro ⟨mid, post, h1, h2⟩
        cases mid with
        | nil => simp at h2
        | cons a b =>
          simp only [List.cons_append, List.cons.injEq] at h1
          simp only [List.map_cons, List.cons.injEq] at h2
          exact hxy (by rw [h1.1, h2.1])

theorem strcasestr_loop_iff (n : CStr) (hn : n ≠ []) : ∀ hay : CStr,
    strcasestr_loop n hay ≠ none ↔ contains_ignoring_case hay n := by
  intro hay
  induction hay with
  | nil =>
    simp only [strcasestr_loop, ne_eq, not_true_eq_false, false_iff]
    rintro ⟨pre, mid, post, h1, h2⟩
    have hm : mid = [] := by
      cases pre <;> cases mid <;> simp at h1 ⊢
    rw [hm] at h2
    cases n with
    | nil => exact hn rfl
    | cons a b => simp at h2
  | cons x xs ih =>
    simp only [strcasestr_loop]
    by_cases hm : match_here (x :: xs) n = true
    · rw [if_pos hm]
      simp only [ne_eq, reduceCtorEq, not_false_eq_true, true_iff]
      obtain ⟨mid, post, h1, h2⟩ := (match_here_iff n (x :: xs)).1 hm
      exact ⟨[], mid, post, by simpa using h1, h2⟩
    · rw [if_neg hm, ih]
      constructor
      · rintro ⟨pre, mid, post, h1, h2⟩
        exact ⟨x :: pre, mid, post, by simp [h1], h2⟩
      · rintro ⟨pre, mid, post, h1, h2⟩
        cases pre with
        | nil =>
          exact absurd ((match_here_iff n (x :: xs)).2 ⟨mid, post, by simpa using h1, h2⟩) hm
        | cons a b =>
          simp only [List.cons_append, List.cons.injEq] at h1
          exact ⟨b, mid, post, h1.2, h2⟩

/-- The substring test of line 249 finds `needle` exactly when the text contains it in
some letter case. -/
theorem strcasestr_custom_iff (hay needle : CStr) :
    strcasestr_custom hay needle ≠ none ↔ contains_ignoring_case hay needle := by
  unfold strcasestr_custom
  by_cases hn : needle = []
  · rw [if_pos hn]
    simp only [ne_eq, reduceCtorEq, not_false_eq_true, true_iff]
    exact ⟨[], [], hay, rfl, by rw [hn]⟩
  · rw [if_neg hn]
    exact strcasestr_loop_iff needle hn hay

theorem second_word_spec_ne_nil (line : CStr) :
    second_word_spec line MAX_MODULE_LEN ≠ [] ↔
      ∃ c cs, (tokens line).getD 1 [] = c :: cs ∧ iscomma c = false := by
  unfold second_word_spec
  cases h : (tokens line).getD 1 [] with
  | nil => simp
  | cons c cs =>
    by_cases hc : iscomma c = true
    · simp [List.takeWhile_cons, hc]
    · have hc2 : iscomma c = false := by simpa using hc
      simp [List.takeWhile_cons, hc2, MAX_MODULE_LEN]

theorem def_key_of_module_line (line : CStr)
    (hmod : ∃ kw rest, trim line = kw ++ 32 :: rest ∧ kw.map tolower = cstr "module") :
    def_key line =
      if strcasestr_custom (trim line) (cstr "procedure") = none ∧
          second_word_spec (trim line) MAX_MODULE_LEN ≠ [] then
        some (second_word_spec (trim line) MAX_MODULE_LEN)
      else none := by
  have hcmp : strncasecmp (trim line) (cstr "module ") 7 = 0 :=
    (keyword_test_iff (cstr "module") (trim line) (by decide)).2 hmod
  obtain ⟨kw, rest, ht, hkw⟩ := hmod
  have hbytes := keyword_bytes kw (cstr "module") hkw (by decide)
  have hspec : (extract_second_word (trim line) MAX_MODULE_LEN).2 =
      second_word_spec (trim line) MAX_MODULE_LEN := by
    apply extract_second_word_eq_spec
    intro c hc
    rw [ht] at hc
    cases kw with
    | nil => exact absurd hkw (by decide)
    | cons a b =>
      simp only [List.cons_append, List.head?_cons, Option.some.injEq] at hc
      rw [← hc]
      exact (hbytes a (by simp)).1
  have hfst : (extract_second_word (trim line) MAX_MODULE_LEN).1 =
      decide (0 < (extract_second_word (trim line) MAX_MODULE_LEN).2.length) := rfl
  have hone : (extract_second_word (trim line) MAX_MODULE_LEN).1 = true ↔
      second_word_spec (trim line) MAX_MODULE_LEN ≠ [] := by
    rw [hfst, hspec, decide_eq_true_iff, List.length_pos]
  unfold def_key
  rw [hspec]
  by_cases h2 : strcasestr_custom (trim line) (cstr "procedure") = none
  · by_cases h3 : second_word_spec (trim line) MAX_MODULE_LEN ≠ []
    · rw [if_pos ⟨hcmp, h2, hone.2 h3⟩, if_pos ⟨h2, h3⟩]
    · rw [if_neg (fun h => h3 (hone.1 h.2.2)), if_neg (fun h => h3 h.2)]
  · rw [if_neg (fun h => h2 h.2.1), if_neg (fun h => h2 h.1)]

/-- C13 (amended): on a line whose trimmed text begins with `module` in any letter case
followed by a space, the first pass registers the line's name, that is the part of the
second token before its first comma, lowercased and cut to 99 bytes, under the index of
the file, if and only if the trimmed line does not contain `procedure` in any letter
case and that name is not empty, which is the case exactly when the second token is
not empty and does not begin with a comma; otherwise the line changes nothing. -/
theorem module_line_registers (line : CStr) (i : Nat) (st : Prog)
    (hmod : ∃ kw rest, trim line = kw ++ 32 :: rest ∧ kw.map tolower = cstr "module") :
    (∀ k, def_key line = some k ↔
      (¬ contains_ignoring_case (trim line) (cstr "procedure") ∧
        second_word_spec (trim line) MAX_MODULE_LEN ≠ [] ∧
        k = second_word_spec (trim line) MAX_MODULE_LEN)) ∧
    (¬ contains_ignoring_case (trim line) (cstr "procedure") →
      second_word_spec (trim line) MAX_MODULE_LEN ≠ [] →
      (define_line i st line).hash_table =
        hash_insert st.hash_table (second_word_spec (trim line) MAX_MODULE_LEN) (i : Int) ∧
      hash_lookup (define_line i st line).hash_table
        (second_word_spec (trim line) MAX_MODULE_LEN) = (i : Int)) ∧
    ((contains_ignoring_case (trim line) (cstr "procedure") ∨
        second_word_spec (trim line) MAX_MODULE_LEN = []) →
      define_line i st line = st) ∧
    (second_word_spec (trim line) MAX_MODULE_LEN ≠ [] ↔
      ∃ c cs, (tokens (trim line)).getD 1 [] = c :: cs ∧ iscomma c = false) := by
  have hkey := def_key_of_module_line line hmod
  have hproc : strcasestr_custom (trim line) (cstr "procedure") = none ↔
      ¬ contains_ignoring_case (trim line) (cstr "procedure") := by
    rw [← strcasestr_custom_iff]
    exact not_not.symm
  refine ⟨?_, ?_, ?_, second_word_spec_ne_nil (trim line)⟩
  · intro k
    rw [hkey]
    constructor
    · intro h
      split at h
      · rename_i hc
        exact ⟨hproc.1 hc.1, hc.2, (Option.some.inj h).symm⟩
      · exact absurd h (by simp)
    · rintro ⟨h1, h2, h3⟩
      rw [if_pos ⟨hproc.2 h1, h2⟩, h3]
  · intro h1 h2
    have hk : def_key line = some (second_word_spec (trim line) MAX_MODULE_LEN) := by
      rw [hkey, if_pos ⟨hproc.2 h1, h2⟩]
    have hd := define_line_eq i st line
    rw [hk] at hd
    rw [hd]
    refine ⟨rfl, ?_⟩
    rw [hash_lookup_insert, if_pos rfl]
  · intro h
    have hk : def_key line = none := by
      rw [hkey, if_neg]
      rintro ⟨h1, h2⟩
      rcases h with h | h
      · exact hproc.1 h1 h
      · exact h2 h
    have hd := define_line_eq i st line
    rw [hk] at hd
    exact hd

/-- The line `  Module Foo ! x` registers `foo`; the lines `module procedure foo`,
`module my_procedures` and `module foo ! Procedure` contain `procedure` and register
nothing. -/
theorem module_line_registers_witness :
    def_key (cstr "  Module Foo ! x\n") = some (cstr "foo") ∧
    hash_lookup (define_line 3 (init_prog []) (cstr "  Module Foo ! x\n")).hash_table
      (cstr "foo") = 3 ∧
    define_line 3 (init_prog []) (cstr "module procedure foo\n") = init_prog [] ∧
    define_line 3 (init_prog []) (cstr "module my_procedures\n") = init_prog [] ∧
    define_line 3 (init_prog []) (cstr "module foo ! Procedure\n") = init_prog [] := by
  have hno : ¬ contains_ignoring_case (trim (cstr "  Module Foo ! x\n")) (cstr "procedure") := by
    rw [← strcasestr_custom_iff]
    decide
  have h := module_line_registers (cstr "  Module Foo ! x\n") 3 (init_prog [])
    ⟨cstr "Module", cstr "Foo ! x", by decide, by decide⟩
  have hp : ∀ l : CStr, strcasestr_custom (trim l) (cstr "procedure") ≠ none →
      (∃ kw rest, trim l = kw ++ 32 :: rest ∧ kw.map tolower = cstr "module") →
      define_line 3 (init_prog []) l = init_prog [] := fun l h1 h2 =>
    (module_line_registers l 3 (init_prog []) h2).2.2.1
      (Or.inl ((strcasestr_custom_iff _ _).1 h1))
  refine ⟨(h.1 (cstr "foo")).2 ⟨hno, by decide, by decide⟩, ?_, ?_, ?_, ?_⟩
  · have := (h.2.1 hno (by decide)).2
    have hs : second_word_spec (trim (cstr "  Module Foo ! x\n")) MAX_MODULE_LEN = cstr "foo" := by
      decide
    rw [hs] at this
    exact this
  · exact hp _ (by decide) ⟨cstr "module", cstr "procedure foo", by decide, by decide⟩
  · exact hp _ (by decide) ⟨cstr "module", cstr "my_procedures", by decide, by decide⟩
  · exact hp _ (by decide) ⟨cstr "module", cstr "foo ! Procedure", by decide, by decide⟩

/-- The line `module ,x` begins with `module` and a space, does not contain
`procedure`, and its second token `,x` is not empty, but it registers nothing; the
line `module a,b`, whose second token is `a,b`, registers `a`. -/
theorem comma_token_unregistered :
    strncasecmp (trim (cstr "module ,x\n")) (cstr "module ") 7 = 0 ∧
    strcasestr_custom (trim (cstr "module ,x\n")) (cstr "procedure") = none ∧
    (tokens (trim (cstr "module ,x\n"))).getD 1 [] = cstr ",x" ∧
    def_key (cstr "module ,x\n") = none ∧
    (∀ (i : Nat) (st : Prog), define_line i st (cstr "module ,x\n") = st) ∧
    (tokens (trim (cstr "module a,b\n"))).getD 1 [] = cstr "a,b" ∧
    def_key (cstr "module a,b\n") = some (cstr "a") := by
  refine ⟨by decide, by decide, by decide, by decide, ?_, by decide, by decide⟩
  intro i st
  rw [define_line_eq]
  have : def_key (cstr "module ,x\n") = none := by decide
  rw [this]

/-! ## The order of the queue -/

theorem decremented_length (es : List Nat) : ∀ deg : List Int,
    (decremented deg es).length = deg.length := by
  induction es with
  | nil => intro deg; rfl
  | cons v es ih =>
    intro deg
    show (decremented (deg.modify (fun x => x - 1) v) es).length = _
    rw [ih, List.length_modify]

theorem decremented_getD (es : List Nat) : ∀ (deg : List Int) (v : Nat), v < deg.length →
    (decremented deg es).getD v 0 = deg.getD v 0 - (es.count v : Int) := by
  induction es with
  | nil => intro deg v _; simp [decremented]
  | cons w es ih =>
    intro deg v hv
    show (decremented (deg.modify (fun x => x - 1) w) es).getD v 0 = _
    rw [ih _ v (by rw [List.length_modify]; exact hv)]
    by_cases hwv : w = v
    · subst hwv
      rw [getD_modify_eq _ _ _ _ hv, List.count_cons_self]
      push_cast
      omega
    · rw [getD_modify_ne _ _ _ _ _ hwv, List.count_cons_of_ne (Ne.symm hwv)]

theorem decremented_append (a b : List Nat) (deg : List Int) :
    decremented deg (a ++ b) = decremented (decremented deg a) b := by
  unfold decremented
  rw [List.foldl_append]

/-- The relaxations of `es` append to the queue the targets whose count reaches zero. -/
theorem foldl_relax_queue (deg0 : List Int) (es : List Nat) :
    ∀ (seen : List Nat) (st : TopoState), (∀ v ∈ es, v < deg0.length) →
    st.in_degree = decremented deg0 seen →
    (es.foldl relax st).queue = st.queue ++ zero_hits deg0 seen es ∧
    (es.foldl relax st).in_degree = decremented deg0 (seen ++ es) := by
  induction es with
  | nil => intro seen st _ h; simp [zero_hits, h]
  | cons v es ih =>
    intro seen st hes h
    have hv : v < deg0.length := hes v (by simp)
    have hdeg : (relax st v).in_degree = decremented deg0 (seen ++ [v]) := by
      rw [decremented_append, ← h]
      unfold relax; dsimp only; split <;> rfl
    have hval : (st.in_degree.modify (fun d => d - 1) v).getD v 0 =
        deg0.getD v 0 - ((seen.count v + 1 : Nat) : Int) := by
      have h1 : st.in_degree.modify (fun d => d - 1) v = decremented deg0 (seen ++ [v]) := by
        rw [decremented_append, ← h]; rfl
      rw [h1, decremented_getD _ _ _ hv, List.count_append]
      simp
    obtain ⟨h2, h3⟩ := ih (seen ++ [v]) (relax st v) (fun w hw => hes w (by simp [hw])) hdeg
    simp only [List.foldl_cons]
    rw [h2, h3, List.append_assoc, List.singleton_append]
    refine ⟨?_, rfl⟩
    rw [zero_hits]
    by_cases hz : deg0.getD v 0 = ((seen.count v + 1 : Nat) : Int)
    · rw [if_pos hz]
      have : (relax st v).queue = st.queue ++ [v] := by
        unfold relax; dsimp only
        rw [if_pos (by rw [hval]; omega)]
      rw [this, List.append_assoc, List.singleton_append]
    · rw [if_neg hz]
      have : (relax st v).queue = st.queue := by
        unfold relax; dsimp only
        rw [if_neg (by rw [hval]; omega)]
      rw [this]

theorem zero_hits_append (deg0 : List Int) (a : List Nat) : ∀ (seen b : List Nat),
    zero_hits deg0 seen (a ++ b) = zero_hits deg0 seen a ++ zero_hits deg0 (seen ++ a) b := by
  induction a with
  | nil => intro seen b; simp [zero_hits]
  | cons v a ih =>
    intro seen b
    have hc : v :: a ++ b = v :: (a ++ b) := rfl
    have hs : seen ++ v :: a = seen ++ [v] ++ a := by simp
    rw [hc, zero_hits, zero_hits, hs]
    split
    · rw [ih, List.cons_append]
    · rw [ih]

theorem topo_step_queue {n : Nat} {g : Graph} (hwf : WellFormed n g.adj)
    (hm : InDegreeMatches n g) {st : TopoState} (h : QueueInv n g st) :
    QueueInv n g (topo_step g.adj st) := by
  have ht : topo_step g.adj st =
      (out_edges g.adj (st.queue.getD st.front 0)).foldl relax
        { st with front := st.front + 1, sorted := st.sorted ++ [st.queue.getD st.front 0] } :=
    rfl
  obtain ⟨h1, h2⟩ := foldl_relax_queue g.in_degree (out_edges g.adj (st.queue.getD st.front 0))
    (relaxed_edges g.adj st.sorted)
    { st with front := st.front + 1, sorted := st.sorted ++ [st.queue.getD st.front 0] }
    (fun v hv => by rw [hm.1]; exact out_edges_lt hwf _ v hv) h.2
  have hs : (topo_step g.adj st).sorted = st.sorted ++ [st.queue.getD st.front 0] := by
    rw [ht]
    generalize out_edges g.adj (st.queue.getD st.front 0) = es
    have : ∀ (es : List Nat) (s : TopoState), (es.foldl relax s).sorted = s.sorted := by
      intro es
      induction es with
      | nil => intro s; rfl
      | cons v es ih => intro s; simp only [List.foldl_cons]; rw [ih, relax_sorted]
    rw [this]
  have hr : relaxed_edges g.adj (st.sorted ++ [st.queue.getD st.front 0]) =
      relaxed_edges g.adj st.sorted ++ out_edges g.adj (st.queue.getD st.front 0) := by
    unfold relaxed_edges
    simp
  unfold QueueInv
  rw [hs, hr, zero_hits_append, List.nil_append, ← List.append_assoc, ← h.1, ← ht] at *
  exact ⟨h1, h2⟩

theorem topo_loop_queue {n : Nat} {g : Graph} (hwf : WellFormed n g.adj)
    (hm : InDegreeMatches n g) (fuel : Nat) : ∀ (st st2 : TopoState), QueueInv n g st →
    topo_loop g.adj fuel st = some st2 → QueueInv n g st2 := by
  induction fuel with
  | zero =>
    intro st st2 h hl
    unfold topo_loop at hl
    split at hl
    · simp at hl
    · simp only [Option.some.injEq] at hl
      rw [← hl]; exact h
  | succ fuel ih =>
    intro st st2 h hl
    unfold topo_loop at hl
    split at hl
    · exact ih _ _ (topo_step_queue hwf hm h) hl
    · simp only [Option.some.injEq] at hl
      rw [← hl]; exact h

/-- C14: on every graph of `n` nodes with matching in-degree counts, cyclic or not,
the order that `topologic_sort` produces begins with all nodes whose initial in-degree
is zero, in ascending index order; the nodes after them have a non-zero initial
in-degree and stand in the order in which their in-degree reaches zero when the
adjacency lists of the emitted nodes are relaxed one after the other, in the order of
emission. The order is the same for every value of the output length at the call. -/
theorem topologic_sort_fifo (n : Nat) (g : Graph) (len0 : Nat)
    (hwf : WellFormed n g.adj) (hm : InDegreeMatches n g) :
    ∃ r later, topologic_sort n g len0 = some r ∧
      r.sorted = (List.range n).filter (fun i => decide (g.in_degree.getD i 0 = 0)) ++ later ∧
      ((List.range n).filter (fun i => decide (g.in_degree.getD i 0 = 0))).Pairwise
        (fun a b => a < b) ∧
      (∀ v ∈ later, g.in_degree.getD v 0 ≠ 0) ∧
      later = zero_hits g.in_degree [] (relaxed_edges g.adj r.sorted) ∧
      ∀ len1, (topologic_sort n g len1).map SortResult.sorted = some r.sorted := by
  obtain ⟨st, h1, hs, inv⟩ := topo_loop_result hwf hm
  have hq0 : QueueInv n g (initial_state n g.in_degree) := by
    unfold QueueInv initial_state relaxed_edges
    simp [zero_hits, decremented]
  have hq := topo_loop_queue hwf hm n _ _ hq0 h1
  have hsorted : ∀ len1, (topologic_sort n g len1).map SortResult.sorted = some st.sorted := by
    intro len1
    unfold topologic_sort
    rw [h1]
    dsimp only
    split <;> rfl
  have hex : ∃ r, topologic_sort n g len0 = some r ∧ r.sorted = st.sorted := by
    have := hsorted len0
    rw [Option.map_eq_some'] at this
    exact this
  obtain ⟨r, hr, hrs⟩ := hex
  refine ⟨r, zero_hits g.in_degree [] (relaxed_edges g.adj st.sorted), hr, ?_, ?_, ?_, ?_, ?_⟩
  · rw [hrs]
    exact hs.trans hq.1
  · exact (List.pairwise_lt_range n).filter _
  · intro v hv hz
    have hnd := inv.nodup
    rw [hq.1] at hnd
    have hvq : v ∈ st.queue := by
      rw [hq.1]; exact List.mem_append_right _ hv
    have hvn : v < n := inv.lt v hvq
    have hvi : v ∈ initial_queue n g.in_degree := by
      unfold initial_queue
      exact List.mem_filter.2 ⟨List.mem_range.2 hvn, decide_eq_true hz⟩
    exact (List.nodup_append.1 hnd).2.2 hvi hv
  · rw [hrs]
  · intro len1
    rw [hrs]
    exact hsorted len1

/-- The diamond graph `0 -> 2, 0 -> 1, 1 -> 2`: node 0 comes first, then node 1, whose
count reaches zero on the second relaxation, then node 2. -/
theorem topologic_sort_fifo_witness :
    WellFormed 3 diamond_graph.adj ∧ InDegreeMatches 3 diamond_graph ∧
    (topologic_sort 3 diamond_graph 3).map SortResult.sorted = some [0, 1, 2] ∧
    relaxed_edges diamond_graph.adj [0, 1, 2] = [2, 1, 2] ∧
    zero_hits diamond_graph.in_degree [] [2, 1, 2] = [1, 2] ∧
    ∃ r later, topologic_sort 3 diamond_graph 3 = some r ∧
      r.sorted = (List.range 3).filter
        (fun i => decide (diamond_graph.in_degree.getD i 0 = 0)) ++ later ∧
      ((List.range 3).filter (fun i => decide (diamond_graph.in_degree.getD i 0 = 0))).Pairwise
        (fun a b => a < b) ∧
      (∀ v ∈ later, diamond_graph.in_degree.getD v 0 ≠ 0) ∧
      later = zero_hits diamond_graph.in_degree [] (relaxed_edges diamond_graph.adj r.sorted) ∧
      ∀ len1, (topologic_sort 3 diamond_graph len1).map SortResult.sorted = some r.sorted :=
  ⟨by unfold WellFormed; decide, by unfold InDegreeMatches; decide, by decide, by decide,
    by decide,
    topologic_sort_fifo 3 diamond_graph 3 (by unfold WellFormed; decide)
      (by unfold InDegreeMatches; decide)⟩

/-! ## Edges and uses lists -/

theorem sum_count_range (n : Nat) (l : List Int) (h : ∀ x ∈ l, 0 ≤ x ∧ x < n) :
    Finset.sum (Finset.range n) (fun u => l.count (u : Int)) = l.length := by
  induction l with
  | nil => simp
  | cons x l ih =>
    obtain ⟨hx0, hxn⟩ := h x (by simp)
    obtain ⟨d, hd⟩ := Int.eq_ofNat_of_zero_le hx0
    subst hd
    have hdn : d < n := by omega
    simp only [List.count_cons, List.length_cons]
    rw [Finset.sum_add_distrib, ih (fun y hy => h y (by simp [hy]))]
    congr 1
    have : ∀ u ∈ Finset.range n, (if ((d : Int) == (u : Int)) = true then 1 else 0) =
        if d = u then 1 else 0 := by
      intro u _
      by_cases hu : d = u
      · simp [hu]
      · have : ¬ ((d : Int) = (u : Int)) := by omega
        simp [hu, this]
    rw [Finset.sum_congr rfl this, Finset.sum_ite_eq]
    simp [hdn]

/-- C15: when the uses lists hold file indices and no entry twice, as the lists that
`add_used_module` builds do, then after `build_graph`, for all file indices `D` and
`F`: `F` occurs in the adjacency list of `D` if and only if `D` occurs in the uses list
of `F`, and then it occurs exactly once; `in_degree[F]` is the length of the uses list
of `F`, which is the number of occurrences of `F` over all adjacency lists. -/
theorem build_graph_edges (files : List FortranFile)
    (hvalid : ∀ i, i < files.length → ∀ dep ∈ uses_of files i, 0 ≤ dep ∧ dep < files.length)
    (hnodup : ∀ i, i < files.length → (uses_of files i).Nodup)
    (D F : Nat) (hF : F < files.length) :
    (F ∈ out_edges (build_graph files).adj D ↔ (D : Int) ∈ uses_of files F) ∧
    (F ∈ out_edges (build_graph files).adj D →
      (out_edges (build_graph files).adj D).count F = 1) ∧
    (out_edges (build_graph files).adj D).count F ≤ 1 ∧
    (build_graph files).in_degree.getD F 0 = ((uses_of files F).length : Int) ∧
    (uses_of files F).length = occurrences (build_graph files).adj F ∧
    (build_graph files).adj.length = files.length ∧
    (build_graph files).in_degree.length = files.length := by
  obtain ⟨hwf, hdeg, hcount⟩ := build_graph_spec files hvalid
  have hc : (out_edges (build_graph files).adj D).count F = (uses_of files F).count (D : Int) := by
    rw [hcount D F, if_pos hF]
  have hle : (out_edges (build_graph files).adj D).count F ≤ 1 := by
    rw [hc]
    exact List.nodup_iff_count_le_one.1 (hnodup F hF) _
  have hocc : (uses_of files F).length = occurrences (build_graph files).adj F := by
    rw [occurrences_eq_sum, hwf.1, ← sum_count_range files.length _ (hvalid F hF)]
    apply Finset.sum_congr rfl
    intro u _
    rw [hcount u F, if_pos hF]
  refine ⟨?_, ?_, hle, ?_, hocc, hwf.1, hdeg.1⟩
  · have := build_graph_edge files hvalid D F
    unfold Edge at this
    rw [this]
    exact ⟨fun h => h.2, fun h => ⟨hF, h⟩⟩
  · intro h
    have := List.count_pos_iff.2 h
    omega
  · rw [hdeg.2 F hF, hocc]

theorem build_graph_edges_witness :
    (scan [src_a, src_b, src_c]).map Prog.files = some three_files ∧
    (2 ∈ out_edges (build_graph three_files).adj 0 ↔ ((0 : Nat) : Int) ∈ uses_of three_files 2) ∧
    (2 ∈ out_edges (build_graph three_files).adj 0 →
      (out_edges (build_graph three_files).adj 0).count 2 = 1) ∧
    (out_edges (build_graph three_files).adj 0).count 2 ≤ 1 ∧
    (build_graph three_files).in_degree.getD 2 0 = ((uses_of three_files 2).length : Int) ∧
    (uses_of three_files 2).length = occurrences (build_graph three_files).adj 2 ∧
    (build_graph three_files).adj.length = three_files.length ∧
    (build_graph three_files).in_degree.length = three_files.length :=
  ⟨by decide, build_graph_edges three_files (by decide) (by decide) 0 2 (by decide)⟩

/-! ## The nodes left over on a cycle -/

/-- A non-empty finite set of nodes each of which has a predecessor in the set
contains a cycle of the relation restricted to the set. -/
theorem cycle_in_set (R : Nat → Nat → Prop) (U : Finset Nat) (hne : U.Nonempty)
    (h : ∀ v ∈ U, ∃ u ∈ U, R u v) :
    ∃ x ∈ U, Relation.TransGen (fun a b => R a b ∧ a ∈ U ∧ b ∈ U) x x := by
  by_contra hac
  let r : {x // x ∈ U} → {x // x ∈ U} → Prop :=
    fun a b => Relation.TransGen (fun a b => R a b ∧ a ∈ U ∧ b ∈ U) a.1 b.1
  have htr : IsTrans {x // x ∈ U} r := ⟨fun _ _ _ hab hbc => Relation.TransGen.trans hab hbc⟩
  have hir : IsIrrefl {x // x ∈ U} r := ⟨fun a haa => hac ⟨a.1, a.2, haa⟩⟩
  have wf : WellFounded r := Finite.wellFounded_of_trans_of_irrefl r
  obtain ⟨x, hx⟩ := hne
  obtain ⟨m, _, hm⟩ := wf.has_min Set.univ ⟨⟨x, hx⟩, trivial⟩
  obtain ⟨u, hu, hum⟩ := h m.1 m.2
  exact hm ⟨u, hu⟩ trivial (Relation.TransGen.single ⟨hum, hu, m.2⟩)

/-- The nodes left over when the loop has ended. -/
theorem kahn_leftover {n : Nat} {adj : List AdjList} {st : TopoState}
    (inv : KahnInv n adj st.queue [] st) (hne : st.queue.length ≠ n) :
    (∃ v, v < n ∧ v ∉ st.queue) ∧
    (∀ v, v < n → st.in_degree.getD v 0 = (residual adj n st.queue v : Int)) ∧
    (∀ v, v < n → (v ∉ st.queue ↔ 0 < st.in_degree.getD v 0)) ∧
    (∀ v, v < n → v ∉ st.queue → ∃ u, u < n ∧ u ∉ st.queue ∧ Edge adj u v) := by
  have hdeg : ∀ v, v < n → st.in_degree.getD v 0 = (residual adj n st.queue v : Int) := by
    intro v hv
    rw [inv.deg v hv]
    simp
  refine ⟨?_, hdeg, ?_, ?_⟩
  · by_contra hempty
    push_neg at hempty
    have hsub : List.range n ⊆ st.queue := fun x hx => hempty x (List.mem_range.1 hx)
    have h1 := (List.subperm_of_subset (List.nodup_range n) hsub).length_le
    have h2 := queue_length_le inv.nodup inv.lt
    simp at h1
    omega
  · intro v hv
    rw [inv.zero v hv, hdeg v hv]
    omega
  · intro v hv hq
    have hz : st.in_degree.getD v 0 ≠ 0 := fun hz => hq ((inv.zero v hv).2 hz)
    rw [hdeg v hv] at hz
    have hres : residual adj n st.queue v ≠ 0 := by
      intro h0; apply hz; simp [h0]
    exact residual_pos hres

/-- C16: on a graph of `n` nodes with matching in-degree counts `topologic_sort`
returns, and when it returns 0 some node was not emitted, a node is unemitted if and
only if its residual in-degree (the count the call leaves in `in_degree`, which is the
number of edges into the node from unemitted nodes) is greater than zero, every
unemitted node has an unemitted predecessor, and the subgraph induced by the unemitted
nodes contains a directed cycle. -/
theorem topologic_sort_leftover (n : Nat) (g : Graph) (len0 : Nat)
    (hwf : WellFormed n g.adj) (hm : InDegreeMatches n g) :
    ∃ r, topologic_sort n g len0 = some r ∧
      (r.ret = 0 →
        (∃ v, v < n ∧ v ∉ r.sorted) ∧
        (∀ v, v < n → r.in_degree.getD v 0 = (residual g.adj n r.sorted v : Int)) ∧
        (∀ v, v < n → (v ∉ r.sorted ↔ 0 < r.in_degree.getD v 0)) ∧
        (∀ v, v < n → v ∉ r.sorted → ∃ u, u < n ∧ u ∉ r.sorted ∧ Edge g.adj u v) ∧
        ∃ x, x < n ∧ x ∉ r.sorted ∧
          Relation.TransGen (UnemittedEdge g.adj r.sorted) x x) := by
  obtain ⟨st, hs, inv, hr⟩ := topologic_sort_result len0 hwf hm
  refine ⟨_, hr, ?_⟩
  by_cases hlen : st.sorted.length = n
  · rw [if_neg (by simp [hlen])]
    intro h
    have h1 : (1 : Int) = 0 := h
    exact absurd h1 (by decide)
  · rw [if_pos hlen]
    intro _
    show (∃ v, v < n ∧ v ∉ st.sorted) ∧
      (∀ v, v < n → st.in_degree.getD v 0 = (residual g.adj n st.sorted v : Int)) ∧
      (∀ v, v < n → (v ∉ st.sorted ↔ 0 < st.in_degree.getD v 0)) ∧
      (∀ v, v < n → v ∉ st.sorted → ∃ u, u < n ∧ u ∉ st.sorted ∧ Edge g.adj u v) ∧
      ∃ x, x < n ∧ x ∉ st.sorted ∧ Relation.TransGen (UnemittedEdge g.adj st.sorted) x x
    rw [hs] at hlen ⊢
    obtain ⟨h1, h2, h3, h4⟩ := kahn_leftover inv hlen
    refine ⟨h1, h2, h3, h4, ?_⟩
    obtain ⟨v, hv, hvq⟩ := h1
    obtain ⟨x, hx, hcyc⟩ := cycle_in_set (Edge g.adj)
      ((Finset.range n).filter (fun u => u ∉ st.queue)) ⟨v, by simp [hv, hvq]⟩
      (by
        intro w hw
        simp only [Finset.mem_filter, Finset.mem_range] at hw
        obtain ⟨u, hu, huq, hue⟩ := h4 w hw.1 hw.2
        exact ⟨u, by simp [hu, huq], hue⟩)
    simp only [Finset.mem_filter, Finset.mem_range] at hx
    refine ⟨x, hx.1, hx.2, ?_⟩
    refine Relation.TransGen.mono ?_ hcyc
    intro a b hab
    simp only [Finset.mem_filter, Finset.mem_range] at hab
    exact ⟨hab.1, hab.2.1.2, hab.2.2.2⟩

/-- On the graph `0 -> 1 -> 1` the call returns 0 with node 0 emitted and node 1 left
over, with the residual in-degree 1. -/
theorem topologic_sort_leftover_witness :
    WellFormed 2 self_loop_graph.adj ∧ InDegreeMatches 2 self_loop_graph ∧
    topologic_sort 2 self_loop_graph 2 =
      some { ret := 0, sorted := [0], sorted_len := 2, in_degree := [0, 1] } ∧
    ∃ r, topologic_sort 2 self_loop_graph 2 = some r ∧
      (r.ret = 0 →
        (∃ v, v < 2 ∧ v ∉ r.sorted) ∧
        (∀ v, v < 2 → r.in_degree.getD v 0 = (residual self_loop_graph.adj 2 r.sorted v : Int)) ∧
        (∀ v, v < 2 → (v ∉ r.sorted ↔ 0 < r.in_degree.getD v 0)) ∧
        (∀ v, v < 2 → v ∉ r.sorted →
          ∃ u, u < 2 ∧ u ∉ r.sorted ∧ Edge self_loop_graph.adj u v) ∧
        ∃ x, x < 2 ∧ x ∉ r.sorted ∧
          Relation.TransGen (UnemittedEdge self_loop_graph.adj r.sorted) x x) :=
  ⟨by unfold WellFormed; decide, by unfold InDegreeMatches; decide, by decide,
    topologic_sort_leftover 2 self_loop_graph 2 (by unfold WellFormed; decide)
      (by unfold InDegreeMatches; decide)⟩

/-! ## Capacities and their ceilings -/

theorem pow_two_bound {k b : Nat} (h : 2 ^ k ≤ 2 ^ b - 1) : k < b := by
  by_contra hk
  have := Nat.pow_le_pow_right (by decide : 0 < 2) (Nat.le_of_not_lt hk)
  have hp : 0 < 2 ^ b := Nat.two_pow_pos _
  omega

/-- Capacities of the form `16 * 2^k` within the ceiling 10000 whose double is above
the ceiling: only 8192. -/
theorem uses_capacity_top {cap : Nat}
    (h1 : cap = 0 ∨ ∃ k : Nat, cap = INITIAL_USES_CAPACITY * 2 ^ k)
    (h2 : cap ≤ MAX_USES_CAPACITY) :
    MAX_USES_CAPACITY < grown INITIAL_USES_CAPACITY cap ↔ cap = 8192 := by
  unfold grown INITIAL_USES_CAPACITY MAX_USES_CAPACITY at *
  rcases h1 with h0 | ⟨k, hk⟩
  · subst h0; simp
  · have hpos : 0 < 2 ^ k := Nat.two_pow_pos _
    have hne : cap ≠ 0 := by omega
    rw [if_neg hne]
    constructor
    · intro h
      have hk10 : k < 10 := pow_two_bound (by show 2 ^ k ≤ 2 ^ 10 - 1; norm_num; omega)
      interval_cases k <;> simp at hk <;> omega
    · intro h; omega

theorem file_capacity_top {cap : Nat}
    (h1 : cap = 0 ∨ ∃ k : Nat, cap = INITIAL_FILE_CAPACITY * 2 ^ k)
    (h2 : cap ≤ MAX_FILE_CAPACITY) :
    MAX_FILE_CAPACITY < grown INITIAL_FILE_CAPACITY cap ↔ cap = 65536 := by
  unfold grown INITIAL_FILE_CAPACITY MAX_FILE_CAPACITY at *
  rcases h1 with h0 | ⟨k, hk⟩
  · subst h0; simp
  · have hpos : 0 < 2 ^ k := Nat.two_pow_pos _
    have hne : cap ≠ 0 := by omega
    rw [if_neg hne]
    constructor
    · intro h
      have hk10 : k < 7 := pow_two_bound (by show 2 ^ k ≤ 2 ^ 7 - 1; norm_num; omega)
      interval_cases k <;> simp at hk <;> omega
    · intro h; omega

theorem grown_form {initial cap : Nat} (h : cap = 0 ∨ ∃ k : Nat, cap = initial * 2 ^ k) :
    ∃ k : Nat, grown initial cap = initial * 2 ^ k := by
  unfold grown
  rcases h with h0 | ⟨k, hk⟩
  · exact ⟨0, by simp [h0]⟩
  · by_cases hc : cap = 0
    · exact ⟨0, by simp [hc]⟩
    · exact ⟨k + 1, by rw [if_neg hc, hk, Nat.pow_succ, Nat.mul_assoc]⟩

theorem grown_gt {initial cap : Nat} (hi : 0 < initial) : cap < grown initial cap := by
  unfold grown
  split <;> omega

theorem new_file_cap (p : CStr) : UsesCapOK (new_file p) :=
  ⟨Or.inl rfl, Nat.le_refl _, Nat.zero_le _⟩

/-- Line 142-153 on a list whose capacities are in order: the call fails exactly when
the list of `files[idx]` is full and the grown capacity is above the ceiling, and
otherwise leaves room for one more entry. -/
theorem ensure_uses_capacity_cap (files : List FortranFile) (idx : Nat)
    (hok : ∀ j, UsesCapOK (files.getD j (new_file []))) :
    (ensure_uses_capacity files idx = none ↔
      (files.getD idx (new_file [])).uses_capacity ≤ (uses_of files idx).length ∧
      MAX_USES_CAPACITY <
        grown INITIAL_USES_CAPACITY (files.getD idx (new_file [])).uses_capacity) ∧
    ∀ files1, ensure_uses_capacity files idx = some files1 →
      (∀ j, UsesCapOK (files1.getD j (new_file []))) ∧
      (∀ j, uses_of files1 j = uses_of files j) ∧
      files1.length = files.length ∧
      (idx < files.length →
        (uses_of files1 idx).length < (files1.getD idx (new_file [])).uses_capacity) := by
  have hf := hok idx
  unfold ensure_uses_capacity
  dsimp only
  by_cases h1 : (files.getD idx (new_file [])).uses.length ≥
      (files.getD idx (new_file [])).uses_capacity
  · rw [if_pos h1]
    by_cases h2 : (if (files.getD idx (new_file [])).uses_capacity = 0 then INITIAL_USES_CAPACITY
        else (files.getD idx (new_file [])).uses_capacity * 2) ≤ MAX_USES_CAPACITY
    · rw [if_pos h2]
      refine ⟨⟨fun h => absurd h (by simp), fun h => absurd h2 (Nat.not_le.2 h.2)⟩, ?_⟩
      intro files1 hs
      simp only [Option.some.injEq] at hs
      subst hs
      have hgt := @grown_gt INITIAL_USES_CAPACITY (files.getD idx (new_file [])).uses_capacity
        (by decide)
      refine ⟨?_, ?_, by simp, ?_⟩
      · intro j
        by_cases hj : j = idx
        · subst hj
          by_cases hlt : j < files.length
          · rw [getD_modify_eq _ _ _ _ hlt]
            exact ⟨Or.inr (grown_form hf.1), Nat.le_trans hf.2.1 (Nat.le_of_lt hgt), h2⟩
          · rw [List.modify_eq_self (Nat.le_of_not_lt hlt)]
            exact hf
        · rw [getD_modify_ne _ _ _ _ _ (Ne.symm hj)]
          exact hok j
      · intro j
        unfold uses_of
        by_cases hj : j = idx
        · subst hj
          by_cases hlt : j < files.length
          · rw [getD_modify_eq _ _ _ _ hlt]
          · rw [List.modify_eq_self (Nat.le_of_not_lt hlt)]
        · rw [getD_modify_ne _ _ _ _ _ (Ne.symm hj)]
      · intro hlt
        unfold uses_of
        rw [getD_modify_eq _ _ _ _ hlt]
        exact Nat.lt_of_le_of_lt hf.2.1 hgt
    · rw [if_neg h2]
      refine ⟨⟨fun _ => ⟨h1, Nat.not_le.1 h2⟩, fun _ => rfl⟩, ?_⟩
      intro files1 hs
      exact absurd hs (by simp)
  · rw [if_neg h1]
    refine ⟨⟨fun h => absurd h (by simp), fun h => absurd h.1 h1⟩, ?_⟩
    intro files1 hs
    simp only [Option.some.injEq] at hs
    subst hs
    exact ⟨hok, fun _ => rfl, rfl, fun _ => Nat.not_le.1 h1⟩

/-- Lines 156-163 on a list whose capacities are in order. -/
theorem add_used_module_cap (files : List FortranFile) (idx : Nat) (x : Int)
    (hidx : idx < files.length) (hok : ∀ j, UsesCapOK (files.getD j (new_file []))) :
    (add_used_module files idx x = none ↔
      x ∉ uses_of files idx ∧
      (files.getD idx (new_file [])).uses_capacity ≤ (uses_of files idx).length ∧
      MAX_USES_CAPACITY <
        grown INITIAL_USES_CAPACITY (files.getD idx (new_file [])).uses_capacity) ∧
    ∀ files2, add_used_module files idx x = some files2 →
      (∀ j, UsesCapOK (files2.getD j (new_file []))) ∧
      uses_of files2 idx = add_once (uses_of files idx) x ∧ x ∈ uses_of files2 idx ∧
      (∀ j, j ≠ idx → uses_of files2 j = uses_of files j) := by
  obtain ⟨e1, e2⟩ := ensure_uses_capacity_cap files idx hok
  unfold add_used_module
  by_cases hx : x ∈ (files.getD idx (new_file [])).uses
  · rw [if_pos hx]
    refine ⟨⟨fun h => absurd h (by simp), fun h => absurd hx h.1⟩, ?_⟩
    intro files2 hs
    simp only [Option.some.injEq] at hs
    subst hs
    have hx2 : x ∈ uses_of files idx := hx
    refine ⟨hok, ?_, hx, fun _ _ => rfl⟩
    unfold add_once
    rw [if_pos hx2]
  · rw [if_neg hx]
    cases hE : ensure_uses_capacity files idx with
    | none =>
      refine ⟨⟨fun _ => ⟨hx, e1.1 hE⟩, fun _ => rfl⟩, ?_⟩
      intro files2 hs
      exact absurd hs (by simp)
    | some files1 =>
      obtain ⟨c1, c2, c3, c4⟩ := e2 files1 hE
      have hidx1 : idx < files1.length := by omega
      refine ⟨⟨fun h => absurd h (by simp), fun h => ?_⟩, ?_⟩
      · have := e1.2 h.2
        rw [hE] at this
        exact absurd this (by simp)
      · intro files2 hs
        simp only [Option.some.injEq] at hs
        subst hs
        have huses : uses_of (files1.modify (fun f => { f with uses := f.uses ++ [x] }) idx) idx =
            uses_of files idx ++ [x] := by
          rw [← c2 idx]
          unfold uses_of
          rw [getD_modify_eq _ _ _ _ hidx1]
        refine ⟨?_, ?_, ?_, ?_⟩
        · intro j
          by_cases hj : j = idx
          · subst hj
            rw [getD_modify_eq _ _ _ _ hidx1]
            have h1 := c1 j
            have h4 := c4 hidx
            unfold uses_of at h4
            refine ⟨h1.1, ?_, h1.2.2⟩
            show ((files1.getD j (new_file [])).uses ++ [x]).length ≤ _
            rw [List.length_append, List.length_singleton]
            exact h4
          · rw [getD_modify_ne _ _ _ _ _ (Ne.symm hj)]
            exact c1 j
        · have hx2 : x ∉ uses_of files idx := hx
          rw [huses]
          unfold add_once
          rw [if_neg hx2]
        · rw [huses]; simp
        · intro j hj
          rw [← c2 j]
          unfold uses_of
          rw [getD_modify_ne _ _ _ _ _ (Ne.symm hj)]

theorem ensure_file_capacity_cap (fl : FileList) (hok : FileCapOK fl) :
    (ensure_file_capacity fl = none ↔
      fl.file_capacity ≤ fl.files.length ∧
      MAX_FILE_CAPACITY < grown INITIAL_FILE_CAPACITY fl.file_capacity) ∧
    ∀ fl1, ensure_file_capacity fl = some fl1 →
      fl1.files = fl.files ∧ fl1.files.length < fl1.file_capacity ∧
      (fl1.file_capacity = 0 ∨ ∃ k : Nat, fl1.file_capacity = INITIAL_FILE_CAPACITY * 2 ^ k) ∧
      fl1.file_capacity ≤ MAX_FILE_CAPACITY := by
  unfold ensure_file_capacity
  dsimp only
  have hgt := @grown_gt INITIAL_FILE_CAPACITY fl.file_capacity (by decide)
  by_cases h1 : fl.files.length ≥ fl.file_capacity
  · rw [if_pos h1]
    by_cases h2 : (if fl.file_capacity = 0 then INITIAL_FILE_CAPACITY
        else fl.file_capacity * 2) ≤ MAX_FILE_CAPACITY
    · rw [if_pos h2]
      refine ⟨⟨fun h => absurd h (by simp), fun h => absurd h2 (Nat.not_le.2 h.2)⟩, ?_⟩
      intro fl1 hs
      simp only [Option.some.injEq] at hs
      subst hs
      exact ⟨rfl, Nat.lt_of_le_of_lt hok.2.1 hgt, Or.inr (grown_form hok.1), h2⟩
    · rw [if_neg h2]
      refine ⟨⟨fun _ => ⟨h1, Nat.not_le.1 h2⟩, fun _ => rfl⟩, ?_⟩
      intro fl1 hs
      exact absurd hs (by simp)
  · rw [if_neg h1]
    refine ⟨⟨fun h => absurd h (by simp), fun h => absurd h.1 h1⟩, ?_⟩
    intro fl1 hs
    simp only [Option.some.injEq] at hs
    subst hs
    exact ⟨rfl, Nat.not_le.1 h1, hok.1, hok.2.2⟩

theorem add_file_cap (fl : FileList) (path : CStr) (hok : FileCapOK fl) :
    (add_file fl path = none ↔
      fl.file_capacity ≤ fl.files.length ∧
      MAX_FILE_CAPACITY < grown INITIAL_FILE_CAPACITY fl.file_capacity) ∧
    ∀ fl2, add_file fl path = some fl2 →
      FileCapOK fl2 ∧ fl2.files = fl.files ++ [new_file (path.take 1023)] := by
  obtain ⟨e1, e2⟩ := ensure_file_capacity_cap fl hok
  unfold add_file
  cases hE : ensure_file_capacity fl with
  | none =>
    refine ⟨⟨fun _ => e1.1 hE, fun _ => rfl⟩, ?_⟩
    intro fl2 hs
    exact absurd hs (by simp)
  | some fl1 =>
    obtain ⟨c1, c2, c3, c4⟩ := e2 fl1 hE
    refine ⟨⟨fun h => absurd h (by simp), fun h => ?_⟩, ?_⟩
    · have := e1.2 h
      rw [hE] at this
      exact absurd this (by simp)
    · intro fl2 hs
      simp only [Option.some.injEq] at hs
      subst hs
      refine ⟨⟨c3, ?_, c4⟩, by rw [c1]⟩
      show (fl1.files ++ [_]).length ≤ _
      rw [List.length_append, List.length_singleton]
      exact c2

theorem uses_full_iff {cap len : Nat}
    (h1 : cap = 0 ∨ ∃ k : Nat, cap = INITIAL_USES_CAPACITY * 2 ^ k)
    (h2 : len ≤ cap) (h3 : cap ≤ MAX_USES_CAPACITY) :
    (cap ≤ len ∧ MAX_USES_CAPACITY < grown INITIAL_USES_CAPACITY cap) ↔ len = 8192 := by
  have htop := uses_capacity_top h1 h3
  constructor
  · rintro ⟨h4, h5⟩
    have := htop.1 h5
    omega
  · intro h
    have hg : MAX_USES_CAPACITY < grown INITIAL_USES_CAPACITY cap := by
      unfold grown MAX_USES_CAPACITY INITIAL_USES_CAPACITY at *
      split <;> omega
    have := htop.1 hg
    exact ⟨by omega, hg⟩

theorem files_full_iff {cap len : Nat}
    (h1 : cap = 0 ∨ ∃ k : Nat, cap = INITIAL_FILE_CAPACITY * 2 ^ k)
    (h2 : len ≤ cap) (h3 : cap ≤ MAX_FILE_CAPACITY) :
    (cap ≤ len ∧ MAX_FILE_CAPACITY < grown INITIAL_FILE_CAPACITY cap) ↔ len = 65536 := by
  have htop := file_capacity_top h1 h3
  constructor
  · rintro ⟨h4, h5⟩
    have := htop.1 h5
    omega
  · intro h
    have hg : MAX_FILE_CAPACITY < grown INITIAL_FILE_CAPACITY cap := by
      unfold grown MAX_FILE_CAPACITY INITIAL_FILE_CAPACITY at *
      split <;> omega
    have := htop.1 hg
    exact ⟨by omega, hg⟩

theorem add_file_none_iff (fl : FileList) (path : CStr) (hok : FileCapOK fl) :
    add_file fl path = none ↔ fl.files.length = 65536 := by
  rw [(add_file_cap fl path hok).1]
  exact files_full_iff hok.1 hok.2.1 hok.2.2

/-- The directory scan stores every file up to the 65536th and fails on the next. -/
theorem read_files_spec (paths : List CStr) :
    (paths.length ≤ 65536 → ∃ fl, read_files paths = some fl ∧ FileCapOK fl ∧
      fl.files = paths.map (fun p => new_file (p.take 1023))) ∧
    (65536 < paths.length → read_files paths = none) := by
  induction paths using List.reverseRecOn with
  | nil =>
    refine ⟨fun _ => ⟨_, rfl, ⟨Or.inl rfl, Nat.le_refl _, Nat.zero_le _⟩, rfl⟩, ?_⟩
    intro h
    simp at h
  | append_singleton ps p ih =>
    have hstep : read_files (ps ++ [p]) = (read_files ps).bind (fun fl => add_file fl p) := by
      unfold read_files
      rw [List.foldlM_append]
      simp [List.foldlM, bind]
    rw [hstep]
    simp only [List.length_append, List.length_singleton]
    by_cases hps : ps.length ≤ 65536
    · obtain ⟨fl, h1, h2, h3⟩ := ih.1 hps
      have hlen : fl.files.length = ps.length := by rw [h3, List.length_map]
      rw [h1, Option.some_bind]
      constructor
      · intro hle
        cases hA : add_file fl p with
        | none =>
          have := (add_file_none_iff fl p h2).1 hA
          omega
        | some fl2 =>
          obtain ⟨c1, c2⟩ := (add_file_cap fl p h2).2 fl2 hA
          exact ⟨fl2, rfl, c1, by rw [c2, h3, List.map_append]; rfl⟩
      · intro hgt
        exact (add_file_none_iff fl p h2).2 (by omega)
    · have := ih.2 (by omega)
      rw [this]
      exact ⟨fun h => by omega, fun _ => rfl⟩

theorem foldlM_preserves {α β : Type} (P : β → Prop) (f : β → α → Option β) (l : List α)
    (hf : ∀ b a b2, a ∈ l → P b → f b a = some b2 → P b2) :
    ∀ b b2, P b → l.foldlM f b = some b2 → P b2 := by
  induction l with
  | nil =>
    intro b b2 hb h
    simp only [List.foldlM_nil] at h
    injection h with h
    rw [← h]; exact hb
  | cons a l ih =>
    intro b b2 hb h
    rw [List.foldlM_cons] at h
    cases hfa : f b a with
    | none => rw [hfa] at h; simp [bind] at h
    | some b1 =>
      rw [hfa] at h
      have h2 : l.foldlM f b1 = some b2 := by simpa [bind] using h
      exact ih (fun b a b2 ha => hf b a b2 (List.mem_cons_of_mem _ ha)) b1 b2
        (hf b a b1 (List.mem_cons_self _ _) hb hfa) h2

theorem foldl_preserves {α β : Type} (P : β → Prop) (f : β → α → β) (l : List α)
    (hf : ∀ b a, a ∈ l → P b → P (f b a)) : ∀ b, P b → P (l.foldl f b) := by
  induction l with
  | nil => intro b hb; exact hb
  | cons a l ih =>
    intro b hb
    exact ih (fun b a ha => hf b a (List.mem_cons_of_mem _ ha)) _
      (hf b a (List.mem_cons_self _ _) hb)

theorem define_line_cap (n i : Nat) (st : Prog) (line : CStr)
    (h : UsesCapAll n st.files) : UsesCapAll n (define_line i st line).files := by
  rw [define_line_eq]
  cases def_key line with
  | none => exact h
  | some k =>
    refine ⟨by simp [h.1], ?_⟩
    intro j
    show UsesCapOK ((st.files.modify (fun f => { f with module_name := k }) i).getD j (new_file []))
    by_cases hj : j = i
    · subst hj
      by_cases hlt : j < st.files.length
      · rw [getD_modify_eq _ _ _ _ hlt]
        exact h.2 j
      · rw [List.modify_eq_self (Nat.le_of_not_lt hlt)]
        exact h.2 j
    · rw [getD_modify_ne _ _ _ _ _ (Ne.symm hj)]
      exact h.2 j

theorem init_prog_cap (paths : List CStr) : UsesCapAll paths.length (init_prog paths).files := by
  refine ⟨by simp [init_prog], ?_⟩
  intro j
  unfold init_prog
  rw [List.getD_eq_getElem?_getD, List.getElem?_map]
  cases paths[j]? with
  | none => exact new_file_cap []
  | some p => exact new_file_cap p

theorem find_defined_modules_cap (contents : List (List CStr)) (paths : List CStr) :
    UsesCapAll paths.length (find_defined_modules contents (init_prog paths)).files := by
  unfold find_defined_modules
  apply foldl_preserves (fun st : Prog => UsesCapAll paths.length st.files)
  · intro st i _ hst
    apply foldl_preserves (fun st : Prog => UsesCapAll paths.length st.files)
    · intro st2 line _ hst2
      exact define_line_cap _ i st2 line hst2
    · exact hst
  · exact init_prog_cap paths

theorem use_line_cap (n : Nat) (table : HashTable) (i : Nat) (hi : i < n)
    (files files2 : List FortranFile) (line : CStr) (h : UsesCapAll n files)
    (hs : use_line table i files line = some files2) : UsesCapAll n files2 := by
  rw [use_line_eq] at hs
  cases hr : resolved_line table line with
  | none =>
    rw [hr] at hs
    simp only [Option.some.injEq] at hs
    rw [← hs]; exact h
  | some idx =>
    rw [hr] at hs
    have hi2 : i < files.length := by rw [h.1]; exact hi
    exact ⟨by rw [(add_used_module_spec hi2 hs).1, h.1],
      ((add_used_module_cap files i idx hi2 h.2).2 files2 hs).1⟩

/-- After the two scanning passes every reference list is within its capacity and
every capacity within the ceiling. -/
theorem scan_cap {srcs : List Source} {st2 : Prog} (h : scan srcs = some st2) :
    ∀ j, UsesCapOK (st2.files.getD j (new_file [])) := by
  unfold scan find_used_modules at h
  rw [Option.map_eq_some'] at h
  obtain ⟨files2, hf, hst⟩ := h
  subst hst
  have h0 := find_defined_modules_cap (srcs.map Source.lines) (srcs.map Source.path)
  rw [h0.1] at hf
  have := foldlM_preserves (UsesCapAll (srcs.map Source.path).length) _ _
    (fun files i files3 hi hfiles hs =>
      foldlM_preserves (UsesCapAll (srcs.map Source.path).length) _ _
        (fun b line b2 _ hb hb2 => use_line_cap _ _ i (List.mem_range.1 hi) b b2 line hb hb2)
        files files3 hfiles hs)
    _ files2 h0 hf
  exact this.2

/-- C17: the reference list of a file and the file list grow geometrically below a
hard ceiling. A capacity is 0 or the initial capacity (16 for references, 1024 for
files) times a power of two, and `count <= capacity <= ceiling` (10000 references,
100000 files) holds for a new entry, after `ensure_uses_capacity`, `add_used_module`,
`ensure_file_capacity` and `add_file`, and after the scanning passes of every run. An
addition fails (the `assert`) exactly when the entry is new, the list is full and the
doubled capacity is above the ceiling, which is at 8192 references and at 65536 files;
every other addition stores the entry. -/
theorem capacity_growth :
    (∀ p, UsesCapOK (new_file p)) ∧
    (∀ (files : List FortranFile) (idx : Nat) (x : Int), idx < files.length →
      (∀ j, UsesCapOK (files.getD j (new_file []))) →
      (add_used_module files idx x = none ↔
        x ∉ uses_of files idx ∧
        (files.getD idx (new_file [])).uses_capacity ≤ (uses_of files idx).length ∧
        MAX_USES_CAPACITY <
          grown INITIAL_USES_CAPACITY (files.getD idx (new_file [])).uses_capacity) ∧
      (add_used_module files idx x = none ↔
        x ∉ uses_of files idx ∧ (uses_of files idx).length = 8192) ∧
      ∀ files2, add_used_module files idx x = some files2 →
        (∀ j, UsesCapOK (files2.getD j (new_file []))) ∧
        uses_of files2 idx = add_once (uses_of files idx) x ∧ x ∈ uses_of files2 idx ∧
        (∀ j, j ≠ idx → uses_of files2 j = uses_of files j)) ∧
    (∀ (files files1 : List FortranFile) (idx : Nat),
      (∀ j, UsesCapOK (files.getD j (new_file []))) →
      ensure_uses_capacity files idx = some files1 →
      ∀ j, UsesCapOK (files1.getD j (new_file [])) ∧ uses_of files1 j = uses_of files j) ∧
    (∀ (srcs : List Source) (st2 : Prog), scan srcs = some st2 →
      ∀ j, UsesCapOK (st2.files.getD j (new_file []))) ∧
    FileCapOK initial_file_list ∧
    (∀ (fl : FileList) (path : CStr), FileCapOK fl →
      (add_file fl path = none ↔
        fl.file_capacity ≤ fl.files.length ∧
        MAX_FILE_CAPACITY < grown INITIAL_FILE_CAPACITY fl.file_capacity) ∧
      (add_file fl path = none ↔ fl.files.length = 65536) ∧
      ∀ fl2, add_file fl path = some fl2 →
        FileCapOK fl2 ∧ fl2.files = fl.files ++ [new_file (path.take 1023)]) ∧
    (∀ fl fl1 : FileList, FileCapOK fl → ensure_file_capacity fl = some fl1 →
      FileCapOK fl1 ∧ fl1.files = fl.files) ∧
    (∀ paths : List CStr,
      (paths.length ≤ 65536 → ∃ fl, read_files paths = some fl ∧ FileCapOK fl ∧
        fl.files = paths.map (fun p => new_file (p.take 1023))) ∧
      (65536 < paths.length → read_files paths = none)) := by
  refine ⟨new_file_cap, ?_, ?_, fun srcs st2 h => scan_cap h,
    ⟨Or.inl rfl, Nat.le_refl _, Nat.zero_le _⟩, ?_, ?_, read_files_spec⟩
  · intro files idx x hidx hok
    obtain ⟨h1, h2⟩ := add_used_module_cap files idx x hidx hok
    refine ⟨h1, ?_, h2⟩
    rw [h1]
    have := hok idx
    have hiff := @uses_full_iff _ (uses_of files idx).length this.1 this.2.1 this.2.2
    rw [hiff]
  · intro files files1 idx hok hs j
    obtain ⟨c1, c2, _, _⟩ := (ensure_uses_capacity_cap files idx hok).2 files1 hs
    exact ⟨c1 j, c2 j⟩
  · intro fl path hok
    exact ⟨(add_file_cap fl path hok).1, add_file_none_iff fl path hok,
      (add_file_cap fl path hok).2⟩
  · intro fl fl1 hok hs
    obtain ⟨c1, c2, c3, c4⟩ := (ensure_file_capacity_cap fl hok).2 fl1 hs
    exact ⟨⟨c3, Nat.le_of_lt c2, c4⟩, c1⟩

/-- The first reference of a file gets the capacity 16 and is stored, the first file
gets the capacity 1024 and is stored; a new reference to a file that holds 8192
references fails, and so does a new file after 65536 files. -/
theorem capacity_growth_witness :
    (add_used_module [new_file (cstr "f.f90")] 0 5).map
      (fun files => (uses_of files 0, (files.getD 0 (new_file [])).uses_capacity)) =
      some ([5], 16) ∧
    (5 : Int) ∈ uses_of
      [{ filename := cstr "f.f90", module_name := [], uses := [5], uses_capacity := 16 }] 0 ∧
    (add_file initial_file_list (cstr "f.f90")).map
      (fun fl => (fl.files, fl.file_capacity)) = some ([new_file (cstr "f.f90")], 1024) ∧
    add_used_module full_uses_files 0 8192 = none ∧
    add_file full_file_list (cstr "f.f90") = none := by
  have huses : uses_of full_uses_files 0 = (List.range 8192).map Int.ofNat := by
    simp only [uses_of, full_uses_files, List.getD_cons_zero]
  have hlen : (uses_of full_uses_files 0).length = 8192 := by
    rw [huses, List.length_map, List.length_range]
  have hfl : full_file_list.files.length = 65536 := List.length_replicate _ _
  have hfull : ∀ j, UsesCapOK (full_uses_files.getD j (new_file [])) := by
    intro j
    match j with
    | 0 => exact ⟨Or.inr ⟨9, by decide⟩, Nat.le_of_eq hlen, by decide⟩
    | j + 1 => exact new_file_cap []
  have hnew : ∀ j, UsesCapOK ([new_file (cstr "f.f90")].getD j (new_file [])) := by
    intro j
    match j with
    | 0 => exact new_file_cap _
    | j + 1 => exact new_file_cap []
  refine ⟨by decide, ?_, by decide, ?_, ?_⟩
  · exact ((capacity_growth.2.1 [new_file (cstr "f.f90")] 0 5 (by decide) hnew).2.2
      [{ filename := cstr "f.f90", module_name := [], uses := [5], uses_capacity := 16 }]
      (by decide)).2.2.1
  · refine (capacity_growth.2.1 full_uses_files 0 8192 (by decide) hfull).2.1.2 ⟨?_, ?_⟩
    · rw [huses, List.mem_map]
      rintro ⟨i, hi, h⟩
      rw [List.mem_range] at hi
      have h2 : (i : Int) = 8192 := h
      omega
    · exact hlen
  · exact (capacity_growth.2.2.2.2.2.1 full_file_list (cstr "f.f90")
      ⟨Or.inr ⟨6, by decide⟩, Nat.le_of_eq hfl, by decide⟩).2.1.2 hfl

/-! ## The bound of the edge lists -/

theorem relax_trace_last (es : List Nat) : ∀ st : TopoState,
    (relax_trace st es).getLast?.getD st = es.foldl relax st := by
  induction es with
  | nil => intro st; rfl
  | cons v es ih =>
    intro st
    have := ih (relax st v)
    simp only [relax_trace, List.foldl_cons]
    rw [← this]
    cases h : relax_trace (relax st v) es with
    | nil => simp
    | cons a b =>
      rw [List.getLast?_cons_cons]
      cases hg : (a :: b).getLast? with
      | none => simp at hg
      | some y => simp

theorem step_trace_last (adj : List AdjList) (st : TopoState) :
    (step_trace adj st).getLast? = some (topo_step adj st) := by
  have ht : topo_step adj st =
      (out_edges adj (st.queue.getD st.front 0)).foldl relax (dequeue st) := rfl
  unfold step_trace
  rw [ht, ← relax_trace_last]
  cases h : relax_trace (dequeue st) (out_edges adj (st.queue.getD st.front 0)) with
  | nil => simp
  | cons a b =>
    rw [List.getLast?_cons_cons]
    cases hb : (a :: b).getLast? with
    | none => simp at hb
    | some y => simp

theorem loop_trace_ne_nil (adj : List AdjList) (fuel : Nat) (st : TopoState) :
    loop_trace adj fuel st ≠ [] := by
  cases fuel with
  | zero => simp [loop_trace]
  | succ fuel =>
    unfold loop_trace
    split <;> simp

/-- The trace ends in the state in which the loop ends. -/
theorem loop_trace_last (adj : List AdjList) (fuel : Nat) : ∀ (st st2 : TopoState),
    topo_loop adj fuel st = some st2 → (loop_trace adj fuel st).getLast? = some st2 := by
  induction fuel with
  | zero =>
    intro st st2 h
    unfold topo_loop at h
    split at h
    · simp at h
    · simp only [Option.some.injEq] at h
      subst h
      rfl
  | succ fuel ih =>
    intro st st2 h
    unfold topo_loop at h
    unfold loop_trace
    split at h
    · rename_i hlt
      rw [if_pos hlt]
      have := ih _ _ h
      rw [← List.cons_append, List.getLast?_append_of_ne_nil _ (loop_trace_ne_nil _ _ _)]
      exact this
    · rename_i hlt
      rw [if_neg hlt]
      simp only [Option.some.injEq] at h
      subst h
      rfl

theorem safe_of_inv {n : Nat} {adj : List AdjList} {done pending : List Nat} {st : TopoState}
    (inv : KahnInv n adj done pending st) (hf : st.front ≤ st.queue.length)
    (hs : st.sorted.length = st.front) : Safe n st := by
  have hq := queue_length_le inv.nodup inv.lt
  refine ⟨hf, hq, hs, by omega, inv.nodup, inv.lt, inv.len, ?_⟩
  intro d hd
  obtain ⟨v, hv, hvd⟩ := List.getElem_of_mem hd
  have h1 := inv.deg v (by rw [← inv.len]; exact hv)
  rw [List.getD_eq_getElem _ _ hv, hvd] at h1
  omega

theorem relax_trace_inv {n : Nat} {adj : List AdjList} (hwf : WellFormed n adj)
    {done : List Nat} (es : List Nat) : ∀ (st : TopoState), (∀ v ∈ es, v < n) →
    KahnInv n adj done es st → ∀ s ∈ relax_trace st es,
      (∃ p, KahnInv n adj done p s) ∧ s.front = st.front ∧ s.sorted = st.sorted ∧
        st.queue.length ≤ s.queue.length := by
  induction es with
  | nil => intro st _ _ s hs; simp [relax_trace] at hs
  | cons v es ih =>
    intro st hes inv s hs
    have h1 := relax_inv hwf inv (hes v (by simp))
    obtain ⟨ext, hq⟩ := relax_queue st v
    have hlen : st.queue.length ≤ (relax st v).queue.length := by
      rw [hq, List.length_append]; omega
    simp only [relax_trace, List.mem_cons] at hs
    rcases hs with rfl | hs
    · exact ⟨⟨es, h1⟩, relax_front st v, relax_sorted st v, hlen⟩
    · obtain ⟨h2, h3, h4, h5⟩ := ih (relax st v) (fun w hw => hes w (by simp [hw])) h1 s hs
      exact ⟨h2, by rw [h3, relax_front], by rw [h4, relax_sorted], by omega⟩

/-- The state after a node was taken from the queue satisfies the invariant, with the
out-edges of the node pending. -/
theorem dequeue_inv {n : Nat} {adj : List AdjList} {st : TopoState} (inv : LoopInv n adj st)
    (hlt : st.front < st.queue.length) :
    st.queue.getD st.front 0 < n ∧
    KahnInv n adj (st.sorted ++ [st.queue.getD st.front 0])
      (out_edges adj (st.queue.getD st.front 0)) (dequeue st) := by
  unfold dequeue
  obtain ⟨u, hu⟩ : ∃ u, st.queue.getD st.front 0 = u := ⟨_, rfl⟩
  rw [hu]
  have hget : st.queue[st.front]? = some u := by
    rw [← hu, List.getD_eq_getElem _ _ hlt, List.getElem?_eq_getElem hlt]
  have humem : u ∈ st.queue := List.getElem?_mem hget
  have hun : u < n := inv.inv.lt _ humem
  have htake : st.queue.take (st.front + 1) = st.queue.take st.front ++ [u] := by
    rw [List.take_succ, hget]; rfl
  have hnot : u ∉ st.sorted := by
    rw [inv.sorted_eq]
    intro hmem
    have hnd := inv.inv.nodup
    rw [← List.take_append_drop (st.front + 1) st.queue, htake] at hnd
    have := (List.nodup_append.1 (List.nodup_append.1 hnd).1).2.2
    exact this hmem (by simp)
  refine ⟨hun, inv.inv.nodup, inv.inv.lt, inv.inv.len, ?_, ?_, inv.inv.zero, inv.inv.order⟩
  · intro x hx
    rcases List.mem_append.1 hx with h | h
    · exact inv.inv.done_sub x h
    · rw [List.mem_singleton.1 h]; exact humem
  · intro v hv
    have := inv.inv.deg v hv
    simp only [List.count_nil, Nat.add_zero] at this
    show st.in_degree.getD v 0 = _
    rw [this, residual_snoc adj n st.sorted _ v hun hnot]

theorem loop_inv_safe {n : Nat} {adj : List AdjList} {st : TopoState} (inv : LoopInv n adj st) :
    Safe n st := by
  apply safe_of_inv inv.inv inv.front_le
  rw [inv.sorted_eq, List.length_take]
  have := inv.front_le
  omega

theorem step_trace_safe {n : Nat} {adj : List AdjList} (hwf : WellFormed n adj)
    {st : TopoState} (inv : LoopInv n adj st) (hlt : st.front < st.queue.length) :
    ∀ s ∈ step_trace adj st, Safe n s := by
  obtain ⟨hun, h0⟩ := dequeue_inv inv hlt
  have hlen : st.sorted.length = st.front := (loop_inv_safe inv).2.2.1
  intro s hs
  unfold step_trace at hs
  simp only [List.mem_cons] at hs
  rcases hs with rfl | hs
  · exact safe_of_inv h0 (by show st.front + 1 ≤ st.queue.length; omega)
      (by show (st.sorted ++ [_]).length = st.front + 1; simp [hlen])
  · obtain ⟨⟨p, h1⟩, h2, h3, h4⟩ := relax_trace_inv hwf _ _ (out_edges_lt hwf _) h0 s hs
    apply safe_of_inv h1
    · rw [h2]
      have : st.front + 1 ≤ st.queue.length := hlt
      exact Nat.le_trans this h4
    · rw [h2, h3]
      show (st.sorted ++ [_]).length = st.front + 1
      simp [hlen]

theorem loop_trace_safe {n : Nat} {adj : List AdjList} (hwf : WellFormed n adj) (fuel : Nat) :
    ∀ st : TopoState, LoopInv n adj st → ∀ s ∈ loop_trace adj fuel st, Safe n s := by
  induction fuel with
  | zero =>
    intro st inv s hs
    simp only [loop_trace, List.mem_singleton] at hs
    rw [hs]; exact loop_inv_safe inv
  | succ fuel ih =>
    intro st inv s hs
    unfold loop_trace at hs
    split at hs
    · rename_i hlt
      simp only [List.mem_cons, List.mem_append] at hs
      rcases hs with rfl | hs | hs
      · exact loop_inv_safe inv
      · exact step_trace_safe hwf inv hlt s hs
      · exact ih _ (topo_step_inv hwf inv hlt).1 s hs
    · simp only [List.mem_singleton] at hs
      rw [hs]; exact loop_inv_safe inv

/-- C19: on a graph of `n` nodes whose in-degree counts match its adjacency lists
`topologic_sort` returns, and every state that its `while` loop goes through, at every
loop test, after every dequeue and after every relaxation of an edge, is within bounds:
`0 <= front <= back <= n`, `count = front <= n`, no node is in the queue twice, the
queue holds nodes, and no in-degree count is negative. So the node taken from the
queue indexes `adj`, the write to `sorted` is at an index below `n`, and the targets
of the relaxed edges index `in_degree`. -/
theorem topologic_sort_in_bounds (n : Nat) (g : Graph) (len0 : Nat)
    (hwf : WellFormed n g.adj) (hm : InDegreeMatches n g) :
    (∃ r, topologic_sort n g len0 = some r) ∧
    (∃ st2, topo_loop g.adj n (initial_state n g.in_degree) = some st2 ∧
      (loop_trace g.adj n (initial_state n g.in_degree)).getLast? = some st2) ∧
    ∀ s ∈ loop_trace g.adj n (initial_state n g.in_degree),
      Safe n s ∧
      (s.front < s.queue.length →
        s.queue.getD s.front 0 < g.adj.length ∧ s.sorted.length < n ∧
        ∀ v ∈ out_edges g.adj (s.queue.getD s.front 0), v < s.in_degree.length) := by
  obtain ⟨st, _, _, hr⟩ := topologic_sort_result len0 hwf hm
  obtain ⟨st2, h1, _, _⟩ := topo_loop_result hwf hm
  refine ⟨⟨_, hr⟩, ⟨st2, h1, loop_trace_last _ _ _ _ h1⟩, ?_⟩
  intro s hs
  have hsafe := loop_trace_safe hwf n _ (initial_inv hwf hm) s hs
  refine ⟨hsafe, ?_⟩
  intro hlt
  obtain ⟨_, h2, h3, _, _, h6, h7, _⟩ := hsafe
  have hmem : s.queue.getD s.front 0 ∈ s.queue := by
    rw [List.getD_eq_getElem _ _ hlt]
    exact List.getElem_mem _
  refine ⟨by rw [hwf.1]; exact h6 _ hmem, by omega, ?_⟩
  intro v hv
  rw [h7]
  exact out_edges_lt hwf _ v hv

/-- The diamond graph: the loop ends with the queue `[0, 1, 2]`, and its trace is
within the bounds of the arrays of 3 elements. -/
theorem topologic_sort_in_bounds_witness :
    WellFormed 3 diamond_graph.adj ∧ InDegreeMatches 3 diamond_graph ∧
    (topo_loop diamond_graph.adj 3 (initial_state 3 diamond_graph.in_degree)).map
      TopoState.queue = some [0, 1, 2] ∧
    (loop_trace diamond_graph.adj 3 (initial_state 3 diamond_graph.in_degree)).length = 10 ∧
    ((∃ r, topologic_sort 3 diamond_graph 3 = some r) ∧
    (∃ st2, topo_loop diamond_graph.adj 3 (initial_state 3 diamond_graph.in_degree) = some st2 ∧
      (loop_trace diamond_graph.adj 3 (initial_state 3 diamond_graph.in_degree)).getLast? =
        some st2) ∧
    ∀ s ∈ loop_trace diamond_graph.adj 3 (initial_state 3 diamond_graph.in_degree),
      Safe 3 s ∧
      (s.front < s.queue.length →
        s.queue.getD s.front 0 < diamond_graph.adj.length ∧ s.sorted.length < 3 ∧
        ∀ v ∈ out_edges diamond_graph.adj (s.queue.getD s.front 0),
          v < s.in_degree.length)) :=
  ⟨by unfold WellFormed; decide, by unfold InDegreeMatches; decide, by decide, by decide,
    topologic_sort_in_bounds 3 diamond_graph 3 (by unfold WellFormed; decide)
      (by unfold InDegreeMatches; decide)⟩

/-! ## Several modules in one file -/

/-- The field `module_name` after the first pass over the lines of file `i`. -/
theorem define_lines_module_name (i : Nat) (lines : List CStr) : ∀ st : Prog,
    i < st.files.length →
    ∀ j, module_name_of (lines.foldl (define_line i) st).files j =
      if j = i then (defined_keys lines).getLast?.getD (module_name_of st.files i)
      else module_name_of st.files j := by
  induction lines with
  | nil => intro st _ j; by_cases h : j = i <;> simp [defined_keys, h]
  | cons l ls ih =>
    intro st hi j
    simp only [List.foldl_cons]
    have hlen : (define_line i st l).files.length = st.files.length := by
      rw [define_line_eq]; cases def_key l <;> simp
    rw [ih (define_line i st l) (by omega) j]
    have hmod : ∀ j, module_name_of (define_line i st l).files j =
        if j = i then (def_key l).getD (module_name_of st.files i)
        else module_name_of st.files j := by
      intro j
      rw [define_line_eq]
      cases hk : def_key l with
      | none => by_cases h : j = i <;> simp [h]
      | some k =>
        unfold module_name_of
        by_cases h : j = i
        · subst h
          simp only [if_true, Option.getD_some]
          rw [getD_modify_eq _ _ _ _ hi]
        · rw [if_neg h, getD_modify_ne _ _ _ _ _ (Ne.symm h)]
    by_cases h : j = i
    · simp only [h, if_true]
      rw [hmod i, if_pos rfl]
      unfold defined_keys
      cases hk : def_key l with
      | none => simp [List.filterMap_cons, hk]
      | some k =>
        simp only [List.filterMap_cons, hk, Option.getD_some]
        cases hr : List.filterMap def_key ls with
        | nil => simp
        | cons x xs =>
          cases hg : (x :: xs).getLast? with
          | none => simp at hg
          | some y => simp [hg]
    · simp only [h, if_false]
      rw [hmod j, if_neg h]

/-- The field `module_name` after the first pass over the files `0..m-1`. -/
theorem find_defined_module_name (contents : List (List CStr)) (st : Prog) (m : Nat)
    (hm : m ≤ st.files.length) :
    ∀ j, module_name_of ((List.range m).foldl
        (fun st i => (contents.getD i []).foldl (define_line i) st) st).files j =
      if j < m then (defined_keys (contents.getD j [])).getLast?.getD (module_name_of st.files j)
      else module_name_of st.files j := by
  induction m with
  | zero => intro j; simp
  | succ m ih =>
    intro j
    rw [List.range_succ, List.foldl_append]
    simp only [List.foldl_cons, List.foldl_nil]
    have hlen := (find_defined_upto contents st m).2.1
    rw [define_lines_module_name m _ _ (by omega) j]
    by_cases hj : j = m
    · subst hj
      rw [if_pos rfl, if_pos (by omega), ih (by omega) j, if_neg (by omega)]
    · rw [if_neg hj, ih (by omega) j]
      by_cases hlt : j < m
      · rw [if_pos hlt, if_pos (by omega)]
      · rw [if_neg hlt, if_neg (by omega)]

/-- C20: a file may define several modules. After `find_defined_modules`, for every
name that an accepted definition line of some file defines, `hash_lookup` gives the
last file in enumeration order that has an accepted definition line for it, while the
field `module_name` of a file holds the name of the last accepted definition line of
that file (it stays empty when there is none). So a reference to any of the names that
a file defines resolves to that file, when no later file defines the name too, and
not only a reference to the name defined last. -/
theorem several_modules_per_file (contents : List (List CStr)) (paths : List CStr) :
    (∀ k, (∃ d, d < paths.length ∧ k ∈ defined_keys (contents.getD d [])) →
      ∃ d : Nat, d < paths.length ∧
        hash_lookup (find_defined_modules contents (init_prog paths)).hash_table k = (d : Int) ∧
        k ∈ defined_keys (contents.getD d []) ∧
        ∀ e, d < e → e < paths.length → k ∉ defined_keys (contents.getD e [])) ∧
    (∀ i, i < paths.length →
      module_name_of (find_defined_modules contents (init_prog paths)).files i =
        (defined_keys (contents.getD i [])).getLast?.getD []) ∧
    (∀ (d : Nat) (k : CStr), d < paths.length → k ∈ defined_keys (contents.getD d []) →
      (∀ e, d < e → e < paths.length → k ∉ defined_keys (contents.getD e [])) →
      hash_lookup (find_defined_modules contents (init_prog paths)).hash_table k = (d : Int) ∧
      ∀ (files : List FortranFile) (f : Nat) (line : CStr), use_key line = some k →
        use_line (find_defined_modules contents (init_prog paths)).hash_table f files line =
          add_used_module files f (d : Int)) := by
  have hspec := find_defined_modules_spec contents paths
  refine ⟨?_, ?_, ?_⟩
  · rintro k ⟨d0, hd0, hk0⟩
    have hne : registry contents paths.length k ≠ -1 := fun h =>
      (registry_eq_neg_one_iff _ _ _).1 h d0 hd0 hk0
    rcases registry_range contents paths.length k with h | ⟨h1, h2⟩
    · exact absurd h hne
    · obtain ⟨d, hd⟩ := Int.eq_ofNat_of_zero_le h1
      have := (registry_eq_iff _ _ _ d).1 hd
      exact ⟨d, this.1, by rw [hspec.1 k, hd], this.2.1, this.2.2⟩
  · intro i hi
    unfold find_defined_modules
    have hlen : (init_prog paths).files.length = paths.length := by simp [init_prog]
    rw [find_defined_module_name contents _ _ (Nat.le_refl _) i, hlen, if_pos hi]
    have : module_name_of (init_prog paths).files i = [] := by
      unfold module_name_of init_prog
      simp [List.getD_eq_getElem?_getD, List.getElem?_eq_getElem, hi, new_file]
    rw [this]
  · intro d k hd hk hlast
    have hreg : hash_lookup (find_defined_modules contents (init_prog paths)).hash_table k =
        (d : Int) := by
      rw [hspec.1 k]
      exact (registry_eq_iff _ _ _ d).2 ⟨hd, hk, hlast⟩
    refine ⟨hreg, ?_⟩
    intro files f line hline
    rw [use_line_eq]
    unfold resolved_line
    rw [hline]
    dsimp only
    have hne : (d : Int) ≠ -1 := by omega
    rw [hreg, if_pos hne]

theorem several_modules_per_file_witness :
    defined_keys ((two_modules_srcs.map Source.lines).getD 0 []) = [cstr "m1", cstr "m2"] ∧
    hash_lookup (find_defined_modules (two_modules_srcs.map Source.lines)
      (init_prog (two_modules_srcs.map Source.path))).hash_table (cstr "m1") = 0 ∧
    module_name_of (find_defined_modules (two_modules_srcs.map Source.lines)
      (init_prog (two_modules_srcs.map Source.path))).files 0 = cstr "m2" ∧
    (scan two_modules_srcs).map (fun st => uses_of st.files 1) = some [0] :=
  ⟨by decide,
   ((several_modules_per_file (two_modules_srcs.map Source.lines)
      (two_modules_srcs.map Source.path)).2.2 0 (cstr "m1") (by decide) (by decide)
      (by
        intro e h1 h2
        have h3 : e < 2 := h2
        have h4 : e = 1 := by omega
        subst h4
        decide)).1,
   ((several_modules_per_file (two_modules_srcs.map Source.lines)
      (two_modules_srcs.map Source.path)).2.1 0 (by decide)).trans (by decide),
   by decide⟩

end MakeTopologic
